import Mathlib

/-!
# The row-to-column adapter (`Columnarizer`) of `pkg/sql/colexec/columnarizer.go`

A shallow embedding of the adapter that turns a row-at-a-time `RowSource`
into a column-batch operator, and theorems about its lifecycle: construction,
`Init`, `Next`, `DrainMeta`, `Close`, and about `ChildCount` and `Child`. The
planner method `Grant` of `sql/grant.go` follows in a namespace of its own.

Conventions of the embedding:

* Go panics are values of `Panic`; a method that can panic returns its outcome
  together with the state it leaves behind, because the mutations made before
  the panic stay visible to later calls.
* The allocator (`colmem.Allocator`) and the per-column conversion
  (`EncDatumRowsToColVec`) are collaborators whose code is outside the embedded
  file; they are parameters of `Next`.
* The row source, the batch and the processor base are small models written
  from the interface contracts of the specification.
-/

set_option autoImplicit false

namespace colexec

/-! ## Data model -/

/-- Type descriptor of one output column (`*types.T`), identified by a number. -/
abbrev T := Nat

/-- One encoded value of a row (`rowenc.EncDatum`); `0` is the zero value that
`make(rowenc.EncDatumRow, n)` fills a fresh slot with. -/
abbrev EncDatum := Nat

/-- A row: one encoded value per column (`rowenc.EncDatumRow`). -/
abbrev EncDatumRow := List EncDatum

/-- The staging area of rows (`rowenc.EncDatumRows`). -/
abbrev EncDatumRows := List EncDatumRow

/-- One value of a column vector of a batch. -/
abbrev Datum := Nat

/-- A column vector of a batch (`coldata.Vec`). -/
abbrev ColVec := List Datum

/-- The texts of the assertion failures raised in `columnarizer.go`. -/
inductive AssertMsg where
  | unexpectedColumnarizerMode (mode : Int)
  | shouldNotBeRun
  | inputNotOpNode
  | invalidIndex (nth : Int)
  deriving DecidableEq, Repr

/-- Go `error` values: the assertion failures built by `errors.AssertionFailedf`
and every other error, identified by a code. -/
inductive Error where
  | AssertionFailed (msg : AssertMsg)
  | Other (code : Nat)
  deriving DecidableEq, Repr

/-- The ways a call can unwind instead of returning.
`ExpectedError` and `InternalError` are the two wrappers of `colexecerror`;
`indexOutOfRange` and `nilDereference` are Go runtime panics;
`fuelExhausted` is the outcome of a loop of the embedding that ran out of the
iterations it was given (shown below never to be produced by `Next`). -/
inductive Panic where
  | ExpectedError (err : Error)
  | InternalError (err : Error)
  | indexOutOfRange
  | nilDereference
  | fuelExhausted
  deriving DecidableEq, Repr

/-- Out-of-band message of the row source (`execinfrapb.ProducerMetadata`):
an optional error and a payload. -/
structure ProducerMetadata where
  Err : Option Error
  payload : Nat
  deriving DecidableEq, Repr

/-- Modelled from the spec: the `coldata.Batch` the adapter works on, which the
source only uses through its interface. A column-oriented container: one vector
per output column, a capacity and a logical length. `id` names the underlying
storage, so that "the same batch object" can be stated. -/
structure Batch where
  id : Nat
  capacity : Nat
  length : Nat
  cols : List ColVec
  deriving DecidableEq, Repr

/-- Modelled from the spec: `Batch.ResetInternalBatch`, the reset to zero length
that keeps the capacity and the storage. -/
def Batch.ResetInternalBatch (b : Batch) : Batch :=
  { b with length := 0 }

/-- Modelled from the spec: `Batch.SetLength`, setting the logical length after
population. -/
def Batch.SetLength (b : Batch) (n : Nat) : Batch :=
  { b with length := n }

/-- The rows a batch holds over `ncols` output columns: row `i`, for `i` below the
logical length, is made of entry `i` of each of the first `ncols` column vectors
(an absent entry reads as `none`). -/
def Batch.rows (b : Batch) (ncols : Nat) : List (List (Option Datum)) :=
  (List.range b.length).map (fun i =>
    (List.range ncols).map (fun j => (b.cols[j]?).bind (fun vec => vec[i]?)))

/-- What one pull of the row source can yield besides end-of-stream. -/
inductive Item where
  | row (r : EncDatumRow)
  | meta (m : ProducerMetadata)
  deriving DecidableEq, Repr

/-- Modelled from the spec: the Row Source capability set (`execinfra.RowSource`),
an interface in the source. `pending` is what the source will still yield, in
order, before it signals end-of-stream; `startCalls` and `closedCalls` count the
`Start` and `ConsumerClosed` calls it received; `isOpNode` tells whether it is
itself a plan node. -/
structure RowSource where
  pending : List Item
  types : List T
  startCalls : Nat
  closedCalls : Nat
  isOpNode : Bool
  deriving DecidableEq, Repr

/-- `RowSource.OutputTypes`. -/
def RowSource.OutputTypes (s : RowSource) : List T := s.types

/-- `RowSource.Start`. -/
def RowSource.Start (s : RowSource) : RowSource :=
  { s with startCalls := s.startCalls + 1 }

/-- `RowSource.ConsumerClosed`. -/
def RowSource.ConsumerClosed (s : RowSource) : RowSource :=
  { s with closedCalls := s.closedCalls + 1 }

/-- `RowSource.Next`: the pair `(row, meta)` of the Go protocol, at most one of
which is non-nil; `(nil, nil)` is end-of-stream. -/
def RowSource.Next (s : RowSource) :
    (Option EncDatumRow × Option ProducerMetadata) × RowSource :=
  match s.pending with
  | [] => ((none, none), s)
  | Item.row r :: rest => ((some r, none), { s with pending := rest })
  | Item.meta m :: rest => ((none, some m), { s with pending := rest })

/-- The requests the adapter makes to the allocator, recorded in order. -/
inductive AllocCall where
  | ResetMaybeReallocate (minCapacity : Int)
  | NewMemBatchWithFixedCapacity (capacity : Int)
  deriving DecidableEq, Repr

/-- The allocator (`colmem.Allocator`), a collaborator with internal state `σ`:
`ResetMaybeReallocate typs batch minCapacity` returns a batch and whether it
replaced the one passed in, `NewMemBatchWithFixedCapacity typs capacity` returns
a new batch. -/
structure Allocator (σ : Type) where
  ResetMaybeReallocate : σ → List T → Option Batch → Int → (Batch × Bool) × σ
  NewMemBatchWithFixedCapacity : σ → List T → Int → Batch × σ

/-- The per-column conversion `EncDatumRowsToColVec(rows, vec, columnIdx, t)`:
the vector after the conversion, or the error it returns. -/
abbrev Conv := EncDatumRows → ColVec → Nat → T → Except Error ColVec

/-- Modelled from the spec: the part of `execinfra.ProcessorBase` the adapter
uses. `draining` is the draining state `MoveToDraining` enters, `trailingMeta`
is the metadata the execution machinery itself still wants to emit. -/
structure ProcessorBase where
  outputTypes : List T
  draining : Bool
  trailingMeta : List ProducerMetadata
  deriving DecidableEq, Repr

/-- `ProcessorBase.OutputTypes`. -/
def ProcessorBase.OutputTypes (pb : ProcessorBase) : List T := pb.outputTypes

/-- `OperatorInitStatus`. -/
inductive OperatorInitStatus where
  | OperatorNotInitialized
  | OperatorInitialized
  deriving DecidableEq, Repr

/-- `columnarizerBufferingMode`, the first value of the `iota` block. -/
def columnarizerBufferingMode : Int := 0

/-- `columnarizerStreamingMode`, the second value of the `iota` block. -/
def columnarizerStreamingMode : Int := 1

/-- The `Columnarizer` struct. `allocator` is the internal state of the allocator
it points to and `allocLog` the requests made to it so far; `daAllocSize` is
`da.AllocSize`; the context is left out. -/
structure Columnarizer (σ : Type) where
  ProcessorBase : ProcessorBase
  mode : Int
  allocator : σ
  allocLog : List AllocCall
  input : RowSource
  daAllocSize : Int
  initStatus : OperatorInitStatus
  buffered : EncDatumRows
  batch : Option Batch
  accumulatedMeta : List ProducerMetadata
  typs : List T

/-! ## Construction and `Init` -/

/-- `newColumnarizer`. `pbInit types flowCtx processorID` stands for
`ProcessorBase.Init`, whose code is outside the embedded file: it yields the
initialised processor base or the error it returns. -/
def newColumnarizer {σ : Type} (pbInit : List T → Nat → Int → Except Error ProcessorBase)
    (allocator : σ) (flowCtx : Nat) (processorID : Int) (input : RowSource) (mode : Int) :
    Except Error (Columnarizer σ) :=
  if mode = columnarizerBufferingMode ∨ mode = columnarizerStreamingMode then
    match pbInit input.OutputTypes flowCtx processorID with
    | .error err => .error err
    | .ok pb =>
      .ok { ProcessorBase := pb
            mode := mode
            allocator := allocator
            allocLog := []
            input := input
            daAllocSize := 0
            initStatus := .OperatorNotInitialized
            buffered := []
            batch := none
            accumulatedMeta := []
            typs := pb.OutputTypes }
  else
    .error (.AssertionFailed (.unexpectedColumnarizerMode mode))

/-- `NewBufferingColumnarizer`. -/
def NewBufferingColumnarizer {σ : Type}
    (pbInit : List T → Nat → Int → Except Error ProcessorBase)
    (allocator : σ) (flowCtx : Nat) (processorID : Int) (input : RowSource) :
    Except Error (Columnarizer σ) :=
  newColumnarizer pbInit allocator flowCtx processorID input columnarizerBufferingMode

/-- `NewStreamingColumnarizer`. -/
def NewStreamingColumnarizer {σ : Type}
    (pbInit : List T → Nat → Int → Except Error ProcessorBase)
    (allocator : σ) (flowCtx : Nat) (processorID : Int) (input : RowSource) :
    Except Error (Columnarizer σ) :=
  newColumnarizer pbInit allocator flowCtx processorID input columnarizerStreamingMode

/-- `Columnarizer.Init`. -/
def Columnarizer.Init {σ : Type} (c : Columnarizer σ) : Columnarizer σ :=
  if c.initStatus = .OperatorNotInitialized then
    { c with
      accumulatedMeta := []
      input := c.input.Start
      initStatus := .OperatorInitialized }
  else c

/-- `Init` called `n` times in a row. -/
def Columnarizer.InitN {σ : Type} : Nat → Columnarizer σ → Columnarizer σ
  | 0, c => c
  | n + 1, c => Columnarizer.InitN n c.Init

/-! ## `Next` -/

/-- The `switch c.mode` at the top of `Next`: the adapter with the batch of this
pull, and the `reallocated` flag. A mode that matches no case leaves both as
they were. -/
def Columnarizer.obtainBatch {σ : Type} (A : Allocator σ) (c : Columnarizer σ) :
    Columnarizer σ × Bool :=
  if c.mode = columnarizerBufferingMode then
    let r := A.ResetMaybeReallocate c.allocator c.typs c.batch 1
    ({ c with
       batch := some r.1.1
       allocator := r.2
       allocLog := c.allocLog ++ [.ResetMaybeReallocate 1] }, r.1.2)
  else if c.mode = columnarizerStreamingMode then
    match c.batch with
    | none =>
      let r := A.NewMemBatchWithFixedCapacity c.allocator c.typs 1
      ({ c with
         batch := some r.1
         allocator := r.2
         allocLog := c.allocLog ++ [.NewMemBatchWithFixedCapacity 1] }, true)
    | some b => ({ c with batch := some b.ResetInternalBatch }, false)
  else (c, false)

/-- The growth step of `Next` (the body of `if reallocated`):
`newRows := make(rowenc.EncDatumRows, capacity)`, the bounds probe
`_ = newRows[len(oldRows)]`, the loop that carries the old slots over and the
loop that makes a fresh row of `ncols` zero values for every other slot. -/
def growRows (oldRows : EncDatumRows) (capacity : Nat) (ncols : Nat) :
    Except Panic EncDatumRows :=
  let newRows : EncDatumRows := List.replicate capacity []
  if oldRows.length < newRows.length then
    let newRows := (List.range oldRows.length).foldl
      (fun rows i => rows.set i (oldRows.getD i [])) newRows
    let newRows := (List.range' oldRows.length (newRows.length - oldRows.length)).foldl
      (fun rows i => rows.set i (List.replicate ncols 0)) newRows
    .ok newRows
  else
    .error .indexOutOfRange

/-- Go's built-in `copy(dst, src)`: the first `min(len(dst), len(src))` elements
of `dst` are overwritten, the rest of `dst` stays. -/
def goCopy (dst src : EncDatumRow) : EncDatumRow :=
  src.take (min dst.length src.length) ++ dst.drop (min dst.length src.length)

/-- The fill loop of `Next`, `for ; nRows < c.batch.Capacity(); nRows++`, started
at `nRows` and run for at most `fuel` iterations. It yields the final `nRows`,
or the panic that ended it, and the adapter as the loop left it. `nRows` is a Go
`int`: the metadata branch decrements it and `continue` runs the increment. -/
def Columnarizer.fillLoop {σ : Type} :
    Nat → Nat → Int → Columnarizer σ → Except Panic Int × Columnarizer σ
  | 0, _, _, c => (.error .fuelExhausted, c)
  | fuel + 1, capacity, nRows, c =>
    if nRows < (capacity : Int) then
      let r := c.input.Next
      let c := { c with input := r.2 }
      match r.1.2 with
      | some meta =>
        let nRows := nRows - 1
        match meta.Err with
        | some err => (.error (.ExpectedError err), c)
        | none =>
          Columnarizer.fillLoop fuel capacity (nRows + 1)
            { c with accumulatedMeta := c.accumulatedMeta ++ [meta] }
      | none =>
        match r.1.1 with
        | none => (.ok nRows, c)
        | some row =>
          if 0 ≤ nRows then
            match c.buffered[nRows.toNat]? with
            | none => (.error .indexOutOfRange, c)
            | some slot =>
              Columnarizer.fillLoop fuel capacity (nRows + 1)
                { c with buffered := c.buffered.set nRows.toNat (goCopy slot row) }
          else (.error .indexOutOfRange, c)
    else (.ok nRows, c)

/-- The loop `for idx, ct := range c.typs` of `Next`, from column `idx` on:
every column vector of the batch is replaced by what the conversion makes of it.
`ColVec(idx)` panics when the batch has no such column; an error of the
conversion is raised as an internal error. -/
def writeColumns (conv : Conv) (outputRows : EncDatumRows) :
    List T → Nat → Batch → Except Panic Unit × Batch
  | [], _, b => (.ok (), b)
  | ct :: rest, idx, b =>
    match b.cols[idx]? with
    | none => (.error .indexOutOfRange, b)
    | some vec =>
      match conv outputRows vec idx ct with
      | .error err => (.error (.InternalError err), b)
      | .ok vec' => writeColumns conv outputRows rest (idx + 1) { b with cols := b.cols.set idx vec' }

/-- The first half of `Next`, up to the end of the growth step: the batch of this
pull, or the panic raised on the way, and the adapter at that point. A nil batch
makes `c.batch.Capacity()` panic. -/
def Columnarizer.growBuffer {σ : Type} (A : Allocator σ) (c : Columnarizer σ) :
    Except Panic Batch × Columnarizer σ :=
  let ob := c.obtainBatch A
  let c := ob.1
  let reallocated := ob.2
  match c.batch with
  | none => (.error .nilDereference, c)
  | some batch =>
    if reallocated then
      match growRows c.buffered batch.capacity c.typs.length with
      | .error p => (.error p, c)
      | .ok newRows => (.ok batch, { c with buffered := newRows })
    else (.ok batch, c)

/-- `Columnarizer.Next`: the batch it returns, or the panic it raises, and the
adapter afterwards. The fill loop is given one iteration more than the source has
items left, which is as many as it can use. -/
def Columnarizer.Next {σ : Type} (A : Allocator σ) (conv : Conv) (c : Columnarizer σ) :
    Except Panic Batch × Columnarizer σ :=
  match c.growBuffer A with
  | (.error p, c) => (.error p, c)
  | (.ok batch, c) =>
    match Columnarizer.fillLoop (c.input.pending.length + 1) batch.capacity 0 c with
    | (.error p, c) => (.error p, c)
    | (.ok nRows, c) =>
      let c := if nRows > c.daAllocSize then { c with daAllocSize := nRows } else c
      let outputRows := c.buffered.take nRows.toNat
      match writeColumns conv outputRows c.typs 0 batch with
      | (.error p, b) => (.error p, { c with batch := some b })
      | (.ok _, b) =>
        (.ok (b.SetLength nRows.toNat), { c with batch := some (b.SetLength nRows.toNat) })

/-- The outcomes of `k` successive `Next` calls, in order, and the adapter after
the last one. A call that panics is recorded and the calls go on from the state
it left. -/
def Columnarizer.NextN {σ : Type} (A : Allocator σ) (conv : Conv) :
    Nat → Columnarizer σ → List (Except Panic Batch) × Columnarizer σ
  | 0, c => ([], c)
  | k + 1, c =>
    let r := c.Next A conv
    let rs := Columnarizer.NextN A conv k r.2
    (r.1 :: rs.1, rs.2)

/-! ## `DrainMeta` -/

/-- Modelled from the spec: `ProcessorBase.MoveToDraining`, which puts the
adapter into the draining state if it is not there already. -/
def ProcessorBase.MoveToDraining (pb : ProcessorBase) : ProcessorBase :=
  { pb with draining := true }

/-- The items of a stream without its leading rows. -/
def dropRows : List Item → List Item
  | Item.row _ :: rest => dropRows rest
  | items => items

/-- Modelled from the spec: `ProcessorBase.DrainHelper`, the request for one more
piece of trailing metadata. The row source is asked first (the rows it still
holds are discarded), then the metadata the execution machinery itself wants to
emit is handed out; `none` when nothing remains. -/
def Columnarizer.DrainHelper {σ : Type} (c : Columnarizer σ) :
    Option ProducerMetadata × Columnarizer σ :=
  match dropRows c.input.pending with
  | Item.meta m :: rest => (some m, { c with input := { c.input with pending := rest } })
  | _ =>
    match c.ProcessorBase.trailingMeta with
    | m :: rest =>
      (some m, { c with
                 input := { c.input with pending := [] }
                 ProcessorBase := { c.ProcessorBase with trailingMeta := rest } })
    | [] => (none, { c with input := { c.input with pending := [] } })

/-- The loop of `DrainMeta`, run for at most `fuel` iterations: every item the
drain helper hands out is appended to the accumulator, until it hands out none. -/
def Columnarizer.drainLoop {σ : Type} : Nat → Columnarizer σ → Columnarizer σ
  | 0, c => c
  | fuel + 1, c =>
    let r := c.DrainHelper
    match r.1 with
    | none => r.2
    | some meta =>
      Columnarizer.drainLoop fuel { r.2 with accumulatedMeta := r.2.accumulatedMeta ++ [meta] }

/-- `Columnarizer.DrainMeta`: the slice it returns and the adapter afterwards.
The loop is given one iteration more than there are items left to hand out. -/
def Columnarizer.DrainMeta {σ : Type} (c : Columnarizer σ) :
    List ProducerMetadata × Columnarizer σ :=
  let c := { c with ProcessorBase := c.ProcessorBase.MoveToDraining }
  let c := Columnarizer.drainLoop
    (c.input.pending.length + c.ProcessorBase.trailingMeta.length + 1) c
  (c.accumulatedMeta, c)

/-- The calls a consumer makes on an initialised adapter. -/
inductive Call where
  | Next
  | DrainMeta
  deriving DecidableEq, Repr

/-- A sequence of `Next` and `DrainMeta` calls: the slices returned by the
`DrainMeta` calls, in order, the outcomes of the `Next` calls, in order, and the
adapter at the end. -/
def Columnarizer.run {σ : Type} (A : Allocator σ) (conv : Conv) :
    List Call → Columnarizer σ →
      List (List ProducerMetadata) × List (Except Panic Batch) × Columnarizer σ
  | [], c => ([], [], c)
  | Call.Next :: calls, c =>
    let r := c.Next A conv
    let rs := Columnarizer.run A conv calls r.2
    (rs.1, r.1 :: rs.2.1, rs.2.2)
  | Call.DrainMeta :: calls, c =>
    let r := c.DrainMeta
    let rs := Columnarizer.run A conv calls r.2
    (r.1 :: rs.1, rs.2.1, rs.2.2)

/-! ## `Close`, `ChildCount` and `Child` -/

/-- `Columnarizer.Close`: the error it returns, always nil, and the adapter
afterwards. -/
def Columnarizer.Close {σ : Type} (c : Columnarizer σ) : Option Error × Columnarizer σ :=
  (none, { c with input := c.input.ConsumerClosed })

/-- The errors returned by `k` successive `Close` calls, in order, and the adapter
after the last one. -/
def Columnarizer.CloseN {σ : Type} : Nat → Columnarizer σ → List (Option Error) × Columnarizer σ
  | 0, c => ([], c)
  | k + 1, c =>
    let r := c.Close
    let rs := Columnarizer.CloseN k r.2
    (r.1 :: rs.1, rs.2)

/-- `Columnarizer.ChildCount`. The type assertion `c.input.(execinfra.OpNode)`
succeeds when the row source is itself a plan node. -/
def Columnarizer.ChildCount {σ : Type} (c : Columnarizer σ) (_verbose : Bool) : Int :=
  if c.input.isOpNode then 1 else 0

/-- `Columnarizer.Child`: the row source as a plan node, or the panic raised.
`colexecerror.InternalError` does not return, so a failed type assertion at
index 0 raises its own assertion failure and not the one of the invalid index. -/
def Columnarizer.Child {σ : Type} (c : Columnarizer σ) (nth : Int) (_verbose : Bool) :
    Except Panic RowSource :=
  if nth = 0 then
    if c.input.isOpNode then .ok c.input
    else .error (.InternalError (.AssertionFailed .inputNotOpNode))
  else .error (.InternalError (.AssertionFailed (.invalidIndex nth)))

/-! ## Reading a stream -/

/-- The rows of a stream of items, in order. -/
def rowsOf : List Item → List EncDatumRow
  | [] => []
  | Item.row r :: rest => r :: rowsOf rest
  | Item.meta _ :: rest => rowsOf rest

/-- The metadata items of a stream of items, in order. -/
def metasOf : List Item → List ProducerMetadata
  | [] => []
  | Item.row _ :: rest => metasOf rest
  | Item.meta m :: rest => m :: metasOf rest

/-- The batches among the outcomes of a sequence of `Next` calls. -/
def returnedBatches : List (Except Panic Batch) → List Batch
  | [] => []
  | .ok b :: rest => b :: returnedBatches rest
  | .error _ :: rest => returnedBatches rest

/-- The interface contract of the per-column conversion: when it succeeds on
`rows`, entry `i` of the vector it leaves is the value of row `i` at the target
column, for every staged row. -/
def ConvContract (conv : Conv) : Prop :=
  ∀ (rows : EncDatumRows) (vec : ColVec) (idx : Nat) (t : T) (vec' : ColVec),
    conv rows vec idx t = .ok vec' →
      ∀ (i : Nat) (row : EncDatumRow), rows[i]? = some row → vec'[i]? = row[idx]?

/-- Whether the outcome of a `Next` call is an abort on metadata carrying an
error, that is a panic raised by `colexecerror.ExpectedError`. -/
def isAbort : Except Panic Batch → Bool
  | .error (.ExpectedError _) => true
  | _ => false

/-! ## Notions used in the statements -/

/-- The staging area after the rows `rows` were copied into the slots from index
`k` on, one after the other, as the fill loop does. -/
def stageRows : EncDatumRows → Nat → List EncDatumRow → EncDatumRows
  | buf, _, [] => buf
  | buf, k, r :: rs => stageRows (buf.set k (goCopy (buf.getD k []) r)) (k + 1) rs

/-- What the fill loop may change of the adapter: the items left in the source,
the metadata accumulator and the staging area. -/
def FillFrame {σ : Type} (c c' : Columnarizer σ) : Prop :=
  c' = { c with
         input := { c.input with pending := c'.input.pending }
         accumulatedMeta := c'.accumulatedMeta
         buffered := c'.buffered }

/-- What the first half of `Next` may change of the adapter: the batch, the
allocator and the record of the requests made to it, and the row buffer. -/
def GrowFrame {σ : Type} (c c' : Columnarizer σ) : Prop :=
  c' = { c with
         batch := c'.batch
         allocator := c'.allocator
         allocLog := c'.allocLog
         buffered := c'.buffered }

/-- The items the drain helper hands out from a state on, in order, until it
hands out none, asked at most `fuel` times. -/
def Columnarizer.helperItems {σ : Type} : Nat → Columnarizer σ → List ProducerMetadata
  | 0, _ => []
  | fuel + 1, c =>
    match c.DrainHelper.1 with
    | none => []
    | some meta => meta :: Columnarizer.helperItems fuel c.DrainHelper.2

/-- What holds of a streaming adapter once it has its batch: the mode, the record
of allocator requests `log`, the allocator state `st`, the length `len` of the
row buffer, and a batch of identity `id` and capacity `cap`. -/
def StreamingSettled {σ : Type} (log : List AllocCall) (st : σ) (len id cap : Nat)
    (c : Columnarizer σ) : Prop :=
  c.mode = columnarizerStreamingMode ∧ c.allocLog = log ∧ c.allocator = st ∧
  c.buffered.length = len ∧ ∃ b, c.batch = some b ∧ b.id = id ∧ b.capacity = cap

/-- The allocator contract at one pull, read off the state the pull starts from:
a batch that counts as replaced has a capacity above the length of the row
buffer, and a batch that does not count as replaced has the capacity of the
batch the adapter held. -/
def Columnarizer.meetsContract {σ : Type} (A : Allocator σ) (c : Columnarizer σ) : Bool :=
  match (c.obtainBatch A).1.batch with
  | none => true
  | some b =>
    if (c.obtainBatch A).2 then decide (c.buffered.length < b.capacity)
    else
      match c.batch with
      | some b0 => decide (b.capacity = b0.capacity)
      | none => false

/-- The allocator contract at each of `k` successive pulls. -/
def Columnarizer.contractAlong {σ : Type} (A : Allocator σ) (conv : Conv) :
    Nat → Columnarizer σ → Bool
  | 0, _ => true
  | k + 1, c => c.meetsContract A && Columnarizer.contractAlong A conv k (c.Next A conv).2

/-- The indices of a pull are in range: the first half of `Next` completes, so the
bounds probe of the growth step did not fail; the row buffer then has the length
of the capacity; the fill loop does not fail on a staging write; and the count
it ends with is a valid bound for slicing the row buffer. -/
def Columnarizer.PullInRange {σ : Type} (A : Allocator σ) (c : Columnarizer σ) : Prop :=
  ∃ batch c1, c.growBuffer A = (.ok batch, c1) ∧
    c1.buffered.length = batch.capacity ∧
    (Columnarizer.fillLoop (c1.input.pending.length + 1) batch.capacity 0 c1).1
      ≠ .error .indexOutOfRange ∧
    ∀ nRows c2,
      Columnarizer.fillLoop (c1.input.pending.length + 1) batch.capacity 0 c1 = (.ok nRows, c2) →
        0 ≤ nRows ∧ nRows ≤ c2.buffered.length

/-- The conversion succeeds whenever the vector has room for the staged rows and
every staged row has a value at the target column. -/
def ConvTotal (conv : Conv) : Prop :=
  ∀ (rows : EncDatumRows) (vec : ColVec) (idx : Nat) (t : T),
    rows.length ≤ vec.length → (∀ row ∈ rows, idx < row.length) →
      ∃ vec', conv rows vec idx t = .ok vec'

/-- The batch of a pull fits the adapter: the mode switch yields a batch of
capacity at least 1 that has a vector for every output column, each with room
for as many values as the capacity. -/
def Columnarizer.batchFits {σ : Type} (A : Allocator σ) (c : Columnarizer σ) : Bool :=
  match (c.obtainBatch A).1.batch with
  | none => false
  | some b =>
    decide (1 ≤ b.capacity) && decide (c.typs.length ≤ b.cols.length) &&
      b.cols.all (fun vec => decide (b.capacity ≤ vec.length))

/-- The allocator keeps its contract and hands out fitting batches at each of
`k` successive pulls. -/
def Columnarizer.soundAlong {σ : Type} (A : Allocator σ) (conv : Conv) :
    Nat → Columnarizer σ → Bool
  | 0, _ => true
  | k + 1, c =>
    c.meetsContract A && c.batchFits A && Columnarizer.soundAlong A conv k (c.Next A conv).2

/-! ## Sample collaborators

Concrete allocators, a concrete conversion and concrete sources on which the
statements below are exercised. -/

/-- A fresh batch of the given capacity with one zeroed vector per column. -/
def freshBatch (id : Nat) (typs : List T) (capacity : Nat) : Batch :=
  { id := id, capacity := capacity, length := 0,
    cols := typs.map (fun _ => List.replicate capacity 0) }

/-- A sample allocator that doubles the capacity of the batch it is handed, up
to `maxCapacity`, and then resets the batch in place. Its state is the number of
batches it has made, used as the identity of the next one. -/
def doublingAllocator (maxCapacity : Nat) : Allocator Nat where
  ResetMaybeReallocate := fun st typs batch minCapacity =>
    match batch with
    | none => ((freshBatch st typs minCapacity.toNat, true), st + 1)
    | some b =>
      if b.capacity < maxCapacity then
        ((freshBatch st typs (min (max (b.capacity * 2) minCapacity.toNat) maxCapacity), true),
          st + 1)
      else ((b.ResetInternalBatch, false), st)
  NewMemBatchWithFixedCapacity := fun st typs capacity =>
    (freshBatch st typs capacity.toNat, st + 1)

/-- A sample allocator of one fixed capacity: it makes a batch of that capacity
when handed none and resets the batch it is handed in place. -/
def fixedAllocator (capacity : Nat) : Allocator Nat where
  ResetMaybeReallocate := fun st typs batch _ =>
    match batch with
    | none => ((freshBatch st typs capacity, true), st + 1)
    | some b => ((b.ResetInternalBatch, false), st)
  NewMemBatchWithFixedCapacity := fun st typs capacity =>
    (freshBatch st typs capacity.toNat, st + 1)

/-- A sample conversion: entry `i` of the vector becomes the value of row `i` at
the target column; it fails when the vector is too short or a row has no such
column. -/
def copyConv : Conv := fun rows vec idx _ =>
  if rows.length ≤ vec.length ∧ ∀ row ∈ rows, idx < row.length then
    .ok (rows.map (fun row => row.getD idx 0) ++ vec.drop rows.length)
  else .error (.Other 0)

/-- A sample processor-base initialisation that succeeds. -/
def pbInitOk : List T → Nat → Int → Except Error ProcessorBase :=
  fun types _ _ => .ok { outputTypes := types, draining := false, trailingMeta := [] }

/-- A sample metadata item without an error. -/
def sampleMeta : ProducerMetadata := { Err := none, payload := 7 }

/-- A sample metadata item carrying an error. -/
def sampleErrorMeta : ProducerMetadata := { Err := some (.Other 5), payload := 9 }

/-- The sample stream of the scenarios: rows A and B, then a metadata item. -/
def sampleItems : List Item := [Item.row [1, 2], Item.row [3, 4], Item.meta sampleMeta]

/-- A sample row source over two columns. -/
def sampleSource (items : List Item) : RowSource :=
  { pending := items, types := [0, 0], startCalls := 0, closedCalls := 0, isOpNode := false }

/-- A sample adapter in the given mode as `newColumnarizer` constructs it,
reading the given items, not yet initialised. -/
def sampleFresh (mode : Int) (items : List Item) : Columnarizer Nat :=
  match newColumnarizer pbInitOk 0 0 0 (sampleSource items) mode with
  | .ok c => c
  | .error _ =>
    { ProcessorBase := { outputTypes := [], draining := false, trailingMeta := [] }
      mode := mode, allocator := 0, allocLog := [], input := sampleSource items
      daAllocSize := 0, initStatus := .OperatorNotInitialized, buffered := []
      batch := none, accumulatedMeta := [], typs := [] }

/-- A sample adapter in the given mode, constructed and initialised, reading the
given items. -/
def sampleAdapter (mode : Int) (items : List Item) : Columnarizer Nat :=
  (sampleFresh mode items).Init

/-- The sample adapter in buffering mode after one pull over rows A and B
followed by an item carrying an error: A was returned, and the batch of the next
pull has capacity 2. -/
def sampleAfterFirstPull : Columnarizer Nat :=
  ((sampleAdapter columnarizerBufferingMode
    [Item.row [1, 2], Item.row [3, 4], Item.meta sampleErrorMeta]).Next
      (doublingAllocator 4) copyConv).2

/-- A sample allocator that breaks the contract: it always replaces the batch by
one of capacity 1, whatever the row buffer has grown to. -/
def stuckAllocator : Allocator Nat where
  ResetMaybeReallocate := fun st typs _ _ => ((freshBatch st typs 1, true), st + 1)
  NewMemBatchWithFixedCapacity := fun st typs capacity =>
    (freshBatch st typs capacity.toNat, st + 1)

/-- A second sample metadata item without an error. -/
def sampleMetaB : ProducerMetadata := { Err := none, payload := 8 }

/-- A third sample metadata item without an error. -/
def sampleMetaC : ProducerMetadata := { Err := none, payload := 10 }

/-- The sample adapter in buffering mode after one pull over a stream with
metadata around its rows: the pull accumulated the first metadata item and
returned row A; a metadata item, row B, an item carrying an error and one more
metadata item are still to come, and the batch of the next pull has capacity 2. -/
def sampleWithMetadata : Columnarizer Nat :=
  ((sampleAdapter columnarizerBufferingMode
    [Item.meta sampleMeta, Item.row [1, 2], Item.meta sampleMetaB, Item.row [3, 4],
     Item.meta sampleErrorMeta, Item.meta sampleMetaC]).Next
      (doublingAllocator 4) copyConv).2

end colexec

/-!
# `Grant` of `sql/grant.go`

The planner method that adds users to the read and write lists of a database
descriptor. The descriptor lookup, the key-value store, the root user, the
lower-casing of privilege names and the order in which Go ranges over a map are
outside the embedded file and are parameters.
-/

namespace sql

/-- The fields of `structured.DatabaseDescriptor` that `Grant` reads and writes. -/
structure DatabaseDescriptor where
  Name : String
  ID : Nat
  Read : List String
  Write : List String
  deriving DecidableEq, Repr

/-- The statement `parser.Grant`. -/
structure GrantStmt where
  Privileges : List String
  Target : String
  Grantees : List String
  deriving DecidableEq, Repr

/-- The errors `Grant` returns: `errEmptyDatabaseName`, the three it builds with
`fmt.Errorf`, and every error of a collaborator, identified by a code. -/
inductive GrantError where
  | errEmptyDatabaseName
  | unknownPrivilege (priv : String)
  | allCombinedWithOthers
  | cannotModifyPermissions (user : String)
  | other (code : Nat)
  deriving DecidableEq, Repr

/-- The plan node `Grant` returns, `&valuesNode{}`. -/
inductive PlanNode where
  | valuesNode
  deriving DecidableEq, Repr

/-- One conditional put `p.db.CPut(key, value, expValue)`. -/
structure CPutCall where
  key : Nat
  value : DatabaseDescriptor
  expValue : DatabaseDescriptor
  deriving DecidableEq, Repr

/-- What `Grant` uses and does not define, over a key-value store of type `δ`:
`security.RootUser`; `strings.ToLower`; the `String` method of the target name;
`p.getDatabaseDesc`; `keys.MakeDescMetadataKey` (keys are identified by
numbers); `p.db.CPut`, which yields the store after the put or an error; and the
order in which the `i`-th `range` over a map visits the keys of that map, given
in insertion order. -/
structure Planner (δ : Type) where
  RootUser : String
  ToLower : String → String
  NameString : String → String
  getDatabaseDesc : δ → String → Except GrantError DatabaseDescriptor
  MakeDescMetadataKey : Nat → Nat
  CPut : δ → Nat → DatabaseDescriptor → DatabaseDescriptor → Except GrantError δ
  rangeOrder : Nat → List String → List String

/-- The assignment `m[key] = struct{}{}` on a Go map used as a set, the map being
represented by its keys in insertion order. -/
def setKey (m : List String) (key : String) : List String :=
  if key ∈ m then m else m ++ [key]

/-- The loop `for _, priv := range n.Privileges` with its `switch`: the three
flags after the privileges `privs`, or the error of the first unknown one. -/
def parsePrivileges (ToLower : String → String) :
    List String → Bool × Bool × Bool → Except GrantError (Bool × Bool × Bool)
  | [], flags => .ok flags
  | priv :: rest, (isAll, isRead, isWrite) =>
    if ToLower priv = "all" then parsePrivileges ToLower rest (true, isRead, isWrite)
    else if ToLower priv = "read" then parsePrivileges ToLower rest (isAll, true, isWrite)
    else if ToLower priv = "write" then parsePrivileges ToLower rest (isAll, isRead, true)
    else .error (.unknownPrivilege priv)

/-- The loop `for _, grantee := range n.Grantees`: the two maps after the
grantees, or the error raised at the first grantee that is the root user. -/
def setGrantees (RootUser : String) (isAll isRead isWrite : Bool) :
    List String → List String → List String → Except GrantError (List String × List String)
  | [], readers, writers => .ok (readers, writers)
  | grantee :: rest, readers, writers =>
    if grantee = RootUser then .error (.cannotModifyPermissions RootUser)
    else
      let readers := if isAll || isRead then setKey readers grantee else readers
      let writers := if isAll || isWrite then setKey writers grantee else writers
      setGrantees RootUser isAll isRead isWrite rest readers writers

/-- The outcome of `Grant`: the pair `(planNode, error)` it returns, the store
afterwards, and the conditional puts it issued, in order. -/
structure GrantResult (δ : Type) where
  node : Except GrantError PlanNode
  db : δ
  puts : List CPutCall

/-- `planner.Grant`. -/
def Grant {δ : Type} (p : Planner δ) (db : δ) (n : GrantStmt) : GrantResult δ :=
  if n.Target = "" then ⟨.error .errEmptyDatabaseName, db, []⟩
  else
    match parsePrivileges p.ToLower n.Privileges (false, false, false) with
    | .error err => ⟨.error err, db, []⟩
    | .ok (isAll, isRead, isWrite) =>
      if isAll && (isRead || isWrite) then ⟨.error .allCombinedWithOthers, db, []⟩
      else
        match p.getDatabaseDesc db (p.NameString n.Target) with
        | .error err => ⟨.error err, db, []⟩
        | .ok dbDesc =>
          let readers := dbDesc.Read.foldl setKey []
          let writers := dbDesc.Write.foldl setKey []
          match setGrantees p.RootUser isAll isRead isWrite n.Grantees readers writers with
          | .error err => ⟨.error err, db, []⟩
          | .ok (readers, writers) =>
            let newDesc : DatabaseDescriptor :=
              { dbDesc with Read := p.rangeOrder 0 readers, Write := p.rangeOrder 1 writers }
            let descKey := p.MakeDescMetadataKey newDesc.ID
            match p.CPut db descKey newDesc dbDesc with
            | .error err => ⟨.error err, db, [⟨descKey, newDesc, dbDesc⟩]⟩
            | .ok db' => ⟨.ok .valuesNode, db', [⟨descKey, newDesc, dbDesc⟩]⟩

/-- Whether the privilege `name`, in lower case, is among the privileges of the
statement, read case-insensitively. -/
def GrantStmt.names {δ : Type} (p : Planner δ) (n : GrantStmt) (name : String) : Bool :=
  n.Privileges.any (fun priv => p.ToLower priv == name)

/-! ## A sample planner -/

/-- A sample key-value store: the descriptors by key. -/
abbrev SampleStore := List (Nat × DatabaseDescriptor)

/-- A sample lower-casing, right on the privilege names used below. -/
def sampleLower (s : String) : String :=
  if s = "ALL" then "all"
  else if s = "READ" then "read"
  else if s = "WRITE" then "write"
  else s

/-- A sample planner over the sample store: the root user is `root`, a database
is looked up by name, a conditional put replaces the descriptor under the key
when the stored one is the expected one, and maps are ranged over in insertion
order. -/
def samplePlanner : Planner SampleStore where
  RootUser := "root"
  ToLower := sampleLower
  NameString := fun s => s
  getDatabaseDesc := fun db name =>
    match db.find? (fun kv => kv.2.Name == name) with
    | some kv => .ok kv.2
    | none => .error (.other 1)
  MakeDescMetadataKey := fun id => id
  CPut := fun db key value expValue =>
    if db.lookup key = some expValue then
      .ok (db.map (fun kv => if kv.1 = key then (key, value) else kv))
    else .error (.other 2)
  rangeOrder := fun _ keys => keys

/-- The sample store of the test: database `test` under key 1000, readable and
writable by `root`. -/
def sampleStore : SampleStore :=
  [(1000, { Name := "test", ID := 1000, Read := ["root"], Write := ["root"] })]

end sql

namespace colexec

/-! ## The fill loop -/

theorem FillFrame.refl {σ : Type} (c : Columnarizer σ) : FillFrame c c := by
  unfold FillFrame
  rfl

theorem FillFrame.trans {σ : Type} {c c' c'' : Columnarizer σ}
    (h : FillFrame c c') (h' : FillFrame c' c'') : FillFrame c c'' := by
  unfold FillFrame at *
  rw [h', h]

theorem metasOf_append (xs ys : List Item) : metasOf (xs ++ ys) = metasOf xs ++ metasOf ys := by
  induction xs with
  | nil => rfl
  | cons x xs ih => cases x <;> simp [metasOf, ih]

theorem rowsOf_append (xs ys : List Item) : rowsOf (xs ++ ys) = rowsOf xs ++ rowsOf ys := by
  induction xs with
  | nil => rfl
  | cons x xs ih => cases x <;> simp [rowsOf, ih]

/-- A run of the fill loop that ends normally: the items it consumed are a
leading part of what the source held, none of them carried an error, their
metadata went to the accumulator and their rows to the staging area, and the
loop stopped at capacity or at end-of-stream. -/
theorem fillLoop_ok {σ : Type} (fuel capacity : Nat) :
    ∀ (n : Int) (c c' : Columnarizer σ) (n' : Int), 0 ≤ n →
      Columnarizer.fillLoop fuel capacity n c = (.ok n', c') →
      ∃ consumed : List Item,
        c.input.pending = consumed ++ c'.input.pending ∧
        (∀ m ∈ metasOf consumed, m.Err = none) ∧
        c'.accumulatedMeta = c.accumulatedMeta ++ metasOf consumed ∧
        n' = n + ((rowsOf consumed).length : Int) ∧
        (n ≤ capacity → n' ≤ capacity) ∧
        (n' < capacity → c'.input.pending = []) ∧
        c'.buffered = stageRows c.buffered n.toNat (rowsOf consumed) ∧
        (rowsOf consumed ≠ [] → n' ≤ c.buffered.length) ∧
        FillFrame c c' := by
  induction fuel with
  | zero =>
    intro n c c' n' _ h
    simp [Columnarizer.fillLoop] at h
  | succ fuel ih =>
    intro n c c' n' hn h
    unfold Columnarizer.fillLoop at h
    split at h
    · rename_i hlt
      cases hp : c.input.pending with
      | nil =>
        simp [RowSource.Next, hp] at h
        obtain ⟨rfl, rfl⟩ := h
        refine ⟨[], by simp [hp], by simp [metasOf], by simp [metasOf], by simp [rowsOf],
          fun h => h, fun _ => hp, by simp [rowsOf, stageRows], by simp [rowsOf], ?_⟩
        exact FillFrame.refl c
      | cons item rest =>
        cases item with
        | row r =>
          simp [RowSource.Next, hp, hn] at h
          cases hb : c.buffered[n.toNat]? with
          | none => simp [hb] at h
          | some slot =>
            simp [hb] at h
            have hn1 : (0 : Int) ≤ n + 1 := by omega
            obtain ⟨consumed, h1, h2, h3, h4, h5, h6, h7, h8, h9⟩ := ih _ _ _ _ hn1 h
            have hlen : n.toNat < c.buffered.length := by
              rcases List.getElem?_eq_some.mp hb with ⟨hl, _⟩
              exact hl
            have hget : c.buffered.getD n.toNat [] = slot := by
              simp [List.getD, hb]
            have htn : (n + 1).toNat = n.toNat + 1 := by omega
            refine ⟨Item.row r :: consumed, ?_, ?_, ?_, ?_, ?_, h6, ?_, ?_, ?_⟩
            · simpa using h1
            · simpa [metasOf] using h2
            · simpa [metasOf] using h3
            · simp [rowsOf, h4]; omega
            · intro _; exact h5 (by omega)
            · simp only [rowsOf, stageRows, hget]
              rw [h7, htn]
            · intro _
              by_cases hr : rowsOf consumed = []
              · simp [hr] at h4
                omega
              · have := h8 hr
                simpa using this
            · refine FillFrame.trans ?_ h9
              unfold FillFrame
              rfl
        | meta m =>
          simp [RowSource.Next, hp] at h
          cases hE : m.Err with
          | some err => simp [hE] at h
          | none =>
            simp [hE] at h
            obtain ⟨consumed, h1, h2, h3, h4, h5, h6, h7, h8, h9⟩ := ih _ _ _ _ hn h
            refine ⟨Item.meta m :: consumed, ?_, ?_, ?_, ?_, h5, h6, ?_, ?_, ?_⟩
            · simpa using h1
            · intro m' hm'
              simp [metasOf] at hm'
              rcases hm' with rfl | hm'
              · exact hE
              · exact h2 m' hm'
            · simpa [metasOf] using h3
            · simpa [rowsOf] using h4
            · simpa [rowsOf] using h7
            · simpa [rowsOf] using h8
            · refine FillFrame.trans ?_ h9
              unfold FillFrame
              rfl
    · rename_i hge
      simp at h
      obtain ⟨rfl, rfl⟩ := h
      refine ⟨[], by simp, by simp [metasOf], by simp [metasOf], by simp [rowsOf],
        fun h => h, fun h => absurd h hge, by simp [rowsOf, stageRows], by simp [rowsOf], ?_⟩
      exact FillFrame.refl c

/-- Every run of the fill loop, however it ends: the items it consumed are a
leading part of what the source held, and either their metadata all went to the
accumulator and the loop did not raise an expected error, or the last item
consumed carried an error, that error was raised, and only the metadata before
it went to the accumulator. -/
theorem fillLoop_consumed {σ : Type} (fuel capacity : Nat) :
    ∀ (n : Int) (c : Columnarizer σ),
      ∃ consumed : List Item,
        c.input.pending = consumed ++ (Columnarizer.fillLoop fuel capacity n c).2.input.pending ∧
        (((Columnarizer.fillLoop fuel capacity n c).2.accumulatedMeta
              = c.accumulatedMeta ++ metasOf consumed ∧
            ∀ e, (Columnarizer.fillLoop fuel capacity n c).1 ≠ .error (.ExpectedError e)) ∨
          (∃ pre m e, consumed = pre ++ [Item.meta m] ∧ m.Err = some e ∧
            (Columnarizer.fillLoop fuel capacity n c).1 = .error (.ExpectedError e) ∧
            (Columnarizer.fillLoop fuel capacity n c).2.accumulatedMeta
              = c.accumulatedMeta ++ metasOf pre ∧
            ∀ m' ∈ metasOf pre, m'.Err = none)) ∧
        FillFrame c (Columnarizer.fillLoop fuel capacity n c).2 := by
  induction fuel with
  | zero =>
    intro n c
    exact ⟨[], by simp [Columnarizer.fillLoop],
      Or.inl ⟨by simp [Columnarizer.fillLoop, metasOf], by simp [Columnarizer.fillLoop]⟩,
      FillFrame.refl c⟩
  | succ fuel ih =>
    intro n c
    unfold Columnarizer.fillLoop
    split
    · cases hp : c.input.pending with
      | nil =>
        simp only [RowSource.Next, hp]
        exact ⟨[], by simp [hp], Or.inl ⟨by simp [metasOf], by simp⟩, FillFrame.refl c⟩
      | cons item rest =>
        cases item with
        | row r =>
          simp only [RowSource.Next, hp]
          split
          · cases hb : c.buffered[n.toNat]? with
            | none =>
              refine ⟨[Item.row r], by simp, Or.inl ⟨by simp [metasOf], by simp⟩, ?_⟩
              unfold FillFrame
              rfl
            | some slot =>
              simp only []
              obtain ⟨consumed, h1, h2, h3⟩ := ih (n + 1)
                { c with input := { c.input with pending := rest }
                         buffered := c.buffered.set n.toNat (goCopy slot r) }
              refine ⟨Item.row r :: consumed, by simpa using h1, ?_, ?_⟩
              · rcases h2 with ⟨h2, k2⟩ | ⟨pre, m, e, h2, k2, k3, k4, h4⟩
                · exact Or.inl ⟨by simpa [metasOf] using h2, k2⟩
                · exact Or.inr ⟨Item.row r :: pre, m, e, by simp [h2], k2, k3,
                    by simpa [metasOf] using k4, by simpa [metasOf] using h4⟩
              · refine FillFrame.trans ?_ h3
                unfold FillFrame
                rfl
          · refine ⟨[Item.row r], by simp, Or.inl ⟨by simp [metasOf], by simp⟩, ?_⟩
            unfold FillFrame
            rfl
        | meta m =>
          simp only [RowSource.Next, hp]
          cases hE : m.Err with
          | some err =>
            refine ⟨[Item.meta m], by simp, Or.inr ⟨[], m, err, by simp, hE, by simp,
              by simp [metasOf], by simp [metasOf]⟩, ?_⟩
            unfold FillFrame
            rfl
          | none =>
            simp only []
            obtain ⟨consumed, h1, h2, h3⟩ := ih (n - 1 + 1)
              { c with input := { c.input with pending := rest }
                       accumulatedMeta := c.accumulatedMeta ++ [m] }
            refine ⟨Item.meta m :: consumed, by simpa using h1, ?_, ?_⟩
            · rcases h2 with ⟨h2, k2⟩ | ⟨pre, m0, e, h2, k2, k3, k4, h4⟩
              · exact Or.inl ⟨by simpa [metasOf] using h2, k2⟩
              · refine Or.inr ⟨Item.meta m :: pre, m0, e, by simp [h2], k2, k3,
                  by simpa [metasOf] using k4, ?_⟩
                intro m' hm'
                simp [metasOf] at hm'
                rcases hm' with rfl | hm'
                · exact hE
                · exact h4 m' hm'
            · refine FillFrame.trans ?_ h3
              unfold FillFrame
              rfl
    · exact ⟨[], by simp, Or.inl ⟨by simp [metasOf], by simp⟩, FillFrame.refl c⟩

/-- The fill loop does not run out of iterations when it is given more of them
than the source has items left. -/
theorem fillLoop_fuel {σ : Type} (fuel capacity : Nat) :
    ∀ (n : Int) (c : Columnarizer σ), c.input.pending.length < fuel →
      (Columnarizer.fillLoop fuel capacity n c).1 ≠ .error .fuelExhausted := by
  induction fuel with
  | zero => intro n c h; omega
  | succ fuel ih =>
    intro n c hf
    unfold Columnarizer.fillLoop
    split
    · cases hp : c.input.pending with
      | nil => simp [RowSource.Next, hp]
      | cons item rest =>
        have hrest : rest.length < fuel := by
          rw [hp] at hf
          simp at hf
          omega
        cases item with
        | row r =>
          simp only [RowSource.Next, hp]
          split
          · cases hb : c.buffered[n.toNat]? with
            | none => simp
            | some slot =>
              simp only []
              exact ih _ _ (by simpa using hrest)
          · simp
        | meta m =>
          simp only [RowSource.Next, hp]
          cases hE : m.Err with
          | some err => simp
          | none =>
            simp only []
            exact ih _ _ (by simpa using hrest)
    · simp

/-- A metadata item carrying an error, met before the fill loop has stopped,
ends the loop with that error as an expected error: here `pre` is what the
source yields before the item, free of errors, with fewer rows than are needed
to reach the capacity, each of which has a slot to be staged in. -/
theorem fillLoop_error {σ : Type} (capacity : Nat) (pre : List Item) :
    ∀ (fuel : Nat) (n : Int) (c : Columnarizer σ) (m : ProducerMetadata) (e : Error)
      (post : List Item),
      c.input.pending = pre ++ Item.meta m :: post → m.Err = some e →
      (∀ m' ∈ metasOf pre, m'.Err = none) → 0 ≤ n →
      n + (rowsOf pre).length < capacity →
      n + (rowsOf pre).length ≤ c.buffered.length →
      pre.length < fuel →
      (Columnarizer.fillLoop fuel capacity n c).1 = .error (.ExpectedError e) ∧
      (Columnarizer.fillLoop fuel capacity n c).2.accumulatedMeta
        = c.accumulatedMeta ++ metasOf pre ∧
      (Columnarizer.fillLoop fuel capacity n c).2.input.pending = post := by
  induction pre with
  | nil =>
    intro fuel n c m e post hp hE _ hn hcap _ hf
    obtain ⟨fuel, rfl⟩ : ∃ k, fuel = k + 1 := ⟨fuel - 1, by simp at hf; omega⟩
    have hlt : n < (capacity : Int) := by simpa [rowsOf] using hcap
    unfold Columnarizer.fillLoop
    simp at hp
    simp [hlt, RowSource.Next, hp, hE, metasOf]
  | cons item pre ih =>
    intro fuel n c m e post hp hE hpre hn hcap hbuf hf
    obtain ⟨fuel, rfl⟩ : ∃ k, fuel = k + 1 := ⟨fuel - 1, by simp at hf; omega⟩
    have hf' : pre.length < fuel := by simp at hf; omega
    cases item with
    | row r =>
      simp [rowsOf] at hcap hbuf
      have hlt : n < (capacity : Int) := by omega
      have hlen : n.toNat < c.buffered.length := by omega
      obtain ⟨slot, hslot⟩ : ∃ slot, c.buffered[n.toNat]? = some slot :=
        ⟨c.buffered[n.toNat], List.getElem?_eq_getElem hlen⟩
      unfold Columnarizer.fillLoop
      simp at hp
      simp only [hlt, RowSource.Next, hp, hn, hslot, if_true]
      have := ih fuel (n + 1)
        { c with input := { c.input with pending := pre ++ Item.meta m :: post }
                 buffered := c.buffered.set n.toNat (goCopy slot r) } m e post rfl hE
        (by simpa [metasOf] using hpre) (by omega) (by omega) (by simp; omega) hf'
      simpa [metasOf] using this
    | meta m0 =>
      simp [rowsOf] at hcap hbuf
      have hlt : n < (capacity : Int) := by omega
      have hE0 : m0.Err = none := hpre m0 (by simp [metasOf])
      unfold Columnarizer.fillLoop
      simp at hp
      simp only [hlt, RowSource.Next, hp, hE0, if_true]
      have := ih fuel (n - 1 + 1)
        { c with input := { c.input with pending := pre ++ Item.meta m :: post }
                 accumulatedMeta := c.accumulatedMeta ++ [m0] } m e post rfl hE
        (fun m' hm' => hpre m' (by simp [metasOf, hm'])) (by omega) (by simpa using hcap)
        (by simpa using hbuf) hf'
      simpa [metasOf] using this

/-! ## The growth step -/

/-- Writing `f i` into slot `i` for every index `i` of a list of indices keeps the
length. -/
theorem foldl_set_length {α : Type} (f : Nat → α) (idxs : List Nat) :
    ∀ init : List α,
      (idxs.foldl (fun rows i => rows.set i (f i)) init).length = init.length := by
  induction idxs with
  | nil => intro init; rfl
  | cons i idxs ih =>
    intro init
    simp only [List.foldl_cons]
    rw [ih]
    simp

/-- Writing `f i` into slot `i` for every index `i` of a list of indices: the
slots named hold the value written, the others what they held. -/
theorem foldl_set_getElem? {α : Type} (f : Nat → α) (idxs : List Nat) :
    ∀ (init : List α) (j : Nat),
      (idxs.foldl (fun rows i => rows.set i (f i)) init)[j]?
        = if j ∈ idxs ∧ j < init.length then some (f j) else init[j]? := by
  induction idxs with
  | nil => intro init j; simp
  | cons i idxs ih =>
    intro init j
    simp only [List.foldl_cons]
    rw [ih]
    simp only [List.length_set, List.mem_cons, List.getElem?_set]
    by_cases hj : j < init.length
    · by_cases hmem : j ∈ idxs
      · simp [hj, hmem]
      · by_cases hij : i = j
        · subst hij
          simp [hj, hmem]
        · have hji : ¬ j = i := fun h => hij h.symm
          simp [hj, hmem, hij, hji]
    · have hnone : init[j]? = none := List.getElem?_eq_none (by omega)
      by_cases hij : i = j
      · subst hij
        simp [hj, hnone]
      · simp [hj, hij]

/-- The growth step succeeds exactly when the new capacity exceeds the previous
length of the row buffer. -/
theorem growRows_ok_iff (oldRows : EncDatumRows) (capacity ncols : Nat) :
    (∃ newRows, growRows oldRows capacity ncols = .ok newRows) ↔ oldRows.length < capacity := by
  unfold growRows
  by_cases h : oldRows.length < capacity
  · simp [h]
  · simp [h]

/-- The growth step, when it succeeds: the new row buffer has the length of the
capacity, the previous slots come first, in order, and every other slot is a
fresh row of `ncols` zero values. -/
theorem growRows_spec (oldRows newRows : EncDatumRows) (capacity ncols : Nat)
    (h : growRows oldRows capacity ncols = .ok newRows) :
    oldRows.length < capacity ∧ newRows.length = capacity ∧
    (∀ i, i < oldRows.length → newRows[i]? = oldRows[i]?) ∧
    (∀ i, oldRows.length ≤ i → i < capacity →
      newRows[i]? = some (List.replicate ncols 0)) := by
  unfold growRows at h
  have hlen1 : ((List.range oldRows.length).foldl
      (fun rows i => rows.set i (oldRows.getD i [])) (List.replicate capacity [])).length
        = capacity := by
    rw [foldl_set_length (fun i => oldRows.getD i [])]
    simp
  by_cases hlt : oldRows.length < capacity
  · simp only [List.length_replicate, hlt, if_true] at h
    rw [hlen1] at h
    simp only [Except.ok.injEq] at h
    subst h
    refine ⟨hlt, ?_, ?_, ?_⟩
    · rw [foldl_set_length (fun _ => List.replicate ncols 0), hlen1]
    · intro i hi
      rw [foldl_set_getElem? (fun _ => List.replicate ncols 0),
        foldl_set_getElem? (fun i => oldRows.getD i [])]
      have h1 : ¬ (i ∈ List.range' oldRows.length (capacity - oldRows.length)) := by
        rw [List.mem_range'_1]
        omega
      have h2 : i < capacity := by omega
      simp [h1, hi, h2, List.getD, List.getElem?_eq_getElem hi]
    · intro i hi hic
      rw [foldl_set_getElem? (fun _ => List.replicate ncols 0), hlen1]
      have h1 : i ∈ List.range' oldRows.length (capacity - oldRows.length) := by
        rw [List.mem_range'_1]
        omega
      simp [h1, hic]
  · simp [hlt] at h

/-- The growth step keeps the width of the slots: when every previous slot has
`ncols` values, so has every slot of the new row buffer. -/
theorem growRows_width (oldRows newRows : EncDatumRows) (capacity ncols : Nat)
    (h : growRows oldRows capacity ncols = .ok newRows)
    (hw : ∀ row ∈ oldRows, row.length = ncols) :
    ∀ row ∈ newRows, row.length = ncols := by
  obtain ⟨_, hlen, hold, hnew⟩ := growRows_spec oldRows newRows capacity ncols h
  intro row hrow
  obtain ⟨i, hi, hget⟩ := List.mem_iff_getElem.mp hrow
  have hsome : newRows[i]? = some row := by
    rw [List.getElem?_eq_getElem hi, hget]
  by_cases hio : i < oldRows.length
  · rw [hold i hio] at hsome
    exact hw row (List.getElem?_mem hsome)
  · rw [hnew i (by omega) (by omega)] at hsome
    cases hsome
    simp

/-- The fill loop keeps the length of the row buffer, however it ends. -/
theorem fillLoop_buffered_length {σ : Type} (fuel capacity : Nat) :
    ∀ (n : Int) (c : Columnarizer σ),
      (Columnarizer.fillLoop fuel capacity n c).2.buffered.length = c.buffered.length := by
  induction fuel with
  | zero => intro n c; rfl
  | succ fuel ih =>
    intro n c
    unfold Columnarizer.fillLoop
    split
    · cases hp : c.input.pending with
      | nil => simp [RowSource.Next, hp]
      | cons item rest =>
        cases item with
        | row r =>
          simp only [RowSource.Next, hp]
          split
          · cases hb : c.buffered[n.toNat]? with
            | none => simp
            | some slot =>
              simp only []
              rw [ih]
              simp
          · simp
        | meta m =>
          simp only [RowSource.Next, hp]
          cases hE : m.Err with
          | some err => simp
          | none =>
            simp only []
            rw [ih]
    · simp

theorem GrowFrame.buffered {σ : Type} {c c' : Columnarizer σ} (h : GrowFrame c c')
    (rows : EncDatumRows) : GrowFrame c { c' with buffered := rows } := by
  unfold GrowFrame at *
  cases c
  cases c'
  simp only [Columnarizer.mk.injEq] at *
  simp [h]

theorem obtainBatch_frame {σ : Type} (A : Allocator σ) (c : Columnarizer σ) :
    GrowFrame c (c.obtainBatch A).1 ∧ (c.obtainBatch A).1.buffered = c.buffered := by
  unfold GrowFrame Columnarizer.obtainBatch
  split
  · exact ⟨rfl, rfl⟩
  · split
    · split
      · exact ⟨rfl, rfl⟩
      · exact ⟨rfl, rfl⟩
    · exact ⟨rfl, rfl⟩

theorem growBuffer_frame {σ : Type} (A : Allocator σ) (c : Columnarizer σ) :
    GrowFrame c (c.growBuffer A).2 := by
  have h := (obtainBatch_frame A c).1
  unfold Columnarizer.growBuffer
  simp only []
  cases hb : (c.obtainBatch A).1.batch with
  | none => simpa using h
  | some b0 =>
    simp only []
    cases hr : (c.obtainBatch A).2 with
    | false => simpa using h
    | true =>
      simp only [if_true]
      cases hg : growRows (c.obtainBatch A).1.buffered b0.capacity (c.obtainBatch A).1.typs.length with
      | error p => simpa using h
      | ok newRows =>
        have h2 := h.buffered newRows
        simpa [hb] using h2

/-- The first half of `Next`, when it completes: the batch it yields is the one
the adapter holds, it is the one the mode switch obtained, and the row buffer is
the outcome of the growth step if the batch was replaced and untouched if not. -/
theorem growBuffer_ok {σ : Type} (A : Allocator σ) (c c1 : Columnarizer σ) (batch : Batch)
    (h : c.growBuffer A = (.ok batch, c1)) :
    c1.batch = some batch ∧ (c.obtainBatch A).1.batch = some batch ∧
    c1.allocator = (c.obtainBatch A).1.allocator ∧
    c1.allocLog = (c.obtainBatch A).1.allocLog ∧
    ((c.obtainBatch A).2 = true →
      growRows c.buffered batch.capacity c.typs.length = .ok c1.buffered) ∧
    ((c.obtainBatch A).2 = false → c1.buffered = c.buffered) := by
  have hbuf : (c.obtainBatch A).1.buffered = c.buffered := by
    unfold Columnarizer.obtainBatch
    split
    · rfl
    · split
      · split <;> rfl
      · rfl
  have htyps : (c.obtainBatch A).1.typs = c.typs := by
    unfold Columnarizer.obtainBatch
    split
    · rfl
    · split
      · split <;> rfl
      · rfl
  unfold Columnarizer.growBuffer at h
  simp only [] at h
  cases hb : (c.obtainBatch A).1.batch with
  | none => simp [hb] at h
  | some b0 =>
    simp only [hb] at h
    cases hr : (c.obtainBatch A).2 with
    | false =>
      simp only [hr] at h
      simp at h
      obtain ⟨rfl, rfl⟩ := h
      exact ⟨hb, rfl, rfl, rfl, by simp, fun _ => hbuf⟩
    | true =>
      simp only [hr, if_true] at h
      rw [hbuf, htyps] at h
      cases hg : growRows c.buffered b0.capacity c.typs.length with
      | error p => simp [hg] at h
      | ok newRows =>
        simp [hg] at h
        obtain ⟨rfl, rfl⟩ := h
        exact ⟨rfl, rfl, rfl, rfl, fun _ => hg, by simp⟩

/-! ## Writing the columns -/

/-- Writing the columns changes the column vectors of the batch only: its
identity, its capacity, its length and the number of its columns stay. -/
theorem writeColumns_frame (conv : Conv) (rows : EncDatumRows) (typs : List T) :
    ∀ (idx : Nat) (b : Batch),
      (writeColumns conv rows typs idx b).2.id = b.id ∧
      (writeColumns conv rows typs idx b).2.capacity = b.capacity ∧
      (writeColumns conv rows typs idx b).2.length = b.length ∧
      (writeColumns conv rows typs idx b).2.cols.length = b.cols.length := by
  induction typs with
  | nil => intro idx b; exact ⟨rfl, rfl, rfl, rfl⟩
  | cons ct rest ih =>
    intro idx b
    unfold writeColumns
    cases hv : b.cols[idx]? with
    | none => exact ⟨rfl, rfl, rfl, rfl⟩
    | some vec =>
      simp only []
      cases hc : conv rows vec idx ct with
      | error err => exact ⟨rfl, rfl, rfl, rfl⟩
      | ok vec' =>
        simp only []
        obtain ⟨h1, h2, h3, h4⟩ := ih (idx + 1) { b with cols := b.cols.set idx vec' }
        exact ⟨h1, h2, h3, by simpa using h4⟩

/-- Writing the columns with a conversion that meets its contract, when it
completes: the columns before `idx` are untouched, and each of the columns
written holds, at entry `i`, the value of the staged row `i` at that column. -/
theorem writeColumns_ok (conv : Conv) (hconv : ConvContract conv) (rows : EncDatumRows)
    (typs : List T) :
    ∀ (idx : Nat) (b b' : Batch), writeColumns conv rows typs idx b = (.ok (), b') →
      (∀ j, j < idx → b'.cols[j]? = b.cols[j]?) ∧
      (∀ j, idx ≤ j → j < idx + typs.length →
        ∃ vec', b'.cols[j]? = some vec' ∧
          ∀ (i : Nat) (row : EncDatumRow), rows[i]? = some row → vec'[i]? = row[j]?) := by
  induction typs with
  | nil =>
    intro idx b b' h
    simp [writeColumns] at h
    subst h
    exact ⟨fun _ _ => rfl, fun j h1 h2 => by simp at h2; omega⟩
  | cons ct rest ih =>
    intro idx b b' h
    unfold writeColumns at h
    cases hv : b.cols[idx]? with
    | none => simp [hv] at h
    | some vec =>
      simp only [hv] at h
      cases hc : conv rows vec idx ct with
      | error err => simp [hc] at h
      | ok vec' =>
        simp only [hc] at h
        obtain ⟨h1, h2⟩ := ih (idx + 1) _ b' h
        have hidx : idx < b.cols.length := by
          rcases List.getElem?_eq_some.mp hv with ⟨hl, _⟩
          exact hl
        refine ⟨?_, ?_⟩
        · intro j hj
          rw [h1 j (by omega)]
          simp only []
          rw [List.getElem?_set_ne (by omega)]
        · intro j hj1 hj2
          by_cases hj : j = idx
          · subst hj
            refine ⟨vec', ?_, hconv rows vec j ct vec' hc⟩
            rw [h1 j (by omega)]
            simp only []
            rw [List.getElem?_set_self hidx]
          · exact h2 j (by omega) (by simp at hj2; omega)

/-! ## The anatomy of `Next` -/

/-- A `Next` call that returns a batch went through its three stages normally:
the first half yielded the batch of this pull, the fill loop ended with `nRows`
rows staged, the columns were written, and the batch returned is the outcome with
its length set to `nRows`. -/
theorem Next_ok {σ : Type} (A : Allocator σ) (conv : Conv) (c c' : Columnarizer σ) (b : Batch)
    (h : c.Next A conv = (.ok b, c')) :
    ∃ (batch : Batch) (c1 : Columnarizer σ) (nRows : Int) (c2 : Columnarizer σ) (b0 : Batch),
      c.growBuffer A = (.ok batch, c1) ∧
      Columnarizer.fillLoop (c1.input.pending.length + 1) batch.capacity 0 c1 = (.ok nRows, c2) ∧
      writeColumns conv (c2.buffered.take nRows.toNat) c2.typs 0 batch = (.ok (), b0) ∧
      b = b0.SetLength nRows.toNat ∧
      c' = { c2 with
             daAllocSize := if nRows > c2.daAllocSize then nRows else c2.daAllocSize
             batch := some b } := by
  unfold Columnarizer.Next at h
  rcases hg : c.growBuffer A with ⟨r1, c1⟩
  rw [hg] at h
  cases r1 with
  | error p => simp at h
  | ok batch =>
    simp only [] at h
    rcases hf : Columnarizer.fillLoop (c1.input.pending.length + 1) batch.capacity 0 c1
      with ⟨r2, c2⟩
    rw [hf] at h
    cases r2 with
    | error p => simp at h
    | ok nRows =>
      simp only [] at h
      have hbuf : (if nRows > c2.daAllocSize then { c2 with daAllocSize := nRows } else c2).buffered
          = c2.buffered := by split <;> rfl
      have htyps : (if nRows > c2.daAllocSize then { c2 with daAllocSize := nRows } else c2).typs
          = c2.typs := by split <;> rfl
      rw [hbuf, htyps] at h
      rcases hw : writeColumns conv (c2.buffered.take nRows.toNat) c2.typs 0 batch with ⟨r3, b0⟩
      rw [hw] at h
      cases r3 with
      | error p => simp at h
      | ok u =>
        simp only [Prod.mk.injEq, Except.ok.injEq] at h
        obtain ⟨h1, h2⟩ := h
        refine ⟨batch, c1, nRows, c2, b0, rfl, hf, hw, h1.symm, ?_⟩
        rw [← h2, h1]
        split <;> rfl

theorem FillFrame.fill_fields {σ : Type} {c c' : Columnarizer σ} (h : FillFrame c c') :
    c'.ProcessorBase = c.ProcessorBase ∧ c'.mode = c.mode ∧ c'.allocator = c.allocator ∧
    c'.allocLog = c.allocLog ∧ c'.daAllocSize = c.daAllocSize ∧
    c'.initStatus = c.initStatus ∧ c'.batch = c.batch ∧ c'.typs = c.typs ∧
    c'.input.types = c.input.types ∧ c'.input.startCalls = c.input.startCalls ∧
    c'.input.closedCalls = c.input.closedCalls ∧ c'.input.isOpNode = c.input.isOpNode := by
  unfold FillFrame at h
  refine ⟨?_, ?_, ?_, ?_, ?_, ?_, ?_, ?_, ?_, ?_, ?_, ?_⟩ <;> rw [h]

theorem GrowFrame.grow_fields {σ : Type} {c c' : Columnarizer σ} (h : GrowFrame c c') :
    c'.ProcessorBase = c.ProcessorBase ∧ c'.mode = c.mode ∧
    c'.daAllocSize = c.daAllocSize ∧ c'.initStatus = c.initStatus ∧ c'.typs = c.typs ∧
    c'.input = c.input ∧ c'.accumulatedMeta = c.accumulatedMeta := by
  unfold GrowFrame at h
  refine ⟨?_, ?_, ?_, ?_, ?_, ?_, ?_⟩ <;> rw [h]

/-- The adapter after a `Next` call, however the call ends: the mode, the types,
the processor base and the init status are as before; the allocator and the
record of the requests made to it are as the first half of the call left them;
the row buffer has the length the first half left it with; and the batch held is
the batch of the first half, up to its vectors and its length. -/
theorem Next_state {σ : Type} (A : Allocator σ) (conv : Conv) (c : Columnarizer σ) :
    (c.Next A conv).2.mode = c.mode ∧ (c.Next A conv).2.typs = c.typs ∧
    (c.Next A conv).2.ProcessorBase = c.ProcessorBase ∧
    (c.Next A conv).2.initStatus = c.initStatus ∧
    (c.Next A conv).2.allocator = (c.growBuffer A).2.allocator ∧
    (c.Next A conv).2.allocLog = (c.growBuffer A).2.allocLog ∧
    (c.Next A conv).2.buffered.length = (c.growBuffer A).2.buffered.length ∧
    ((c.growBuffer A).2.batch = none → (c.Next A conv).2.batch = none) ∧
    (∀ b1, (c.growBuffer A).2.batch = some b1 →
      ∃ b2, (c.Next A conv).2.batch = some b2 ∧ b2.id = b1.id ∧
        b2.capacity = b1.capacity) := by
  have hgf := (growBuffer_frame A c).grow_fields
  unfold Columnarizer.Next
  rcases hg : c.growBuffer A with ⟨r1, c1⟩
  rw [hg] at hgf
  obtain ⟨g1, g2, g3, g4, g5, g6, g7⟩ := hgf
  cases r1 with
  | error p =>
    exact ⟨g2, g5, g1, g4, rfl, rfl, rfl, fun h => h, fun b1 h => ⟨b1, h, rfl, rfl⟩⟩
  | ok batch =>
    simp only []
    have hff := fillLoop_consumed (c1.input.pending.length + 1) batch.capacity 0 c1
    have hbl := fillLoop_buffered_length (c1.input.pending.length + 1) batch.capacity 0 c1
    rcases hf : Columnarizer.fillLoop (c1.input.pending.length + 1) batch.capacity 0 c1
      with ⟨r2, c2⟩
    rw [hf] at hff hbl
    obtain ⟨_, _, _, hff⟩ := hff
    obtain ⟨f1, f2, f3, f4, f5, f6, f7, f8, _⟩ := hff.fill_fields
    simp only [] at hbl f1 f2 f3 f4 f5 f6 f7 f8
    cases r2 with
    | error p =>
      simp only []
      exact ⟨f2.trans g2, f8.trans g5, f1.trans g1, f6.trans g4, f3, f4, hbl,
        fun h => f7.trans h, fun b1 h => ⟨b1, f7.trans h, rfl, rfl⟩⟩
    | ok nRows =>
      simp only []
      have hbuf : (if nRows > c2.daAllocSize then { c2 with daAllocSize := nRows } else c2).buffered
          = c2.buffered := by split <;> rfl
      have htyps : (if nRows > c2.daAllocSize then { c2 with daAllocSize := nRows } else c2).typs
          = c2.typs := by split <;> rfl
      have hmode : (if nRows > c2.daAllocSize then { c2 with daAllocSize := nRows } else c2).mode
          = c2.mode := by split <;> rfl
      have hpb : (if nRows > c2.daAllocSize then { c2 with daAllocSize := nRows }
          else c2).ProcessorBase = c2.ProcessorBase := by split <;> rfl
      have hinit : (if nRows > c2.daAllocSize then { c2 with daAllocSize := nRows }
          else c2).initStatus = c2.initStatus := by split <;> rfl
      have hal : (if nRows > c2.daAllocSize then { c2 with daAllocSize := nRows }
          else c2).allocator = c2.allocator := by split <;> rfl
      have hlog : (if nRows > c2.daAllocSize then { c2 with daAllocSize := nRows }
          else c2).allocLog = c2.allocLog := by split <;> rfl
      rw [hbuf, htyps]
      have hwf := writeColumns_frame conv (c2.buffered.take nRows.toNat) c2.typs 0 batch
      rcases hw : writeColumns conv (c2.buffered.take nRows.toNat) c2.typs 0 batch with ⟨r3, b0⟩
      rw [hw] at hwf
      obtain ⟨w1, w2, _, _⟩ := hwf
      simp only [] at w1 w2
      have hb1 : ∀ b1, c1.batch = some b1 → b1 = batch := by
        intro b1 h
        have := (growBuffer_ok A c c1 batch hg).1
        rw [this] at h
        cases h
        rfl
      have hnone : c1.batch ≠ none := by
        rw [(growBuffer_ok A c c1 batch hg).1]
        simp
      cases r3 with
      | error p =>
        simp only []
        exact ⟨hmode.trans (f2.trans g2), f8.trans g5, hpb.trans (f1.trans g1),
          hinit.trans (f6.trans g4), hal.trans f3, hlog.trans f4, hbl,
          fun h => absurd h hnone,
          fun b1 h => ⟨b0, rfl, by rw [hb1 b1 h]; exact w1, by rw [hb1 b1 h]; exact w2⟩⟩
      | ok u =>
        simp only []
        exact ⟨hmode.trans (f2.trans g2), f8.trans g5, hpb.trans (f1.trans g1),
          hinit.trans (f6.trans g4), hal.trans f3, hlog.trans f4, hbl,
          fun h => absurd h hnone,
          fun b1 h => ⟨b0.SetLength nRows.toNat, rfl, by rw [hb1 b1 h]; exact w1,
            by rw [hb1 b1 h]; exact w2⟩⟩

/-- The first half of `Next` leaves the adapter with the batch, the allocator and
the record of requests of the mode switch, however it ends. -/
theorem growBuffer_batch {σ : Type} (A : Allocator σ) (c : Columnarizer σ) :
    (c.growBuffer A).2.batch = (c.obtainBatch A).1.batch ∧
    (c.growBuffer A).2.allocator = (c.obtainBatch A).1.allocator ∧
    (c.growBuffer A).2.allocLog = (c.obtainBatch A).1.allocLog := by
  unfold Columnarizer.growBuffer
  simp only []
  cases hb : (c.obtainBatch A).1.batch with
  | none => simp [hb]
  | some b0 =>
    simp only []
    cases hr : (c.obtainBatch A).2 with
    | false => simp [hb]
    | true =>
      simp only [if_true]
      cases hg : growRows (c.obtainBatch A).1.buffered b0.capacity (c.obtainBatch A).1.typs.length with
      | error p => simp [hb]
      | ok newRows => simp

/-- The mode switch in streaming mode: without a batch, the allocator is asked
once for a batch of fixed capacity 1 and the batch counts as replaced; with a
batch, that batch is reset in place, the allocator is not asked, and the batch
does not count as replaced. -/
theorem obtainBatch_streaming {σ : Type} (A : Allocator σ) (c : Columnarizer σ)
    (hmode : c.mode = columnarizerStreamingMode) :
    (c.batch = none →
      (c.obtainBatch A).1.batch = some (A.NewMemBatchWithFixedCapacity c.allocator c.typs 1).1 ∧
      (c.obtainBatch A).1.allocator = (A.NewMemBatchWithFixedCapacity c.allocator c.typs 1).2 ∧
      (c.obtainBatch A).1.allocLog = c.allocLog ++ [AllocCall.NewMemBatchWithFixedCapacity 1] ∧
      (c.obtainBatch A).2 = true) ∧
    (∀ b, c.batch = some b →
      (c.obtainBatch A).1.batch = some b.ResetInternalBatch ∧
      (c.obtainBatch A).1.allocator = c.allocator ∧
      (c.obtainBatch A).1.allocLog = c.allocLog ∧
      (c.obtainBatch A).2 = false) := by
  have h10 : ¬ columnarizerStreamingMode = columnarizerBufferingMode := by decide
  unfold Columnarizer.obtainBatch
  simp only [hmode, h10, if_false, if_true]
  constructor
  · intro hb
    simp [hb]
  · intro b hb
    simp [hb]

/-- A property of the batches returned by `Next` from the states of an invariant
holds of every batch returned by a sequence of `Next` calls started in the
invariant. -/
theorem NextN_invariant {σ : Type} (A : Allocator σ) (conv : Conv)
    (I : Columnarizer σ → Prop) (P : Batch → Prop)
    (hI : ∀ c, I c → I (c.Next A conv).2)
    (hP : ∀ c b, I c → (c.Next A conv).1 = .ok b → P b) :
    ∀ (k : Nat) (c : Columnarizer σ), I c →
      ∀ b ∈ returnedBatches (c.NextN A conv k).1, P b := by
  intro k
  induction k with
  | zero =>
    intro c _ b hb
    simp [Columnarizer.NextN, returnedBatches] at hb
  | succ k ih =>
    intro c hc b hb
    simp only [Columnarizer.NextN] at hb
    cases hr : (c.Next A conv).1 with
    | error p =>
      rw [hr] at hb
      simp only [returnedBatches] at hb
      exact ih _ (hI c hc) b hb
    | ok b1 =>
      rw [hr] at hb
      simp only [returnedBatches, List.mem_cons] at hb
      rcases hb with rfl | hb
      · exact hP c b hc hr
      · exact ih _ (hI c hc) b hb

/-- A batch returned by `Next` is the batch of this pull with its vectors written
and its length set: it has the identity and the capacity of that batch, a length
within the capacity, and it is the batch the adapter holds afterwards. -/
theorem Next_batch {σ : Type} (A : Allocator σ) (conv : Conv) (c c' : Columnarizer σ) (b : Batch)
    (h : c.Next A conv = (.ok b, c')) :
    ∃ batch c1, c.growBuffer A = (.ok batch, c1) ∧ b.capacity = batch.capacity ∧
      b.id = batch.id ∧ b.length ≤ b.capacity ∧ c'.batch = some b := by
  obtain ⟨batch, c1, nRows, c2, b0, hg, hf, hw, hb, hc⟩ := Next_ok A conv c c' b h
  obtain ⟨consumed, _, _, _, h4, h5, _⟩ := fillLoop_ok _ _ 0 c1 c2 nRows (le_refl 0) hf
  have hwf := writeColumns_frame conv (c2.buffered.take nRows.toNat) c2.typs 0 batch
  rw [hw] at hwf
  obtain ⟨w1, w2, _, _⟩ := hwf
  simp only [] at w1 w2
  have hle : nRows ≤ (batch.capacity : Int) := h5 (by omega)
  refine ⟨batch, c1, hg, ?_, ?_, ?_, ?_⟩
  · rw [hb]; exact w2
  · rw [hb]; exact w1
  · rw [hb]
    simp only [Batch.SetLength]
    rw [w2]
    omega
  · rw [hc]

/-- C1: the length set on every batch returned by a sequence of `Next` calls is at
most the capacity of that batch; and in streaming mode, when the batch of fixed
capacity 1 the allocator makes has capacity 1 and the adapter holds no batch or
one of capacity 1 (as a freshly constructed adapter does), the length of every
batch returned is 0 or 1. -/
theorem C1_length_within_capacity {σ : Type} (A : Allocator σ) (conv : Conv) (k : Nat)
    (c : Columnarizer σ) :
    (∀ b ∈ returnedBatches (c.NextN A conv k).1, b.length ≤ b.capacity) ∧
    (c.mode = columnarizerStreamingMode →
      (∀ st typs, (A.NewMemBatchWithFixedCapacity st typs 1).1.capacity = 1) →
      (∀ b0, c.batch = some b0 → b0.capacity = 1) →
      ∀ b ∈ returnedBatches (c.NextN A conv k).1, b.length = 0 ∨ b.length = 1) := by
  constructor
  · refine NextN_invariant A conv (fun _ => True) (fun b => b.length ≤ b.capacity)
      (fun _ _ => trivial) ?_ k c trivial
    intro c0 b _ hb
    obtain ⟨_, _, _, _, _, hle, _⟩ := Next_batch A conv c0 (c0.Next A conv).2 b
      (by rw [← hb])
    exact hle
  · intro hmode hfix hinv
    have hcap : ∀ c0 : Columnarizer σ, c0.mode = columnarizerStreamingMode →
        (∀ b0, c0.batch = some b0 → b0.capacity = 1) →
        ∀ b1, (c0.growBuffer A).2.batch = some b1 → b1.capacity = 1 := by
      intro c0 hm hi b1 hb1
      rw [(growBuffer_batch A c0).1] at hb1
      obtain ⟨hnone, hsome⟩ := obtainBatch_streaming A c0 hm
      cases hb : c0.batch with
      | none =>
        rw [(hnone hb).1] at hb1
        cases hb1
        exact hfix _ _
      | some b0 =>
        rw [(hsome b0 hb).1] at hb1
        cases hb1
        exact hi b0 hb
    refine NextN_invariant A conv
      (fun c0 => c0.mode = columnarizerStreamingMode ∧ ∀ b0, c0.batch = some b0 → b0.capacity = 1)
      (fun b => b.length = 0 ∨ b.length = 1) ?_ ?_ k c ⟨hmode, hinv⟩
    · intro c0 ⟨hm, hi⟩
      obtain ⟨s1, _, _, _, _, _, _, _, s9⟩ := Next_state A conv c0
      refine ⟨s1.trans hm, ?_⟩
      intro b0 hb0
      cases hg : (c0.growBuffer A).2.batch with
      | none =>
        have := (Next_state A conv c0).2.2.2.2.2.2.2.1 hg
        rw [this] at hb0
        cases hb0
      | some b1 =>
        obtain ⟨b2, h2, _, hc2⟩ := s9 b1 hg
        rw [h2] at hb0
        cases hb0
        rw [hc2]
        exact hcap c0 hm hi b1 hg
    · intro c0 b ⟨hm, hi⟩ hb
      obtain ⟨batch, c1, hg, hc, _, hle, _⟩ := Next_batch A conv c0 (c0.Next A conv).2 b
        (by rw [← hb])
      have h1 : batch.capacity = 1 := by
        apply hcap c0 hm hi batch
        rw [hg]
        exact (growBuffer_ok A c0 c1 batch hg).1
      rw [hc, h1] at hle
      omega

/-- C1 on the sample adapter in streaming mode over the sample stream, pulled
four times with the sample allocator. -/
theorem C1_length_within_capacity_witness :
    (sampleAdapter columnarizerStreamingMode sampleItems).mode = columnarizerStreamingMode ∧
    (∀ b ∈ returnedBatches
        ((sampleAdapter columnarizerStreamingMode sampleItems).NextN
          (doublingAllocator 4) copyConv 4).1,
      b.length = 0 ∨ b.length = 1) ∧
    (returnedBatches
        ((sampleAdapter columnarizerStreamingMode sampleItems).NextN
          (doublingAllocator 4) copyConv 4).1).map (fun b => b.length) = [1, 1, 0, 0] :=
  ⟨rfl,
    (C1_length_within_capacity (doublingAllocator 4) copyConv 4
      (sampleAdapter columnarizerStreamingMode sampleItems)).2 rfl (fun _ _ => rfl)
      (fun b0 h => by
        have hb : (sampleAdapter columnarizerStreamingMode sampleItems).batch = none := rfl
        rw [hb] at h
        cases h),
    by decide⟩

/-! ## `newColumnarizer` and `Init`: one start, one mode check -/

/-- `Init` on an initialised adapter changes nothing. -/
theorem Init_of_initialized {σ : Type} (c : Columnarizer σ)
    (h : c.initStatus = .OperatorInitialized) : c.Init = c := by
  unfold Columnarizer.Init
  simp [h]

/-- Any number of `Init` calls, at least one, amounts to one `Init` call. -/
theorem InitN_eq_Init {σ : Type} (n : Nat) (c : Columnarizer σ) :
    c.InitN (n + 1) = c.Init := by
  induction n generalizing c with
  | zero => rfl
  | succ n ih =>
    have h1 : c.Init.initStatus = .OperatorInitialized := by
      unfold Columnarizer.Init
      split
      · rfl
      · rename_i h
        cases hs : c.initStatus with
        | OperatorNotInitialized => exact absurd hs h
        | OperatorInitialized => rfl
    show Columnarizer.InitN (n + 1) c.Init = c.Init
    rw [ih c.Init]
    exact Init_of_initialized _ h1

/-- C7: on a freshly constructed adapter, `n ≥ 1` calls of `Init` call `Start` on
the row source exactly once (they amount to one `Init` call, which leaves the
adapter initialised); and `Init` on an initialised adapter is a no-op: the whole
adapter, the metadata accumulator included, is as before. -/
theorem C7_init_starts_source_once {σ : Type}
    (pbInit : List T → Nat → Int → Except Error ProcessorBase) (allocator : σ)
    (flowCtx : Nat) (processorID : Int) (input : RowSource) (mode : Int)
    (c : Columnarizer σ) (n : Nat)
    (hnew : newColumnarizer pbInit allocator flowCtx processorID input mode = .ok c)
    (hn : 1 ≤ n) :
    (c.InitN n).input.startCalls = input.startCalls + 1 ∧
    c.InitN n = c.Init ∧
    (c.InitN n).initStatus = .OperatorInitialized ∧
    (∀ c' : Columnarizer σ, c'.initStatus = .OperatorInitialized → c'.Init = c') := by
  obtain ⟨n, rfl⟩ : ∃ j, n = j + 1 := ⟨n - 1, by omega⟩
  rw [InitN_eq_Init]
  unfold newColumnarizer at hnew
  split at hnew
  · cases hp : pbInit input.OutputTypes flowCtx processorID with
    | error err => simp [hp] at hnew
    | ok pb =>
      simp only [hp, Except.ok.injEq] at hnew
      subst hnew
      exact ⟨rfl, rfl, rfl, fun c' h => Init_of_initialized c' h⟩
  · simp at hnew

/-- C7 on the sample source: three `Init` calls on the adapter constructed over
it start the source once. -/
theorem C7_init_starts_source_once_witness :
    ((sampleAdapter columnarizerBufferingMode sampleItems).InitN 3).input.startCalls = 1 ∧
    ∃ c : Columnarizer Nat,
      newColumnarizer pbInitOk 0 0 0 (sampleSource sampleItems) columnarizerBufferingMode = .ok c ∧
      (c.InitN 3).input.startCalls = (sampleSource sampleItems).startCalls + 1 :=
  ⟨by decide, _, rfl,
    (C7_init_starts_source_once pbInitOk 0 0 0 (sampleSource sampleItems)
      columnarizerBufferingMode _ 3 rfl (by decide)).1⟩

/-- C10: for every mode other than the buffering and the streaming mode,
`newColumnarizer` returns the assertion failure and no adapter, whatever the
input and whatever the processor base initialisation would do; for the two
defined modes, the only ones the two public constructors pass, it fails exactly
with the error of the processor base initialisation, and the adapter it returns
has that mode, no batch, an empty row buffer and the not-initialised status. -/
theorem C10_newColumnarizer_mode_check {σ : Type}
    (pbInit : List T → Nat → Int → Except Error ProcessorBase) (allocator : σ)
    (flowCtx : Nat) (processorID : Int) (input : RowSource) (mode : Int) :
    (mode ≠ columnarizerBufferingMode → mode ≠ columnarizerStreamingMode →
      newColumnarizer pbInit allocator flowCtx processorID input mode
        = .error (.AssertionFailed (.unexpectedColumnarizerMode mode))) ∧
    (mode = columnarizerBufferingMode ∨ mode = columnarizerStreamingMode →
      (∀ err, newColumnarizer pbInit allocator flowCtx processorID input mode = .error err ↔
        pbInit input.OutputTypes flowCtx processorID = .error err) ∧
      (∀ c, newColumnarizer pbInit allocator flowCtx processorID input mode = .ok c →
        c.mode = mode ∧ c.batch = none ∧ c.buffered = [] ∧
        c.initStatus = .OperatorNotInitialized ∧ c.input = input ∧
        pbInit input.OutputTypes flowCtx processorID = .ok c.ProcessorBase ∧
        c.typs = c.ProcessorBase.OutputTypes)) ∧
    NewBufferingColumnarizer pbInit allocator flowCtx processorID input
      = newColumnarizer pbInit allocator flowCtx processorID input columnarizerBufferingMode ∧
    NewStreamingColumnarizer pbInit allocator flowCtx processorID input
      = newColumnarizer pbInit allocator flowCtx processorID input columnarizerStreamingMode := by
  refine ⟨?_, ?_, rfl, rfl⟩
  · intro h0 h1
    unfold newColumnarizer
    simp [h0, h1]
  · intro hmode
    unfold newColumnarizer
    simp only [hmode, if_true]
    cases hp : pbInit input.OutputTypes flowCtx processorID with
    | error err0 =>
      refine ⟨fun err => ?_, fun c h => ?_⟩
      · simp
      · simp at h
    | ok pb =>
      refine ⟨fun err => ?_, fun c h => ?_⟩
      · simp
      · simp only [Except.ok.injEq] at h
        subst h
        exact ⟨rfl, rfl, rfl, rfl, rfl, rfl, rfl⟩

/-- C10 on the sample source: mode 2 is refused even with an initialisation that
succeeds, and mode 1 is accepted. -/
theorem C10_newColumnarizer_mode_check_witness :
    (newColumnarizer pbInitOk (0 : Nat) 0 0 (sampleSource sampleItems) 2
      = .error (.AssertionFailed (.unexpectedColumnarizerMode 2))) ∧
    (∀ c, newColumnarizer pbInitOk (0 : Nat) 0 0 (sampleSource sampleItems)
        columnarizerStreamingMode = .ok c →
      c.mode = columnarizerStreamingMode ∧ c.batch = none ∧ c.buffered = [] ∧
      c.initStatus = .OperatorNotInitialized ∧ c.input = sampleSource sampleItems ∧
      pbInitOk (sampleSource sampleItems).OutputTypes 0 0 = .ok c.ProcessorBase ∧
      c.typs = c.ProcessorBase.OutputTypes) :=
  ⟨(C10_newColumnarizer_mode_check pbInitOk (0 : Nat) 0 0 (sampleSource sampleItems) 2).1
      (by decide) (by decide),
    ((C10_newColumnarizer_mode_check pbInitOk (0 : Nat) 0 0 (sampleSource sampleItems)
      columnarizerStreamingMode).2.1 (Or.inr rfl)).2⟩

/-! ## Single pulls -/

/-- C5: when the row source yields a metadata item carrying an error before the
fill loop has stopped (the rows before it, `k` of them for any `k`, are fewer
than the capacity and each has a slot to be staged in, and no earlier item
carries an error), `Next` raises that error as an expected error and returns no
batch. -/
theorem C5_error_metadata_aborts_pull {σ : Type} (A : Allocator σ) (conv : Conv)
    (c c1 : Columnarizer σ) (batch : Batch) (pre post : List Item) (m : ProducerMetadata)
    (e : Error)
    (hg : c.growBuffer A = (.ok batch, c1))
    (hp : c.input.pending = pre ++ Item.meta m :: post)
    (hE : m.Err = some e)
    (hpre : ∀ m' ∈ metasOf pre, m'.Err = none)
    (hcap : (rowsOf pre).length < batch.capacity)
    (hbuf : (rowsOf pre).length ≤ c1.buffered.length) :
    (c.Next A conv).1 = .error (.ExpectedError e) ∧
    (∀ b, (c.Next A conv).1 ≠ .ok b) := by
  have hin : c1.input = c.input := by
    have := (growBuffer_frame A c).grow_fields
    rw [hg] at this
    exact this.2.2.2.2.2.1
  have hp1 : c1.input.pending = pre ++ Item.meta m :: post := by rw [hin, hp]
  have hfl := fillLoop_error batch.capacity pre (c1.input.pending.length + 1) 0 c1 m e post
    hp1 hE hpre (le_refl 0) (by omega) (by omega) (by rw [hp1]; simp; omega)
  have hres : (c.Next A conv).1 = .error (.ExpectedError e) := by
    unfold Columnarizer.Next
    rw [hg]
    simp only []
    rcases hf : Columnarizer.fillLoop (c1.input.pending.length + 1) batch.capacity 0 c1
      with ⟨r2, c2⟩
    rw [hf] at hfl
    simp only [] at hfl
    rw [hfl.1]
  exact ⟨hres, fun b hb => by rw [hres] at hb; cases hb⟩

/-- C6: a pull that completes on a batch of capacity at least 1 returns length 0
exactly when the source held no row any more, that is when the pull met
end-of-stream before any row; and then the source is exhausted and all the
metadata it still held was appended to the accumulator. -/
theorem C6_zero_length_iff_end_of_stream {σ : Type} (A : Allocator σ) (conv : Conv)
    (c c' : Columnarizer σ) (b : Batch)
    (h : c.Next A conv = (.ok b, c')) (hcap : 1 ≤ b.capacity) :
    (b.length = 0 ↔ rowsOf c.input.pending = []) ∧
    (b.length = 0 →
      c'.input.pending = [] ∧
      c'.accumulatedMeta = c.accumulatedMeta ++ metasOf c.input.pending ∧
      ∀ m ∈ metasOf c.input.pending, m.Err = none) := by
  obtain ⟨batch, c1, nRows, c2, b0, hg, hf, hw, hb, hc⟩ := Next_ok A conv c c' b h
  obtain ⟨consumed, h1, h2, h3, h4, h5, h6, _⟩ :=
    fillLoop_ok _ _ 0 c1 c2 nRows (le_refl 0) hf
  have hgf := (growBuffer_frame A c).grow_fields
  rw [hg] at hgf
  obtain ⟨_, _, _, _, _, hin, hacc⟩ := hgf
  simp only [] at hin hacc
  rw [hin] at h1
  rw [hacc] at h3
  have hwf := writeColumns_frame conv (c2.buffered.take nRows.toNat) c2.typs 0 batch
  rw [hw] at hwf
  have hbcap : b.capacity = batch.capacity := by rw [hb]; exact hwf.2.1
  have hlen : b.length = nRows.toNat := by rw [hb]; rfl
  have hc'in : c'.input = c2.input := by rw [hc]
  have hc'acc : c'.accumulatedMeta = c2.accumulatedMeta := by rw [hc]
  have hzero : b.length = 0 → rowsOf consumed = [] ∧ c2.input.pending = [] := by
    intro hz
    have hn0 : nRows = 0 := by omega
    have hr : rowsOf consumed = [] := by
      apply List.eq_nil_of_length_eq_zero
      omega
    exact ⟨hr, h6 (by omega)⟩
  refine ⟨⟨fun hz => ?_, fun hr => ?_⟩, fun hz => ?_⟩
  · obtain ⟨hr, hp⟩ := hzero hz
    rw [h1, hp, rowsOf_append, hr]
    rfl
  · rw [h1, rowsOf_append] at hr
    have hr' : rowsOf consumed = [] := (List.append_eq_nil.mp hr).1
    rw [hlen, h4, hr']
    rfl
  · obtain ⟨hr, hp⟩ := hzero hz
    rw [hp, List.append_nil] at h1
    rw [hc'in, hc'acc, h1]
    exact ⟨hp, h3, h2⟩

/-- C8: in a pull whose batch was replaced, once the growth step has completed the
row buffer has the length of the capacity of the new batch, its slots below the
previous length are the previous slots in order, and every slot from the
previous length on is a fresh row with one zero value per output column; and
if the pull completes, the row buffer still has that length. -/
theorem C8_row_buffer_growth {σ : Type} (A : Allocator σ) (conv : Conv)
    (c c1 : Columnarizer σ) (batch : Batch)
    (hg : c.growBuffer A = (.ok batch, c1))
    (hrep : (c.obtainBatch A).2 = true) :
    c1.buffered.length = batch.capacity ∧
    c.buffered.length < batch.capacity ∧
    (∀ i, i < c.buffered.length → c1.buffered[i]? = c.buffered[i]?) ∧
    (∀ i, c.buffered.length ≤ i → i < batch.capacity →
      c1.buffered[i]? = some (List.replicate c.typs.length 0)) ∧
    (∀ b c', c.Next A conv = (.ok b, c') →
      b.capacity = batch.capacity ∧ c'.buffered.length = b.capacity) := by
  obtain ⟨_, _, _, _, hgrow, _⟩ := growBuffer_ok A c c1 batch hg
  obtain ⟨g1, g2, g3, g4⟩ := growRows_spec _ _ _ _ (hgrow hrep)
  refine ⟨g2, g1, g3, g4, ?_⟩
  intro b c' hn
  obtain ⟨batch', c1', hg', hc, _, _, _⟩ := Next_batch A conv c c' b hn
  rw [hg] at hg'
  simp only [Prod.mk.injEq, Except.ok.injEq] at hg'
  obtain ⟨rfl, rfl⟩ := hg'
  have hs := (Next_state A conv c).2.2.2.2.2.2.1
  rw [hn, hg] at hs
  simp only [] at hs
  exact ⟨hc, by rw [hs, g2, hc]⟩

/-- C5 on the sample adapter: in its second pull, with capacity 2, row B is staged
and then the item carrying error 5 is met; the pull raises that error. -/
theorem C5_error_metadata_aborts_pull_witness :
    (sampleAfterFirstPull.growBuffer (doublingAllocator 4)).1
      = .ok (freshBatch 1 [0, 0] 2) ∧
    sampleAfterFirstPull.input.pending = [Item.row [3, 4]] ++ Item.meta sampleErrorMeta :: [] ∧
    (sampleAfterFirstPull.Next (doublingAllocator 4) copyConv).1
      = .error (.ExpectedError (.Other 5)) :=
  ⟨rfl, rfl,
    (C5_error_metadata_aborts_pull (doublingAllocator 4) copyConv sampleAfterFirstPull
      (sampleAfterFirstPull.growBuffer (doublingAllocator 4)).2 (freshBatch 1 [0, 0] 2)
      [Item.row [3, 4]] [] sampleErrorMeta (.Other 5) rfl rfl rfl
      (by intro m' hm'; simp [metasOf] at hm') (by decide) (by decide)).1⟩

/-- C6 on the sample adapter over a stream of one metadata item: the pull returns
length 0 and the item is in the accumulator. -/
theorem C6_zero_length_iff_end_of_stream_witness :
    ((sampleAdapter columnarizerBufferingMode [Item.meta sampleMeta]).Next
      (doublingAllocator 4) copyConv).1 = .ok (freshBatch 0 [0, 0] 1) ∧
    ((freshBatch 0 [0, 0] 1).length = 0 ↔
      rowsOf (sampleAdapter columnarizerBufferingMode [Item.meta sampleMeta]).input.pending = []) ∧
    ((sampleAdapter columnarizerBufferingMode [Item.meta sampleMeta]).Next
      (doublingAllocator 4) copyConv).2.accumulatedMeta = [sampleMeta] :=
  ⟨rfl,
    (C6_zero_length_iff_end_of_stream (doublingAllocator 4) copyConv
      (sampleAdapter columnarizerBufferingMode [Item.meta sampleMeta])
      ((sampleAdapter columnarizerBufferingMode [Item.meta sampleMeta]).Next
        (doublingAllocator 4) copyConv).2
      (freshBatch 0 [0, 0] 1) rfl (by decide)).1,
    ((C6_zero_length_iff_end_of_stream (doublingAllocator 4) copyConv
      (sampleAdapter columnarizerBufferingMode [Item.meta sampleMeta])
      ((sampleAdapter columnarizerBufferingMode [Item.meta sampleMeta]).Next
        (doublingAllocator 4) copyConv).2
      (freshBatch 0 [0, 0] 1) rfl (by decide)).2 rfl).2.1⟩

/-- C8 on the sample adapter: in its second pull the batch is replaced by one of
capacity 2, and the row buffer grows from one slot to two. -/
theorem C8_row_buffer_growth_witness :
    sampleAfterFirstPull.buffered = [[1, 2]] ∧
    (sampleAfterFirstPull.growBuffer (doublingAllocator 4)).2.buffered.length
      = (freshBatch 1 [0, 0] 2).capacity ∧
    (sampleAfterFirstPull.growBuffer (doublingAllocator 4)).2.buffered = [[1, 2], [0, 0]] :=
  ⟨rfl,
    (C8_row_buffer_growth (doublingAllocator 4) copyConv sampleAfterFirstPull
      (sampleAfterFirstPull.growBuffer (doublingAllocator 4)).2 (freshBatch 1 [0, 0] 2)
      rfl rfl).1,
    rfl⟩

/-! ## Streaming mode -/

/-- An invariant of `Next` holds after any sequence of `Next` calls. -/
theorem NextN_state_invariant {σ : Type} (A : Allocator σ) (conv : Conv)
    (I : Columnarizer σ → Prop) (hI : ∀ c, I c → I (c.Next A conv).2) :
    ∀ (k : Nat) (c : Columnarizer σ), I c → I (c.NextN A conv k).2 := by
  intro k
  induction k with
  | zero => intro c hc; exact hc
  | succ k ih =>
    intro c hc
    simp only [Columnarizer.NextN]
    exact ih _ (hI c hc)

/-- When the batch does not count as replaced, the first half of `Next` leaves
the row buffer alone. -/
theorem growBuffer_not_replaced {σ : Type} (A : Allocator σ) (c : Columnarizer σ)
    (h : (c.obtainBatch A).2 = false) : (c.growBuffer A).2.buffered = c.buffered := by
  have hbuf := (obtainBatch_frame A c).2
  unfold Columnarizer.growBuffer
  simp only [h]
  cases hb : (c.obtainBatch A).1.batch with
  | none => simpa using hbuf
  | some b0 => simpa using hbuf

/-- A streaming adapter that has its batch keeps it over a `Next` call, however
the call ends: the allocator is not asked, the row buffer keeps its length and
the batch its identity and capacity. -/
theorem StreamingSettled_Next {σ : Type} (A : Allocator σ) (conv : Conv)
    (log : List AllocCall) (st : σ) (len id cap : Nat) (c : Columnarizer σ)
    (h : StreamingSettled log st len id cap c) :
    StreamingSettled log st len id cap (c.Next A conv).2 := by
  obtain ⟨hm, hlog, hst, hlen, b, hb, hid, hcap⟩ := h
  obtain ⟨s1, _, _, _, s5, s6, s7, _, s9⟩ := Next_state A conv c
  obtain ⟨g1, g2, g3⟩ := growBuffer_batch A c
  obtain ⟨o1, o2, o3, o4⟩ := (obtainBatch_streaming A c hm).2 b hb
  refine ⟨s1.trans hm, ?_, ?_, ?_, ?_⟩
  · rw [s6, g3, o3, hlog]
  · rw [s5, g2, o2, hst]
  · rw [s7, growBuffer_not_replaced A c o4, hlen]
  · obtain ⟨b2, h2, hid2, hcap2⟩ := s9 b.ResetInternalBatch (by rw [g1, o1])
    exact ⟨b2, h2, by rw [hid2]; exact hid, by rw [hcap2]; exact hcap⟩

/-- A batch returned by `Next` from a streaming adapter that has its batch is that
batch. -/
theorem StreamingSettled_batch {σ : Type} (A : Allocator σ) (conv : Conv)
    (log : List AllocCall) (st : σ) (len id cap : Nat) (c : Columnarizer σ) (b : Batch)
    (h : StreamingSettled log st len id cap c) (hb : (c.Next A conv).1 = .ok b) :
    b.id = id := by
  obtain ⟨hm, _, _, _, b0, hb0, hid, _⟩ := h
  obtain ⟨batch, c1, hg, _, hbid, _, _⟩ := Next_batch A conv c (c.Next A conv).2 b
    (by rw [← hb])
  have h1 := (growBuffer_ok A c c1 batch hg).2.1
  rw [((obtainBatch_streaming A c hm).2 b0 hb0).1] at h1
  cases h1
  rw [hbid]
  exact hid

/-- C9: in streaming mode, from an adapter without a batch, after any number of
`Next` calls, at least one, the allocator has been asked exactly once, for a
batch of fixed capacity 1; the adapter holds that batch; the next call resets it
in place with the replaced flag false and without asking the allocator; the row
buffer has the length the first call left it with; and every batch returned is
that same batch. -/
theorem C9_streaming_allocates_once {σ : Type} (A : Allocator σ) (conv : Conv)
    (c : Columnarizer σ) (k : Nat)
    (hmode : c.mode = columnarizerStreamingMode) (hnone : c.batch = none) :
    (c.NextN A conv (k + 1)).2.allocLog
      = c.allocLog ++ [AllocCall.NewMemBatchWithFixedCapacity 1] ∧
    (c.NextN A conv (k + 1)).2.allocator
      = (A.NewMemBatchWithFixedCapacity c.allocator c.typs 1).2 ∧
    (∃ b, (c.NextN A conv (k + 1)).2.batch = some b ∧
      b.id = (A.NewMemBatchWithFixedCapacity c.allocator c.typs 1).1.id ∧
      b.capacity = (A.NewMemBatchWithFixedCapacity c.allocator c.typs 1).1.capacity ∧
      (((c.NextN A conv (k + 1)).2).obtainBatch A).1.batch = some b.ResetInternalBatch ∧
      (((c.NextN A conv (k + 1)).2).obtainBatch A).1.allocLog
        = (c.NextN A conv (k + 1)).2.allocLog ∧
      (((c.NextN A conv (k + 1)).2).obtainBatch A).2 = false) ∧
    (c.NextN A conv (k + 1)).2.buffered.length = (c.Next A conv).2.buffered.length ∧
    (∀ b ∈ returnedBatches (c.NextN A conv (k + 1)).1,
      b.id = (A.NewMemBatchWithFixedCapacity c.allocator c.typs 1).1.id) := by
  obtain ⟨o1, o2, o3, _⟩ := (obtainBatch_streaming A c hmode).1 hnone
  obtain ⟨g1, g2, g3⟩ := growBuffer_batch A c
  obtain ⟨s1, _, _, _, s5, s6, _, _, s9⟩ := Next_state A conv c
  have hfirst : StreamingSettled (c.allocLog ++ [AllocCall.NewMemBatchWithFixedCapacity 1])
      (A.NewMemBatchWithFixedCapacity c.allocator c.typs 1).2
      (c.Next A conv).2.buffered.length
      (A.NewMemBatchWithFixedCapacity c.allocator c.typs 1).1.id
      (A.NewMemBatchWithFixedCapacity c.allocator c.typs 1).1.capacity
      (c.Next A conv).2 := by
    refine ⟨s1.trans hmode, by rw [s6, g3, o3], by rw [s5, g2, o2], rfl, ?_⟩
    obtain ⟨b2, h2, hid2, hcap2⟩ := s9 _ (by rw [g1, o1])
    exact ⟨b2, h2, hid2, hcap2⟩
  have hlast := NextN_state_invariant A conv _
    (fun c0 h0 => StreamingSettled_Next A conv _ _ _ _ _ c0 h0) k _ hfirst
  have hdef : c.NextN A conv (k + 1)
      = ((c.Next A conv).1 :: ((c.Next A conv).2.NextN A conv k).1,
          ((c.Next A conv).2.NextN A conv k).2) := rfl
  rw [hdef]
  simp only []
  obtain ⟨hm, hlog, hst, hlen, b, hb, hid, hcap⟩ := hlast
  obtain ⟨p1, _, p3, p4⟩ := (obtainBatch_streaming A _ hm).2 b hb
  refine ⟨hlog, hst, ⟨b, hb, hid, hcap, p1, by rw [p3], p4⟩, hlen, ?_⟩
  intro b1 hb1
  cases hr : (c.Next A conv).1 with
  | error p =>
    rw [hr] at hb1
    simp only [returnedBatches] at hb1
    exact NextN_invariant A conv _ (fun b => b.id = _)
      (fun c0 h0 => StreamingSettled_Next A conv _ _ _ _ _ c0 h0)
      (fun c0 b0 h0 hb0 => StreamingSettled_batch A conv _ _ _ _ _ c0 b0 h0 hb0)
      k _ hfirst b1 hb1
  | ok b0 =>
    rw [hr] at hb1
    simp only [returnedBatches, List.mem_cons] at hb1
    rcases hb1 with rfl | hb1
    · obtain ⟨batch, c1, hg, _, hbid, _, _⟩ := Next_batch A conv c (c.Next A conv).2 b1
        (by rw [← hr])
      have h1 := (growBuffer_ok A c c1 batch hg).2.1
      rw [o1] at h1
      cases h1
      exact hbid
    · exact NextN_invariant A conv _ (fun b => b.id = _)
        (fun c0 h0 => StreamingSettled_Next A conv _ _ _ _ _ c0 h0)
        (fun c0 b0 h0 hb0 => StreamingSettled_batch A conv _ _ _ _ _ c0 b0 h0 hb0)
        k _ hfirst b1 hb1

/-- C9 on the sample adapter in streaming mode over rows A and B: two pulls ask
the allocator once, and return the batch of identity 0 with length 1 holding A
and then the same batch with length 1 holding B. -/
theorem C9_streaming_allocates_once_witness :
    ((sampleAdapter columnarizerStreamingMode [Item.row [1, 2], Item.row [3, 4]]).NextN
        (doublingAllocator 4) copyConv 2).2.allocLog
      = [] ++ [AllocCall.NewMemBatchWithFixedCapacity 1] ∧
    ((sampleAdapter columnarizerStreamingMode [Item.row [1, 2], Item.row [3, 4]]).NextN
        (doublingAllocator 4) copyConv 2).1
      = [.ok { id := 0, capacity := 1, length := 1, cols := [[1], [2]] },
         .ok { id := 0, capacity := 1, length := 1, cols := [[3], [4]] }] :=
  ⟨(C9_streaming_allocates_once (doublingAllocator 4) copyConv
      (sampleAdapter columnarizerStreamingMode [Item.row [1, 2], Item.row [3, 4]]) 1
      rfl rfl).1,
    rfl⟩

/-! ## Metadata -/

/-- The only panic of the growth step is the failed bounds probe. -/
theorem growRows_error (oldRows : EncDatumRows) (capacity ncols : Nat) (p : Panic)
    (h : growRows oldRows capacity ncols = .error p) : p = .indexOutOfRange := by
  unfold growRows at h
  by_cases hlt : oldRows.length < capacity
  · simp [hlt] at h
  · simp [hlt] at h
    exact h.symm

/-- The first half of `Next` raises no expected error. -/
theorem growBuffer_no_expected {σ : Type} (A : Allocator σ) (c : Columnarizer σ) (e : Error) :
    (c.growBuffer A).1 ≠ .error (.ExpectedError e) := by
  unfold Columnarizer.growBuffer
  simp only []
  cases hb : (c.obtainBatch A).1.batch with
  | none => simp
  | some b0 =>
    simp only []
    cases hr : (c.obtainBatch A).2 with
    | false => simp
    | true =>
      simp only [if_true]
      cases hg : growRows (c.obtainBatch A).1.buffered b0.capacity (c.obtainBatch A).1.typs.length with
      | error p =>
        have := growRows_error _ _ _ p hg
        subst this
        simp
      | ok newRows => simp

/-- Writing the columns raises no expected error. -/
theorem writeColumns_no_expected (conv : Conv) (rows : EncDatumRows) (typs : List T) (e : Error) :
    ∀ (idx : Nat) (b : Batch),
      (writeColumns conv rows typs idx b).1 ≠ .error (.ExpectedError e) := by
  induction typs with
  | nil => intro idx b; simp [writeColumns]
  | cons ct rest ih =>
    intro idx b
    unfold writeColumns
    cases hv : b.cols[idx]? with
    | none => simp
    | some vec =>
      simp only []
      cases hc : conv rows vec idx ct with
      | error err => simp
      | ok vec' => exact ih _ _

/-- What a `Next` call does with the metadata of the source, however it ends: the
items it consumed are a leading part of what the source held, and either their
metadata all went to the accumulator and the call did not raise an expected
error, or the last item consumed carried an error, the call raised it as an
expected error, and only the metadata before it went to the accumulator. -/
theorem Next_consumed {σ : Type} (A : Allocator σ) (conv : Conv) (c : Columnarizer σ) :
    ∃ consumed : List Item,
      c.input.pending = consumed ++ (c.Next A conv).2.input.pending ∧
      (((c.Next A conv).2.accumulatedMeta = c.accumulatedMeta ++ metasOf consumed ∧
          ∀ e, (c.Next A conv).1 ≠ .error (.ExpectedError e)) ∨
        (∃ pre m e, consumed = pre ++ [Item.meta m] ∧ m.Err = some e ∧
          (c.Next A conv).1 = .error (.ExpectedError e) ∧
          (c.Next A conv).2.accumulatedMeta = c.accumulatedMeta ++ metasOf pre ∧
          ∀ m' ∈ metasOf pre, m'.Err = none)) := by
  have hgf := (growBuffer_frame A c).grow_fields
  have hge := growBuffer_no_expected A c
  unfold Columnarizer.Next
  rcases hg : c.growBuffer A with ⟨r1, c1⟩
  rw [hg] at hgf hge
  obtain ⟨_, _, _, _, _, hin, hacc⟩ := hgf
  simp only [] at hin hacc hge
  cases r1 with
  | error p =>
    refine ⟨[], by simp [hin], Or.inl ⟨by simp [metasOf, hacc], ?_⟩⟩
    intro e he
    exact hge e (by simpa using he)
  | ok batch =>
    simp only []
    obtain ⟨consumed, h1, h2, _⟩ :=
      fillLoop_consumed (c1.input.pending.length + 1) batch.capacity 0 c1
    rcases hf : Columnarizer.fillLoop (c1.input.pending.length + 1) batch.capacity 0 c1
      with ⟨r2, c2⟩
    rw [hf] at h1 h2
    simp only [] at h1 h2
    rw [hin] at h1
    rw [hacc] at h2
    cases r2 with
    | error p =>
      simp only []
      refine ⟨consumed, h1, ?_⟩
      rcases h2 with ⟨h2, k2⟩ | ⟨pre, m, e, k1, k2, k3, k4, k5⟩
      · exact Or.inl ⟨h2, fun e he => k2 e (by simpa using he)⟩
      · exact Or.inr ⟨pre, m, e, k1, k2, by simpa using k3, k4, k5⟩
    | ok nRows =>
      simp only []
      have hbuf : (if nRows > c2.daAllocSize then { c2 with daAllocSize := nRows } else c2).buffered
          = c2.buffered := by split <;> rfl
      have htyps : (if nRows > c2.daAllocSize then { c2 with daAllocSize := nRows } else c2).typs
          = c2.typs := by split <;> rfl
      have hinp : (if nRows > c2.daAllocSize then { c2 with daAllocSize := nRows } else c2).input
          = c2.input := by split <;> rfl
      have hac : (if nRows > c2.daAllocSize then { c2 with daAllocSize := nRows }
          else c2).accumulatedMeta = c2.accumulatedMeta := by split <;> rfl
      rw [hbuf, htyps]
      have hwe := writeColumns_no_expected conv (c2.buffered.take nRows.toNat) c2.typs
      rcases hw : writeColumns conv (c2.buffered.take nRows.toNat) c2.typs 0 batch with ⟨r3, b0⟩
      have hacc2 : c2.accumulatedMeta = c.accumulatedMeta ++ metasOf consumed := by
        rcases h2 with ⟨h2, _⟩ | ⟨_, _, _, _, _, h2, _⟩
        · exact h2
        · simp at h2
      cases r3 with
      | error p =>
        simp only []
        refine ⟨consumed, by rw [hinp]; exact h1, Or.inl ⟨by rw [hac]; exact hacc2, ?_⟩⟩
        intro e he
        have := hwe e 0 batch
        rw [hw] at this
        exact this (by simpa using he)
      | ok u =>
        simp only []
        exact ⟨consumed, by rw [hinp]; exact h1, Or.inl ⟨by rw [hac]; exact hacc2, by simp⟩⟩

theorem metasOf_dropRows (items : List Item) : metasOf (dropRows items) = metasOf items := by
  induction items with
  | nil => rfl
  | cons item rest ih =>
    cases item with
    | row r => simpa [dropRows, metasOf] using ih
    | meta m => rfl

theorem dropRows_length (items : List Item) : (dropRows items).length ≤ items.length := by
  induction items with
  | nil => simp [dropRows]
  | cons item rest ih =>
    cases item with
    | row r =>
      simp only [dropRows, List.length_cons]
      omega
    | meta m => simp [dropRows]

theorem dropRows_head (items : List Item) (r : EncDatumRow) (rest : List Item) :
    dropRows items ≠ Item.row r :: rest := by
  induction items with
  | nil => simp [dropRows]
  | cons item tail ih =>
    cases item with
    | row r0 => simpa [dropRows] using ih
    | meta m => simp [dropRows]

/-- The three outcomes of the drain helper: the next metadata item of the row
source, with the source left after it; or, the source having none, the next item
of the execution machinery; or nothing, both having none. -/
theorem DrainHelper_cases {σ : Type} (c : Columnarizer σ) :
    (∃ m rest, c.DrainHelper = (some m, { c with input := { c.input with pending := rest } }) ∧
      metasOf c.input.pending = m :: metasOf rest ∧ rest.length < c.input.pending.length) ∨
    (metasOf c.input.pending = [] ∧ ∃ m rest, c.ProcessorBase.trailingMeta = m :: rest ∧
      c.DrainHelper = (some m, { c with
        input := { c.input with pending := [] }
        ProcessorBase := { c.ProcessorBase with trailingMeta := rest } })) ∨
    (metasOf c.input.pending = [] ∧ c.ProcessorBase.trailingMeta = [] ∧
      c.DrainHelper = (none, { c with input := { c.input with pending := [] } })) := by
  have hm := metasOf_dropRows c.input.pending
  have hl := dropRows_length c.input.pending
  have hh := dropRows_head c.input.pending
  unfold Columnarizer.DrainHelper
  cases hd : dropRows c.input.pending with
  | nil =>
    rw [hd] at hm
    simp only [metasOf] at hm
    cases ht : c.ProcessorBase.trailingMeta with
    | nil => exact Or.inr (Or.inr ⟨hm.symm, rfl, by simp [ht]⟩)
    | cons m rest => exact Or.inr (Or.inl ⟨hm.symm, m, rest, rfl, by simp [ht]⟩)
  | cons item rest =>
    cases item with
    | row r => exact absurd hd (hh r rest)
    | meta m =>
      rw [hd] at hm hl
      simp only [metasOf] at hm
      simp only [List.length_cons] at hl
      exact Or.inl ⟨m, rest, rfl, hm.symm, by omega⟩

/-- The loop of `DrainMeta`, given more iterations than there are items left to
hand out: it ends because the drain helper hands out nothing more, the
accumulator has gained the metadata the source still held and then the metadata
of the execution machinery, both are exhausted, and nothing else has changed. -/
theorem drainLoop_spec {σ : Type} (fuel : Nat) :
    ∀ c : Columnarizer σ,
      c.input.pending.length + c.ProcessorBase.trailingMeta.length < fuel →
      (Columnarizer.drainLoop fuel c) =
        { c with
          input := { c.input with pending := [] }
          ProcessorBase := { c.ProcessorBase with trailingMeta := [] }
          accumulatedMeta := c.accumulatedMeta ++ metasOf c.input.pending
            ++ c.ProcessorBase.trailingMeta } ∧
      (Columnarizer.drainLoop fuel c).DrainHelper.1 = none ∧
      Columnarizer.helperItems fuel c
        = metasOf c.input.pending ++ c.ProcessorBase.trailingMeta := by
  induction fuel with
  | zero => intro c h; omega
  | succ fuel ih =>
    intro c hf
    unfold Columnarizer.drainLoop Columnarizer.helperItems
    rcases DrainHelper_cases c with ⟨m, rest, h1, h2, h3⟩ | ⟨h1, m, rest, h2, h3⟩ | ⟨h1, h2, h3⟩
    · rw [h1]
      simp only []
      obtain ⟨i1, i2, i3⟩ := ih
        { c with input := { c.input with pending := rest }
                 accumulatedMeta := c.accumulatedMeta ++ [m] } (by simp; omega)
      obtain ⟨_, _, j3⟩ := ih
        { c with input := { c.input with pending := rest } } (by simp; omega)
      refine ⟨?_, i2, ?_⟩
      · rw [i1, h2]
        simp
      · rw [j3, h2]
        simp
    · rw [h3]
      simp only []
      obtain ⟨i1, i2, i3⟩ := ih
        { c with input := { c.input with pending := [] }
                 ProcessorBase := { c.ProcessorBase with trailingMeta := rest }
                 accumulatedMeta := c.accumulatedMeta ++ [m] } (by simp; rw [h2] at hf; simp at hf; omega)
      obtain ⟨_, _, j3⟩ := ih
        { c with input := { c.input with pending := [] }
                 ProcessorBase := { c.ProcessorBase with trailingMeta := rest } }
        (by simp; rw [h2] at hf; simp at hf; omega)
      refine ⟨?_, i2, ?_⟩
      · rw [i1, h1, h2]
        simp [metasOf]
      · rw [j3, h1, h2]
        simp [metasOf]
    · rw [h3]
      simp only []
      refine ⟨?_, ?_, ?_⟩
      · rw [h1, h2]
        simp
        rw [← h2]
      · rcases DrainHelper_cases { c with input := { c.input with pending := [] } }
          with ⟨m, rest, _, k2, _⟩ | ⟨_, m, rest, k2, _⟩ | ⟨_, _, k3⟩
        · simp [metasOf] at k2
        · simp [h2] at k2
        · rw [k3]
      · rw [h1, h2]
        simp

/-- `DrainMeta` returns the accumulator followed by the metadata the source still
held and the metadata of the execution machinery, leaves that sequence in the
accumulator, exhausts both, and ends because the drain helper hands out nothing
more. -/
theorem DrainMeta_spec {σ : Type} (c : Columnarizer σ) :
    c.DrainMeta =
      (c.accumulatedMeta ++ metasOf c.input.pending ++ c.ProcessorBase.trailingMeta,
        { c with
          input := { c.input with pending := [] }
          ProcessorBase := { c.ProcessorBase with draining := true, trailingMeta := [] }
          accumulatedMeta := c.accumulatedMeta ++ metasOf c.input.pending
            ++ c.ProcessorBase.trailingMeta }) ∧
    c.DrainMeta.2.DrainHelper.1 = none ∧
    Columnarizer.helperItems
        (c.input.pending.length + c.ProcessorBase.trailingMeta.length + 1)
        { c with ProcessorBase := c.ProcessorBase.MoveToDraining }
      = metasOf c.input.pending ++ c.ProcessorBase.trailingMeta := by
  obtain ⟨h1, h2, h3⟩ := drainLoop_spec
    (c.input.pending.length + c.ProcessorBase.trailingMeta.length + 1)
    { c with ProcessorBase := c.ProcessorBase.MoveToDraining }
    (by simp [ProcessorBase.MoveToDraining])
  refine ⟨?_, ?_, ?_⟩
  · unfold Columnarizer.DrainMeta
    simp only [ProcessorBase.MoveToDraining] at h1 ⊢
    rw [h1]
  · unfold Columnarizer.DrainMeta
    simp only [ProcessorBase.MoveToDraining] at h2 ⊢
    exact h2
  · simpa [ProcessorBase.MoveToDraining] using h3

/-- A `Next` call that returns a batch: the items it consumed are a leading part
of what the source held, none of them carried an error, their metadata went to
the accumulator in order, the batch has as many rows as were consumed, and a
batch that is not full means that the source is exhausted. -/
theorem Next_ok_consumed {σ : Type} (A : Allocator σ) (conv : Conv) (c c' : Columnarizer σ)
    (b : Batch) (h : c.Next A conv = (.ok b, c')) :
    ∃ consumed : List Item,
      c.input.pending = consumed ++ c'.input.pending ∧
      (∀ m ∈ metasOf consumed, m.Err = none) ∧
      c'.accumulatedMeta = c.accumulatedMeta ++ metasOf consumed ∧
      c'.ProcessorBase = c.ProcessorBase ∧
      b.length = (rowsOf consumed).length ∧
      (b.length < b.capacity → c'.input.pending = []) := by
  obtain ⟨batch, c1, nRows, c2, b0, hg, hf, hw, hb, hc⟩ := Next_ok A conv c c' b h
  obtain ⟨consumed, h1, h2, h3, h4, h5, h6, _, _, h9⟩ :=
    fillLoop_ok _ _ 0 c1 c2 nRows (le_refl 0) hf
  have hgf := (growBuffer_frame A c).grow_fields
  rw [hg] at hgf
  obtain ⟨gpb, _, _, _, _, hin, hacc⟩ := hgf
  simp only [] at hin hacc gpb
  rw [hin] at h1
  rw [hacc] at h3
  have hwf := writeColumns_frame conv (c2.buffered.take nRows.toNat) c2.typs 0 batch
  rw [hw] at hwf
  have hbcap : b.capacity = batch.capacity := by rw [hb]; exact hwf.2.1
  have hlen : b.length = nRows.toNat := by rw [hb]; rfl
  refine ⟨consumed, ?_, h2, ?_, ?_, ?_, ?_⟩
  · rw [hc]; exact h1
  · rw [hc]; exact h3
  · rw [hc]; exact h9.fill_fields.1.trans gpb
  · rw [hlen, h4]; simp
  · intro hlt
    rw [hc]
    exact h6 (by rw [hlen, hbcap] at hlt; omega)

/-- `DrainMeta` does not clear the accumulator: every `DrainMeta` call of a
sequence of `Next` and `DrainMeta` calls in which no `Next` call raises an
expected error returns the same sequence, the accumulator at the start followed
by the metadata the source held and the metadata of the execution machinery. -/
theorem run_drains {σ : Type} (A : Allocator σ) (conv : Conv) (calls : List Call) :
    ∀ c : Columnarizer σ,
      (∀ e, Except.error (Panic.ExpectedError e) ∉ (c.run A conv calls).2.1) →
      ∀ r ∈ (c.run A conv calls).1,
        r = c.accumulatedMeta ++ metasOf c.input.pending ++ c.ProcessorBase.trailingMeta := by
  induction calls with
  | nil =>
    intro c _ r hr
    simp [Columnarizer.run] at hr
  | cons call calls ih =>
    intro c hno r hr
    cases call with
    | Next =>
      simp only [Columnarizer.run] at hno hr
      obtain ⟨consumed, h1, h2⟩ := Next_consumed A conv c
      have hpb := (Next_state A conv c).2.2.1
      rcases h2 with ⟨h2, _⟩ | ⟨_, _, e, _, _, h2, _⟩
      · have := ih (c.Next A conv).2
          (fun e he => hno e (List.mem_cons_of_mem _ he)) r hr
        rw [this, h2, hpb, h1, metasOf_append]
        simp
      · exact absurd (List.mem_cons.mpr (Or.inl h2.symm)) (hno e)
    | DrainMeta =>
      simp only [Columnarizer.run] at hno hr
      obtain ⟨hd, _, _⟩ := DrainMeta_spec c
      rw [hd] at hno hr
      simp only [List.mem_cons] at hr
      rcases hr with rfl | hr
      · rfl
      · have := ih _ hno r hr
        rw [this]
        simp [metasOf]

/-- Every sequence of `Next` and `DrainMeta` calls, aborting pulls included: all
its `DrainMeta` calls return one and the same sequence, the accumulator at the
start, then the metadata `kept` of the source, then the metadata of the
execution machinery. `kept` is the metadata the source held, in order, without
the items on which a `Next` call aborted: every item without an error is in it,
and it lacks as many items as there were aborts. -/
theorem run_drains_all {σ : Type} (A : Allocator σ) (conv : Conv) (calls : List Call) :
    ∀ c : Columnarizer σ,
      ∃ kept : List ProducerMetadata,
        kept.Sublist (metasOf c.input.pending) ∧
        kept.filter (fun m => m.Err.isNone)
          = (metasOf c.input.pending).filter (fun m => m.Err.isNone) ∧
        (metasOf c.input.pending).length
          = kept.length + ((c.run A conv calls).2.1.filter isAbort).length ∧
        ∀ r ∈ (c.run A conv calls).1,
          r = c.accumulatedMeta ++ kept ++ c.ProcessorBase.trailingMeta := by
  induction calls with
  | nil =>
    intro c
    exact ⟨metasOf c.input.pending, List.Sublist.refl _, rfl, by simp [Columnarizer.run],
      fun r hr => by simp [Columnarizer.run] at hr⟩
  | cons call calls ih =>
    intro c
    cases call with
    | Next =>
      simp only [Columnarizer.run]
      obtain ⟨consumed, h1, h2⟩ := Next_consumed A conv c
      have hpb := (Next_state A conv c).2.2.1
      obtain ⟨kept, i1, i2, i3, i4⟩ := ih (c.Next A conv).2
      rcases h2 with ⟨h2, hno⟩ | ⟨pre, m, e, k1, k2, k3, k4, k5⟩
      · have hab : isAbort (c.Next A conv).1 = false := by
          cases hout : (c.Next A conv).1 with
          | ok b => rfl
          | error q =>
            cases q with
            | ExpectedError e0 => exact absurd hout (hno e0)
            | InternalError _ => rfl
            | indexOutOfRange => rfl
            | nilDereference => rfl
            | fuelExhausted => rfl
        refine ⟨metasOf consumed ++ kept, ?_, ?_, ?_, ?_⟩
        · rw [h1, metasOf_append]
          exact List.Sublist.append (List.Sublist.refl _) i1
        · rw [h1, metasOf_append, List.filter_append, List.filter_append, i2]
        · rw [List.filter_cons, hab]
          simp only [Bool.false_eq_true, if_false]
          rw [h1, metasOf_append, List.length_append, List.length_append, i3]
          omega
        · intro r hr
          rw [i4 r hr, h2, hpb]
          simp
      · have hab : isAbort (c.Next A conv).1 = true := by rw [k3]; rfl
        have hm : metasOf (pre ++ [Item.meta m]) = metasOf pre ++ [m] := by
          rw [metasOf_append]
          rfl
        refine ⟨metasOf pre ++ kept, ?_, ?_, ?_, ?_⟩
        · rw [h1, metasOf_append, k1, hm, List.append_assoc]
          exact List.Sublist.append (List.Sublist.refl _)
            (List.Sublist.trans i1 (List.sublist_cons_self m _))
        · rw [h1, metasOf_append, k1, hm]
          simp only [List.filter_append, i2]
          have : List.filter (fun m => m.Err.isNone) [m] = [] := by
            simp [List.filter, k2]
          rw [this]
          simp
        · rw [List.filter_cons, hab]
          simp only [if_true, List.length_cons]
          rw [h1, metasOf_append, k1, hm]
          simp only [List.length_append, List.length_singleton]
          rw [i3]
          omega
        · intro r hr
          rw [i4 r hr, k4, hpb]
          simp
    | DrainMeta =>
      simp only [Columnarizer.run]
      obtain ⟨hd, _, _⟩ := DrainMeta_spec c
      obtain ⟨kept, i1, i2, i3, i4⟩ := ih c.DrainMeta.2
      rw [hd] at i1 i3 i4
      simp only [metasOf, List.sublist_nil] at i1
      subst i1
      simp only [metasOf, List.length_nil, Nat.zero_add] at i3
      refine ⟨metasOf c.input.pending, List.Sublist.refl _, rfl, ?_, ?_⟩
      · rw [hd]
        simp only []
        omega
      · intro r hr
        rw [hd] at hr
        simp only [List.mem_cons] at hr
        rcases hr with rfl | hr
        · rfl
        · rw [i4 r hr]
          simp

/-- The amended C3: over every sequence of `Next` and `DrainMeta` calls, aborting
pulls included, every `DrainMeta` call returns one and the same whole sequence:
what was accumulated before, then the metadata observed from the source, each
item once and in the order observed, without the items carrying an error on
which a `Next` call aborted (every item without an error is there, and as many
items are missing as there were aborts, so none when no call aborts), then the
trailing metadata. A `DrainMeta` call returns the accumulator followed by what
the drain helper hands out and leaves all of it in the accumulator, which is not
cleared: a second `DrainMeta` call returns the same sequence as the first, not
an empty one. -/
theorem C3_drain_returns_whole_sequence {σ : Type} (A : Allocator σ) (conv : Conv)
    (calls : List Call) (c : Columnarizer σ) :
    (∃ kept : List ProducerMetadata,
      kept.Sublist (metasOf c.input.pending) ∧
      kept.filter (fun m => m.Err.isNone)
        = (metasOf c.input.pending).filter (fun m => m.Err.isNone) ∧
      (metasOf c.input.pending).length
        = kept.length + ((c.run A conv calls).2.1.filter isAbort).length ∧
      (((c.run A conv calls).2.1.filter isAbort).length = 0 →
        kept = metasOf c.input.pending) ∧
      ∀ r ∈ (c.run A conv calls).1,
        r = c.accumulatedMeta ++ kept ++ c.ProcessorBase.trailingMeta) ∧
    c.DrainMeta.1 = c.accumulatedMeta ++
      Columnarizer.helperItems
        (c.input.pending.length + c.ProcessorBase.trailingMeta.length + 1)
        { c with ProcessorBase := c.ProcessorBase.MoveToDraining } ∧
    c.DrainMeta.2.accumulatedMeta = c.DrainMeta.1 ∧
    c.DrainMeta.2.DrainMeta.1 = c.DrainMeta.1 := by
  obtain ⟨kept, h1, h2, h3, h4⟩ := run_drains_all A conv calls c
  obtain ⟨hd, _, hh⟩ := DrainMeta_spec c
  obtain ⟨hd2, _, _⟩ := DrainMeta_spec c.DrainMeta.2
  refine ⟨⟨kept, h1, h2, h3, ?_, h4⟩, ?_, ?_, ?_⟩
  · intro hz
    exact h1.eq_of_length (by omega)
  · rw [hh, hd]
    simp
  · rw [hd]
  · rw [hd2, hd]
    simp [metasOf]

/-- The counterexample to C3 as stated: on the sample adapter over a stream of one
metadata item, pulled once and drained twice, the second `DrainMeta` call returns
the item again, so that it occurs twice in the concatenation of the results. -/
theorem C3_second_drain_repeats :
    ((sampleAdapter columnarizerBufferingMode [Item.meta sampleMeta]).run
        (doublingAllocator 4) copyConv [Call.Next, Call.DrainMeta, Call.DrainMeta]).1
      = [[sampleMeta], [sampleMeta]] ∧
    (((sampleAdapter columnarizerBufferingMode [Item.meta sampleMeta]).run
        (doublingAllocator 4) copyConv [Call.Next, Call.DrainMeta, Call.DrainMeta]).1.getD 1 [])
      ≠ [] ∧
    List.count sampleMeta
      (((sampleAdapter columnarizerBufferingMode [Item.meta sampleMeta]).run
        (doublingAllocator 4) copyConv [Call.Next, Call.DrainMeta, Call.DrainMeta]).1.flatten) = 2 := by
  decide

/-- The amended C3 on the sample adapter over a metadata item, an item carrying an
error, row A and a second metadata item, pulled twice and drained twice: the
first pull accumulates the first item and aborts on the second, the second pull
returns row A, and both drains return the first item and the last one, without
the item that aborted the pull. -/
theorem C3_drain_returns_whole_sequence_witness :
    ((sampleAdapter columnarizerBufferingMode
        [Item.meta sampleMeta, Item.meta sampleErrorMeta, Item.row [1, 2],
         Item.meta sampleMetaB]).run (doublingAllocator 4) copyConv
        [Call.Next, Call.Next, Call.DrainMeta, Call.DrainMeta]).1
      = [[sampleMeta, sampleMetaB], [sampleMeta, sampleMetaB]] ∧
    ((sampleAdapter columnarizerBufferingMode
        [Item.meta sampleMeta, Item.meta sampleErrorMeta, Item.row [1, 2],
         Item.meta sampleMetaB]).run (doublingAllocator 4) copyConv
        [Call.Next, Call.Next, Call.DrainMeta, Call.DrainMeta]).2.1.map isAbort
      = [true, false] ∧
    ∃ kept : List ProducerMetadata,
      kept.Sublist [sampleMeta, sampleErrorMeta, sampleMetaB] ∧
      kept.filter (fun m => m.Err.isNone) = [sampleMeta, sampleMetaB] ∧
      ∀ r ∈ ((sampleAdapter columnarizerBufferingMode
          [Item.meta sampleMeta, Item.meta sampleErrorMeta, Item.row [1, 2],
           Item.meta sampleMetaB]).run (doublingAllocator 4) copyConv
          [Call.Next, Call.Next, Call.DrainMeta, Call.DrainMeta]).1,
        r = [] ++ kept ++ [] :=
  ⟨by decide, by decide,
    match (C3_drain_returns_whole_sequence (doublingAllocator 4) copyConv
      [Call.Next, Call.Next, Call.DrainMeta, Call.DrainMeta]
      (sampleAdapter columnarizerBufferingMode
        [Item.meta sampleMeta, Item.meta sampleErrorMeta, Item.row [1, 2],
         Item.meta sampleMetaB])).1 with
    | ⟨kept, h1, h2, _, _, h5⟩ => ⟨kept, h1, h2, h5⟩⟩

/-- A sequence of `Next` calls that all return a batch: the items consumed are a
leading part of what the source held, none of them carried an error, their
metadata went to the accumulator in order, and the processor base is untouched. -/
theorem NextN_ok_consumed {σ : Type} (A : Allocator σ) (conv : Conv) (k : Nat) :
    ∀ c : Columnarizer σ, (∀ r ∈ (c.NextN A conv k).1, ∃ b, r = .ok b) →
      ∃ consumed : List Item,
        c.input.pending = consumed ++ (c.NextN A conv k).2.input.pending ∧
        (∀ m ∈ metasOf consumed, m.Err = none) ∧
        (c.NextN A conv k).2.accumulatedMeta = c.accumulatedMeta ++ metasOf consumed ∧
        (c.NextN A conv k).2.ProcessorBase = c.ProcessorBase := by
  induction k with
  | zero =>
    intro c _
    exact ⟨[], by simp [Columnarizer.NextN], by simp [metasOf],
      by simp [Columnarizer.NextN, metasOf], rfl⟩
  | succ k ih =>
    intro c hok
    simp only [Columnarizer.NextN] at hok ⊢
    obtain ⟨b, hb⟩ := hok (c.Next A conv).1 (List.mem_cons_self _ _)
    obtain ⟨consumed, h1, h2, h3, h4, _, _⟩ :=
      Next_ok_consumed A conv c (c.Next A conv).2 b (by rw [← hb])
    obtain ⟨consumed', i1, i2, i3, i4⟩ := ih (c.Next A conv).2
      (fun r hr => hok r (List.mem_cons_of_mem _ hr))
    refine ⟨consumed ++ consumed', ?_, ?_, ?_, ?_⟩
    · rw [List.append_assoc, ← i1]
      exact h1
    · intro m hm
      rw [metasOf_append, List.mem_append] at hm
      rcases hm with hm | hm
      · exact h2 m hm
      · exact i2 m hm
    · rw [i3, h3, metasOf_append, List.append_assoc]
    · rw [i4, h4]

/-- C4: after `Init` on an adapter not yet initialised and `k` `Next` calls that
all return a batch, the first `DrainMeta` call returns exactly the metadata items
the source yielded during those calls, none of which carries an error, in the
order they were pulled, followed by the items the drain helper hands out until
it hands out none, in the order it hands them out; these are the metadata the
source still holds and then the metadata of the execution machinery. -/
theorem C4_first_drain_returns_pulled_then_trailing {σ : Type} (A : Allocator σ) (conv : Conv)
    (c0 : Columnarizer σ) (k : Nat)
    (hinit : c0.initStatus = .OperatorNotInitialized)
    (hok : ∀ r ∈ (c0.Init.NextN A conv k).1, ∃ b, r = .ok b) :
    ∃ pulled : List Item,
      c0.input.pending = pulled ++ (c0.Init.NextN A conv k).2.input.pending ∧
      (∀ m ∈ metasOf pulled, m.Err = none) ∧
      (c0.Init.NextN A conv k).2.DrainMeta.1
        = metasOf pulled ++
          Columnarizer.helperItems
            ((c0.Init.NextN A conv k).2.input.pending.length
              + (c0.Init.NextN A conv k).2.ProcessorBase.trailingMeta.length + 1)
            { (c0.Init.NextN A conv k).2 with
              ProcessorBase := (c0.Init.NextN A conv k).2.ProcessorBase.MoveToDraining } ∧
      (c0.Init.NextN A conv k).2.DrainMeta.1
        = metasOf pulled ++ (metasOf (c0.Init.NextN A conv k).2.input.pending
          ++ c0.ProcessorBase.trailingMeta) ∧
      (c0.Init.NextN A conv k).2.DrainMeta.2.DrainHelper.1 = none := by
  have hacc : c0.Init.accumulatedMeta = [] := by
    unfold Columnarizer.Init
    simp [hinit]
  have hpend : c0.Init.input.pending = c0.input.pending := by
    unfold Columnarizer.Init
    simp [hinit, RowSource.Start]
  have hpb : c0.Init.ProcessorBase = c0.ProcessorBase := by
    unfold Columnarizer.Init
    simp [hinit]
  obtain ⟨pulled, h1, h2, h3, h4⟩ := NextN_ok_consumed A conv k c0.Init hok
  obtain ⟨d1, d2, d3⟩ := DrainMeta_spec (c0.Init.NextN A conv k).2
  rw [hpend] at h1
  rw [hacc, List.nil_append] at h3
  rw [hpb] at h4
  refine ⟨pulled, h1, h2, ?_, ?_, d2⟩
  · rw [d3, d1, h3]
    simp
  · rw [d1, h3, h4]
    simp

/-- C4 on the sample stream followed by a row and a metadata item carrying an
error, read by the sample adapter in buffering mode: the first pull returns row
A; the second, of capacity 2, returns row B and the row after the metadata item,
which it accumulates; the drain that follows returns that item and then the item
the source still held. -/
theorem C4_first_drain_returns_pulled_then_trailing_witness :
    (sampleFresh columnarizerBufferingMode
      (sampleItems ++ [Item.row [5, 6], Item.meta sampleErrorMeta])).initStatus
        = .OperatorNotInitialized ∧
    ((sampleFresh columnarizerBufferingMode
      (sampleItems ++ [Item.row [5, 6], Item.meta sampleErrorMeta])).Init.NextN
        (doublingAllocator 4) copyConv 2).2.DrainMeta.1 = [sampleMeta, sampleErrorMeta] ∧
    ∃ pulled : List Item,
      (sampleFresh columnarizerBufferingMode
        (sampleItems ++ [Item.row [5, 6], Item.meta sampleErrorMeta])).input.pending
        = pulled ++ ((sampleFresh columnarizerBufferingMode
          (sampleItems ++ [Item.row [5, 6], Item.meta sampleErrorMeta])).Init.NextN
            (doublingAllocator 4) copyConv 2).2.input.pending ∧
      (∀ m ∈ metasOf pulled, m.Err = none) :=
  ⟨rfl, by decide,
    match C4_first_drain_returns_pulled_then_trailing (doublingAllocator 4) copyConv
      (sampleFresh columnarizerBufferingMode
        (sampleItems ++ [Item.row [5, 6], Item.meta sampleErrorMeta])) 2 rfl
      (by
        intro r hr
        have hout : ((sampleFresh columnarizerBufferingMode
            (sampleItems ++ [Item.row [5, 6], Item.meta sampleErrorMeta])).Init.NextN
            (doublingAllocator 4) copyConv 2).1
            = [.ok { id := 0, capacity := 1, length := 1, cols := [[1], [2]] },
               .ok { id := 1, capacity := 2, length := 2, cols := [[3, 5], [4, 6]] }] := rfl
        rw [hout] at hr
        simp only [List.mem_cons, List.mem_singleton, List.not_mem_nil, or_false] at hr
        rcases hr with rfl | rfl
        · exact ⟨_, rfl⟩
        · exact ⟨_, rfl⟩) with
    | ⟨pulled, h1, h2, _⟩ => ⟨pulled, h1, h2⟩⟩

/-! ## The rows of a batch -/

/-- Go's `copy` into a slot of the width of the row leaves the row. -/
theorem goCopy_same_width (dst src : EncDatumRow) (h : dst.length = src.length) :
    goCopy dst src = src := by
  unfold goCopy
  simp [h]

/-- Staging rows of width `w` in a row buffer whose slots have width `w`, from
slot `k` on, with room for all of them: the slots staged hold the rows, the
others what they held. -/
theorem stageRows_getElem? (w : Nat) (rows : List EncDatumRow) :
    ∀ (buf : EncDatumRows) (k : Nat),
      (∀ slot ∈ buf, slot.length = w) → (∀ r ∈ rows, r.length = w) →
      k + rows.length ≤ buf.length →
      ∀ i, (stageRows buf k rows)[i]?
        = if k ≤ i ∧ i < k + rows.length then rows[i - k]? else buf[i]? := by
  induction rows with
  | nil =>
    intro buf k _ _ _ i
    simp only [stageRows, List.length_nil, Nat.add_zero]
    have : ¬ (k ≤ i ∧ i < k) := by omega
    simp [this]
  | cons r rs ih =>
    intro buf k hbuf hrows hlen i
    simp only [List.length_cons] at hlen
    have hk : k < buf.length := by omega
    have hslot : buf.getD k [] = buf[k] := by
      simp [List.getD, List.getElem?_eq_getElem hk]
    have hcopy : goCopy (buf.getD k []) r = r := by
      apply goCopy_same_width
      rw [hslot, hbuf _ (List.getElem_mem _), hrows r (List.mem_cons_self _ _)]
    simp only [stageRows, hcopy]
    rw [ih (buf.set k r) (k + 1)
      (fun slot hs => by
        rcases List.mem_or_eq_of_mem_set hs with h | h
        · exact hbuf slot h
        · rw [h]; exact hrows r (List.mem_cons_self _ _))
      (fun r' hr' => hrows r' (List.mem_cons_of_mem _ hr'))
      (by simp; omega) i]
    simp only [List.length_cons]
    by_cases hik : i = k
    · subst hik
      have h1 : ¬ (i + 1 ≤ i ∧ i < i + 1 + rs.length) := by omega
      have h2 : i ≤ i ∧ i < i + (rs.length + 1) := by omega
      simp [h1, h2, List.getElem?_set_self hk]
    · by_cases hin : k + 1 ≤ i ∧ i < k + 1 + rs.length
      · have h2 : k ≤ i ∧ i < k + (rs.length + 1) := by omega
        have h3 : i - k = (i - (k + 1)) + 1 := by omega
        simp only [hin, h2, and_self, if_true]
        rw [h3, List.getElem?_cons_succ]
      · have h2 : ¬ (k ≤ i ∧ i < k + (rs.length + 1)) := by omega
        simp only [hin, h2, if_false]
        rw [List.getElem?_set_ne (fun h => hik h.symm)]

/-- Staging keeps the length of the row buffer. -/
theorem stageRows_length (rows : List EncDatumRow) :
    ∀ (buf : EncDatumRows) (k : Nat), (stageRows buf k rows).length = buf.length := by
  induction rows with
  | nil => intro buf k; rfl
  | cons r rs ih =>
    intro buf k
    simp only [stageRows]
    rw [ih]
    simp

/-- After staging rows of width `w` from slot 0 on, the leading slots of the row
buffer are the rows staged, and every slot still has width `w`. -/
theorem stageRows_take (w : Nat) (rows : List EncDatumRow) (buf : EncDatumRows)
    (hbuf : ∀ slot ∈ buf, slot.length = w) (hrows : ∀ r ∈ rows, r.length = w)
    (hlen : rows.length ≤ buf.length) :
    (stageRows buf 0 rows).take rows.length = rows ∧
    ∀ slot ∈ stageRows buf 0 rows, slot.length = w := by
  have hget := stageRows_getElem? w rows buf 0 hbuf hrows (by omega)
  constructor
  · apply List.ext_getElem?
    intro i
    rw [List.getElem?_take, hget i]
    by_cases hi : i < rows.length
    · simp [hi]
    · have : rows[i]? = none := List.getElem?_eq_none (by omega)
      simp [hi, this]
  · intro slot hs
    obtain ⟨i, hi⟩ := List.mem_iff_getElem?.mp hs
    rw [hget i] at hi
    by_cases hin : 0 ≤ i ∧ i < 0 + rows.length
    · simp only [hin, and_self, if_true, Nat.sub_zero] at hi
      exact hrows slot (List.getElem?_mem hi)
    · simp only [hin, if_false] at hi
      exact hbuf slot (List.getElem?_mem hi)

/-- Reading the rows back from column vectors that hold, at entry `i`, the value
of row `i` at their column, gives the rows. -/
theorem rows_of_columns (R : List EncDatumRow) (cols : List ColVec) (w : Nat)
    (hw : ∀ r ∈ R, r.length = w)
    (hcols : ∀ j, j < w → ∃ vec, cols[j]? = some vec ∧
      ∀ (i : Nat) (row : EncDatumRow), R[i]? = some row → vec[i]? = row[j]?) :
    (List.range R.length).map (fun i =>
        (List.range w).map (fun j => (cols[j]?).bind (fun vec => vec[i]?)))
      = R.map (fun r => r.map some) := by
  apply List.ext_getElem
  · simp
  · intro i h1 h2
    have hi : i < R.length := by simpa using h1
    simp only [List.getElem_map, List.getElem_range]
    have hri : (R[i]).length = w := hw _ (List.getElem_mem _)
    apply List.ext_getElem
    · simp [hri]
    · intro j g1 g2
      have hj : j < w := by simpa using g1
      simp only [List.getElem_map, List.getElem_range]
      obtain ⟨vec, hv, hvec⟩ := hcols j hj
      rw [hv]
      simp only [Option.some_bind]
      rw [hvec i R[i] (List.getElem?_eq_getElem hi)]
      exact List.getElem?_eq_getElem (by omega)

/-- A `Next` call that returns a batch, with a conversion that meets its contract,
a row buffer whose slots have one value per output column and a source whose
rows have one value per output column: the rows of the batch are the rows
consumed, in order; the row buffer keeps its slot width and the adapter its
types. -/
theorem Next_rows {σ : Type} (A : Allocator σ) (conv : Conv) (hconv : ConvContract conv)
    (c c' : Columnarizer σ) (b : Batch)
    (hw : ∀ slot ∈ c.buffered, slot.length = c.typs.length)
    (hrows : ∀ r ∈ rowsOf c.input.pending, r.length = c.typs.length)
    (h : c.Next A conv = (.ok b, c')) :
    ∃ consumed : List Item,
      c.input.pending = consumed ++ c'.input.pending ∧
      b.rows c.typs.length = (rowsOf consumed).map (fun r => r.map some) ∧
      b.length = (rowsOf consumed).length ∧
      (b.length < b.capacity → c'.input.pending = []) ∧
      (∀ slot ∈ c'.buffered, slot.length = c'.typs.length) ∧
      c'.typs = c.typs := by
  obtain ⟨batch, c1, nRows, c2, b0, hg, hf, hwr, hb, hc⟩ := Next_ok A conv c c' b h
  obtain ⟨consumed, h1, _, _, h4, _, h6, h7, h8, h9⟩ :=
    fillLoop_ok _ _ 0 c1 c2 nRows (le_refl 0) hf
  have hgf := (growBuffer_frame A c).grow_fields
  rw [hg] at hgf
  obtain ⟨_, _, _, _, gtyps, hin, _⟩ := hgf
  simp only [] at hin gtyps
  rw [hin] at h1
  have ftyps : c2.typs = c1.typs := h9.fill_fields.2.2.2.2.2.2.2.1
  have hwf := writeColumns_frame conv (c2.buffered.take nRows.toNat) c2.typs 0 batch
  rw [hwr] at hwf
  have hbcap : b.capacity = batch.capacity := by rw [hb]; exact hwf.2.1
  have hlen : b.length = nRows.toNat := by rw [hb]; rfl
  have hn : nRows.toNat = (rowsOf consumed).length := by rw [h4]; simp
  -- the slots after the growth step have the width of the types
  have hw1 : ∀ slot ∈ c1.buffered, slot.length = c.typs.length := by
    obtain ⟨_, _, _, _, hgrow, hkeep⟩ := growBuffer_ok A c c1 batch hg
    cases hr : (c.obtainBatch A).2 with
    | true => exact growRows_width _ _ _ _ (hgrow hr) hw
    | false => rw [hkeep hr]; exact hw
  have hrc : ∀ r ∈ rowsOf consumed, r.length = c.typs.length := by
    intro r hr
    apply hrows r
    rw [h1, rowsOf_append]
    exact List.mem_append_left _ hr
  have hroom : (rowsOf consumed).length ≤ c1.buffered.length := by
    by_cases hnil : rowsOf consumed = []
    · simp [hnil]
    · have := h8 hnil
      omega
  obtain ⟨htake, hw2⟩ := stageRows_take c.typs.length (rowsOf consumed) c1.buffered hw1 hrc hroom
  simp only [Int.toNat_zero] at h7
  rw [← h7] at htake hw2
  rw [hn, htake] at hwr
  obtain ⟨_, hcols⟩ := writeColumns_ok conv hconv (rowsOf consumed) c2.typs 0 batch b0 hwr
  have hcols' : ∀ j, j < c.typs.length → ∃ vec, b0.cols[j]? = some vec ∧
      ∀ (i : Nat) (row : EncDatumRow), (rowsOf consumed)[i]? = some row → vec[i]? = row[j]? := by
    intro j hj
    exact hcols j (Nat.zero_le _) (by rw [ftyps, gtyps]; omega)
  refine ⟨consumed, ?_, ?_, ?_, ?_, ?_, ?_⟩
  · rw [hc]; exact h1
  · have := rows_of_columns (rowsOf consumed) b0.cols c.typs.length hrc hcols'
    rw [← this]
    unfold Batch.rows
    rw [hlen, hn, hb]
    rfl
  · rw [hlen, hn]
  · intro hlt
    rw [hc]
    exact h6 (by rw [hlen, hbcap] at hlt; omega)
  · rw [hc]
    simp only []
    rw [ftyps, gtyps]
    exact hw2
  · rw [hc]
    simp only []
    rw [ftyps, gtyps]

/-- Rows are delivered in order by pulls that return: let a conversion meet its
contract, let the slots of the row buffer have one value per output column, let
every row of the source have one value per output column, and let `k` successive
`Next` calls, more than the source has rows, return the batches `bs`, each of
capacity at least 1. Then one of the batches has length 0, and the rows of the
batches before the first batch of length 0, concatenated, are the rows of the
source in order. -/
theorem NextN_rows_delivered {σ : Type} (A : Allocator σ) (conv : Conv)
    (hconv : ConvContract conv) (k : Nat) :
    ∀ (c : Columnarizer σ) (bs : List Batch),
      (∀ slot ∈ c.buffered, slot.length = c.typs.length) →
      (∀ r ∈ rowsOf c.input.pending, r.length = c.typs.length) →
      (c.NextN A conv k).1 = bs.map Except.ok →
      (∀ b ∈ bs, 1 ≤ b.capacity) →
      (rowsOf c.input.pending).length < k →
      (∃ b ∈ bs, b.length = 0) ∧
      ((bs.takeWhile (fun b => b.length != 0)).map (fun b => b.rows c.typs.length)).flatten
        = (rowsOf c.input.pending).map (fun r => r.map some) := by
  induction k with
  | zero => intro c bs _ _ _ _ hk; omega
  | succ k ih =>
    intro c bs hw hrows hall hcap hk
    simp only [Columnarizer.NextN] at hall
    cases bs with
    | nil => simp at hall
    | cons b bs' =>
      simp only [List.map_cons, List.cons.injEq] at hall
      obtain ⟨hb, hrest⟩ := hall
      obtain ⟨consumed, h1, h2, h3, h4, h5, h6⟩ :=
        Next_rows A conv hconv c (c.Next A conv).2 b hw hrows (by rw [← hb])
      by_cases hz : b.length = 0
      · have hpend := h4 (by have := hcap b (List.mem_cons_self _ _); omega)
        have hcr : rowsOf consumed = [] := by
          apply List.eq_nil_of_length_eq_zero
          omega
        refine ⟨⟨b, List.mem_cons_self _ _, hz⟩, ?_⟩
        rw [h1, hpend, List.append_nil, hcr]
        simp [List.takeWhile, hz]
      · have hrows' : ∀ r ∈ rowsOf (c.Next A conv).2.input.pending,
            r.length = (c.Next A conv).2.typs.length := by
          intro r hr
          rw [h6]
          apply hrows r
          rw [h1, rowsOf_append]
          exact List.mem_append_right _ hr
        have hk' : (rowsOf (c.Next A conv).2.input.pending).length < k := by
          rw [h1, rowsOf_append, List.length_append] at hk
          omega
        obtain ⟨⟨b1, hb1, hb1z⟩, i2⟩ := ih (c.Next A conv).2 bs' h5 hrows' hrest
          (fun b0 hb0 => hcap b0 (List.mem_cons_of_mem _ hb0)) hk'
        refine ⟨⟨b1, List.mem_cons_of_mem _ hb1, hb1z⟩, ?_⟩
        have htw : (b :: bs').takeWhile (fun b => b.length != 0)
            = b :: bs'.takeWhile (fun b => b.length != 0) := by
          have hne : (b.length != 0) = true := by simpa using hz
          rw [List.takeWhile_cons]
          simp only [hne, if_true]
        rw [htw]
        simp only [List.map_cons, List.flatten_cons]
        rw [h6] at i2
        rw [i2, h2]
        conv => rhs; rw [h1, rowsOf_append, List.map_append]

/-- The sample conversion meets the contract of the conversion. -/
theorem copyConv_contract : ConvContract copyConv := by
  intro rows vec idx t vec' h i row hrow
  unfold copyConv at h
  split at h
  · rename_i hc
    simp only [Except.ok.injEq] at h
    subst h
    have hi : i < rows.length := by
      rcases List.getElem?_eq_some.mp hrow with ⟨hl, _⟩
      exact hl
    have hidx : idx < row.length := hc.2 row (List.getElem?_mem hrow)
    rw [List.getElem?_append_left (by simpa using hi)]
    simp only [List.getElem?_map, hrow, Option.map_some']
    simp [List.getD, List.getElem?_eq_getElem hidx]
  · cases h

/-! ## The iterations given to the fill loop suffice -/

/-- The panics of the first half of `Next` are the nil batch and the failed bounds
probe. -/
theorem growBuffer_error_kind {σ : Type} (A : Allocator σ) (c : Columnarizer σ) (p : Panic)
    (h : (c.growBuffer A).1 = .error p) : p = .nilDereference ∨ p = .indexOutOfRange := by
  unfold Columnarizer.growBuffer at h
  simp only [] at h
  cases hb : (c.obtainBatch A).1.batch with
  | none =>
    simp only [hb, Except.error.injEq] at h
    exact Or.inl h.symm
  | some b0 =>
    simp only [hb] at h
    cases hr : (c.obtainBatch A).2 with
    | false => simp [hr] at h
    | true =>
      simp only [hr, if_true] at h
      cases hg : growRows (c.obtainBatch A).1.buffered b0.capacity (c.obtainBatch A).1.typs.length with
      | error q =>
        simp only [hg, Except.error.injEq] at h
        rw [← h]
        exact Or.inr (growRows_error _ _ _ q hg)
      | ok newRows => simp [hg] at h

/-- The panics of the writing of the columns are a missing column and an error of
the conversion, raised as an internal error. -/
theorem writeColumns_error_kind (conv : Conv) (rows : EncDatumRows) (typs : List T) (p : Panic) :
    ∀ (idx : Nat) (b : Batch), (writeColumns conv rows typs idx b).1 = .error p →
      p = .indexOutOfRange ∨ ∃ err, p = .InternalError err := by
  induction typs with
  | nil => intro idx b h; simp [writeColumns] at h
  | cons ct rest ih =>
    intro idx b h
    unfold writeColumns at h
    cases hv : b.cols[idx]? with
    | none =>
      simp only [hv, Except.error.injEq] at h
      exact Or.inl h.symm
    | some vec =>
      simp only [hv] at h
      cases hc : conv rows vec idx ct with
      | error err =>
        simp only [hc, Except.error.injEq] at h
        exact Or.inr ⟨err, h.symm⟩
      | ok vec' =>
        simp only [hc] at h
        exact ih _ _ h

/-- `Next` never ends for want of iterations of its fill loop: on every adapter it
returns a batch or raises one of the panics of the source. -/
theorem Next_fuel_suffices {σ : Type} (A : Allocator σ) (conv : Conv) (c : Columnarizer σ) :
    (c.Next A conv).1 ≠ .error .fuelExhausted := by
  have hge := growBuffer_error_kind A c
  unfold Columnarizer.Next
  rcases hg : c.growBuffer A with ⟨r1, c1⟩
  rw [hg] at hge
  cases r1 with
  | error p =>
    simp only []
    intro h
    simp only [Except.error.injEq] at h
    rcases hge p rfl with h' | h' <;> rw [h'] at h <;> cases h
  | ok batch =>
    simp only []
    have hfu := fillLoop_fuel (c1.input.pending.length + 1) batch.capacity 0 c1 (by omega)
    rcases hf : Columnarizer.fillLoop (c1.input.pending.length + 1) batch.capacity 0 c1
      with ⟨r2, c2⟩
    rw [hf] at hfu
    simp only [] at hfu
    cases r2 with
    | error p =>
      simp only []
      intro h
      exact hfu (by simpa using h)
    | ok nRows =>
      simp only []
      have hbuf : (if nRows > c2.daAllocSize then { c2 with daAllocSize := nRows } else c2).buffered
          = c2.buffered := by split <;> rfl
      have htyps : (if nRows > c2.daAllocSize then { c2 with daAllocSize := nRows } else c2).typs
          = c2.typs := by split <;> rfl
      rw [hbuf, htyps]
      have hwe := writeColumns_error_kind conv (c2.buffered.take nRows.toNat) c2.typs
      rcases hw : writeColumns conv (c2.buffered.take nRows.toNat) c2.typs 0 batch with ⟨r3, b0⟩
      cases r3 with
      | error p =>
        simp only []
        intro h
        simp only [Except.error.injEq] at h
        have := hwe p 0 batch (by rw [hw])
        rcases this with h' | ⟨err, h'⟩ <;> rw [h'] at h <;> cases h
      | ok u => simp

/-! ## `Close` and the plan-node surface -/

/-- What `Close` may change of the adapter: the count of consumer-closed
notifications the row source has received. -/
theorem CloseN_spec {σ : Type} (k : Nat) :
    ∀ c : Columnarizer σ,
      (c.CloseN k).1 = List.replicate k none ∧
      (c.CloseN k).2 =
        { c with input := { c.input with closedCalls := c.input.closedCalls + k } } := by
  induction k with
  | zero => intro c; exact ⟨rfl, rfl⟩
  | succ k ih =>
    intro c
    obtain ⟨h1, h2⟩ := ih c.Close.2
    simp only [Columnarizer.CloseN]
    refine ⟨?_, ?_⟩
    · rw [h1]
      rfl
    · rw [h2]
      simp only [Columnarizer.Close, RowSource.ConsumerClosed]
      have : c.input.closedCalls + 1 + k = c.input.closedCalls + (k + 1) := by omega
      rw [this]

/-- C11: on every adapter, whatever its state, each of `k` consecutive `Close`
calls returns no error and forwards one consumer-closed notification to the row
source, `k` in total, and the calls leave the batch, the row buffer, the metadata
accumulator and the init status as they were (as everything else but the count
of notifications). -/
theorem C11_close_forwards_one_notification {σ : Type} (c : Columnarizer σ) (k : Nat) :
    c.Close.1 = none ∧
    c.Close.2.input.closedCalls = c.input.closedCalls + 1 ∧
    (c.CloseN k).1 = List.replicate k none ∧
    (c.CloseN k).2.input.closedCalls = c.input.closedCalls + k ∧
    (c.CloseN k).2.batch = c.batch ∧
    (c.CloseN k).2.buffered = c.buffered ∧
    (c.CloseN k).2.accumulatedMeta = c.accumulatedMeta ∧
    (c.CloseN k).2.initStatus = c.initStatus ∧
    (c.CloseN k).2 =
      { c with input := { c.input with closedCalls := c.input.closedCalls + k } } := by
  obtain ⟨h1, h2⟩ := CloseN_spec k c
  refine ⟨rfl, rfl, h1, ?_, ?_, ?_, ?_, ?_, h2⟩ <;> rw [h2]

/-- C11 on the sample adapter after two pulls: closing twice returns no error
twice and the row source has been notified twice. -/
theorem C11_close_forwards_one_notification_witness :
    ((sampleAdapter columnarizerBufferingMode sampleItems).NextN
        (doublingAllocator 4) copyConv 2).2.input.closedCalls = 0 ∧
    ((((sampleAdapter columnarizerBufferingMode sampleItems).NextN
        (doublingAllocator 4) copyConv 2).2).CloseN 2).1 = List.replicate 2 none ∧
    ((((sampleAdapter columnarizerBufferingMode sampleItems).NextN
        (doublingAllocator 4) copyConv 2).2).CloseN 2).2.input.closedCalls = 0 + 2 :=
  ⟨rfl,
    (C11_close_forwards_one_notification
      ((sampleAdapter columnarizerBufferingMode sampleItems).NextN
        (doublingAllocator 4) copyConv 2).2 2).2.2.1,
    rfl⟩

/-- C12: `ChildCount` is 1 when the row source is a plan node and 0 otherwise;
`Child nth` returns the row source exactly when `nth` is 0 and `ChildCount` is 1;
at index 0 with `ChildCount` 0 and at every other index it raises an internal
error wrapping an assertion failure. -/
theorem C12_child_only_at_index_zero {σ : Type} (c : Columnarizer σ) (nth : Int)
    (verbose : Bool) :
    (c.ChildCount verbose = if c.input.isOpNode then 1 else 0) ∧
    (c.ChildCount verbose = 1 ∨ c.ChildCount verbose = 0) ∧
    ((∃ n, c.Child nth verbose = .ok n) ↔ (nth = 0 ∧ c.ChildCount verbose = 1)) ∧
    (∀ n, c.Child nth verbose = .ok n → n = c.input) ∧
    (nth = 0 → c.ChildCount verbose = 0 →
      c.Child nth verbose = .error (.InternalError (.AssertionFailed .inputNotOpNode))) ∧
    (nth ≠ 0 →
      c.Child nth verbose = .error (.InternalError (.AssertionFailed (.invalidIndex nth)))) := by
  unfold Columnarizer.ChildCount Columnarizer.Child
  by_cases h0 : nth = 0
  · cases hop : c.input.isOpNode with
    | true => simp [h0]
    | false => simp [h0]
  · cases hop : c.input.isOpNode with
    | true => simp [h0]
    | false => simp [h0]

/-- C12 on the sample source, which is no plan node, and on the same source as a
plan node. -/
theorem C12_child_only_at_index_zero_witness :
    (sampleAdapter columnarizerBufferingMode sampleItems).Child 0 false
      = .error (.InternalError (.AssertionFailed .inputNotOpNode)) ∧
    (sampleAdapter columnarizerBufferingMode sampleItems).Child 3 false
      = .error (.InternalError (.AssertionFailed (.invalidIndex 3))) ∧
    ({ sampleAdapter columnarizerBufferingMode sampleItems with
        input := { sampleSource sampleItems with isOpNode := true } }).Child 0 false
      = .ok { sampleSource sampleItems with isOpNode := true } :=
  ⟨(C12_child_only_at_index_zero (sampleAdapter columnarizerBufferingMode sampleItems) 0
      false).2.2.2.2.1 rfl rfl,
    (C12_child_only_at_index_zero (sampleAdapter columnarizerBufferingMode sampleItems) 3
      false).2.2.2.2.2 (by decide),
    rfl⟩

/-! ## A pull that aborts on metadata carrying an error -/

/-- C16: when a pull aborts on a metadata item carrying an error, the source held
`pre`, then that item, then `post`, with no error in `pre`; afterwards the
accumulator is its content before the pull followed by the metadata of `pre` in
order, without the item; the source is left with `post`; and a `DrainMeta` call
that follows returns the accumulator before the pull, the metadata of `pre`, the
metadata of `post` and the trailing metadata of the execution machinery, so the
item that aborted the pull is not in it unless an equal item stood elsewhere. -/
theorem C16_aborting_pull_keeps_earlier_metadata {σ : Type} (A : Allocator σ) (conv : Conv)
    (c : Columnarizer σ) (e : Error)
    (h : (c.Next A conv).1 = .error (.ExpectedError e)) :
    ∃ (pre : List Item) (m : ProducerMetadata) (post : List Item),
      c.input.pending = pre ++ Item.meta m :: post ∧
      m.Err = some e ∧
      (∀ m' ∈ metasOf pre, m'.Err = none) ∧
      (c.Next A conv).2.accumulatedMeta = c.accumulatedMeta ++ metasOf pre ∧
      (c.Next A conv).2.input.pending = post ∧
      (c.Next A conv).2.DrainMeta.1
        = c.accumulatedMeta ++ metasOf pre ++ metasOf post ++ c.ProcessorBase.trailingMeta ∧
      (m ∉ c.accumulatedMeta → m ∉ metasOf post → m ∉ c.ProcessorBase.trailingMeta →
        m ∉ (c.Next A conv).2.DrainMeta.1) := by
  obtain ⟨consumed, h1, h2⟩ := Next_consumed A conv c
  have hpb := (Next_state A conv c).2.2.1
  rcases h2 with ⟨_, h2⟩ | ⟨pre, m, e0, k1, k2, k3, k4, k5⟩
  · exact absurd h (h2 e)
  · rw [h] at k3
    simp only [Except.error.injEq, Panic.ExpectedError.injEq] at k3
    subst k3
    obtain ⟨d1, _, _⟩ := DrainMeta_spec (c.Next A conv).2
    have hdrain : (c.Next A conv).2.DrainMeta.1
        = c.accumulatedMeta ++ metasOf pre ++ metasOf (c.Next A conv).2.input.pending
          ++ c.ProcessorBase.trailingMeta := by
      rw [d1, k4, hpb]
    refine ⟨pre, m, (c.Next A conv).2.input.pending, ?_, k2, k5, k4, rfl, hdrain, ?_⟩
    · rw [k1] at h1
      simpa using h1
    · intro n1 n2 n3 hmem
      rw [hdrain] at hmem
      simp only [List.mem_append] at hmem
      rcases hmem with ((hm | hm) | hm) | hm
      · exact n1 hm
      · have := k5 m hm
        rw [k2] at this
        cases this
      · exact n2 hm
      · exact n3 hm

/-- C16 on the sample adapter with metadata around its rows: the accumulator holds
the first metadata item before the pull; the pull accumulates the second item,
stages row B and aborts on the item carrying error 5; afterwards the accumulator
holds the first two items and not the third, and the drain that follows returns
these two and the item that came after the error, never the item carrying it. -/
theorem C16_aborting_pull_keeps_earlier_metadata_witness :
    sampleWithMetadata.accumulatedMeta = [sampleMeta] ∧
    sampleWithMetadata.input.pending
      = [Item.meta sampleMetaB, Item.row [3, 4]] ++
          Item.meta sampleErrorMeta :: [Item.meta sampleMetaC] ∧
    (sampleWithMetadata.Next (doublingAllocator 4) copyConv).1
      = .error (.ExpectedError (.Other 5)) ∧
    (sampleWithMetadata.Next (doublingAllocator 4) copyConv).2.accumulatedMeta
      = [sampleMeta, sampleMetaB] ∧
    (sampleWithMetadata.Next (doublingAllocator 4) copyConv).2.DrainMeta.1
      = [sampleMeta, sampleMetaB, sampleMetaC] ∧
    sampleErrorMeta ∉ (sampleWithMetadata.Next (doublingAllocator 4) copyConv).2.DrainMeta.1 ∧
    ∃ (pre : List Item) (m : ProducerMetadata) (post : List Item),
      sampleWithMetadata.input.pending = pre ++ Item.meta m :: post ∧
      m.Err = some (.Other 5) ∧
      (sampleWithMetadata.Next (doublingAllocator 4) copyConv).2.accumulatedMeta
        = sampleWithMetadata.accumulatedMeta ++ metasOf pre ∧
      (sampleWithMetadata.Next (doublingAllocator 4) copyConv).2.DrainMeta.1
        = sampleWithMetadata.accumulatedMeta ++ metasOf pre ++ metasOf post
          ++ sampleWithMetadata.ProcessorBase.trailingMeta :=
  ⟨rfl, rfl, rfl, rfl, by decide, by decide,
    match C16_aborting_pull_keeps_earlier_metadata (doublingAllocator 4) copyConv
      sampleWithMetadata (.Other 5) rfl with
    | ⟨pre, m, post, h1, h2, _, h4, _, h6, _⟩ => ⟨pre, m, post, h1, h2, h4, h6⟩⟩

/-! ## Indices in range -/

/-- With a row buffer at least as long as the capacity, no staging write of the
fill loop is out of range. -/
theorem fillLoop_in_range {σ : Type} (fuel capacity : Nat) :
    ∀ (n : Int) (c : Columnarizer σ), 0 ≤ n → capacity ≤ c.buffered.length →
      (Columnarizer.fillLoop fuel capacity n c).1 ≠ .error .indexOutOfRange := by
  induction fuel with
  | zero => intro n c _ _; simp [Columnarizer.fillLoop]
  | succ fuel ih =>
    intro n c hn hcap
    unfold Columnarizer.fillLoop
    split
    · rename_i hlt
      cases hp : c.input.pending with
      | nil => simp [RowSource.Next, hp]
      | cons item rest =>
        cases item with
        | row r =>
          simp only [RowSource.Next, hp, hn, if_true]
          have hlen : n.toNat < c.buffered.length := by omega
          rw [List.getElem?_eq_getElem hlen]
          simp only []
          exact ih _ _ (by omega) (by simpa using hcap)
        | meta m =>
          simp only [RowSource.Next, hp]
          cases hE : m.Err with
          | some err => simp
          | none =>
            simp only []
            exact ih _ _ (by omega) hcap
    · simp

/-- In the buffering and the streaming mode the mode switch leaves the adapter
with a batch. -/
theorem obtainBatch_some {σ : Type} (A : Allocator σ) (c : Columnarizer σ)
    (hmode : c.mode = columnarizerBufferingMode ∨ c.mode = columnarizerStreamingMode) :
    ∃ b, (c.obtainBatch A).1.batch = some b := by
  unfold Columnarizer.obtainBatch
  rcases hmode with h | h
  · simp [h]
  · have h10 : ¬ columnarizerStreamingMode = columnarizerBufferingMode := by decide
    simp only [h, h10, if_false, if_true]
    cases c.batch with
    | none => simp
    | some b0 => simp

/-- The first half of `Next` computed from the outcome of the mode switch. -/
theorem growBuffer_eq {σ : Type} (A : Allocator σ) (c : Columnarizer σ) (b : Batch)
    (hb : (c.obtainBatch A).1.batch = some b) :
    ((c.obtainBatch A).2 = false → c.growBuffer A = (.ok b, (c.obtainBatch A).1)) ∧
    ((c.obtainBatch A).2 = true →
      (∀ rows, growRows c.buffered b.capacity c.typs.length = .ok rows →
        c.growBuffer A = (.ok b, { (c.obtainBatch A).1 with buffered := rows })) ∧
      (∀ p, growRows c.buffered b.capacity c.typs.length = .error p →
        c.growBuffer A = (.error p, (c.obtainBatch A).1))) := by
  have hbuf : (c.obtainBatch A).1.buffered = c.buffered := (obtainBatch_frame A c).2
  have htyps : (c.obtainBatch A).1.typs = c.typs :=
    (obtainBatch_frame A c).1.grow_fields.2.2.2.2.1
  refine ⟨fun hr => ?_, fun hr => ⟨fun rows hg => ?_, fun p hg => ?_⟩⟩
  · unfold Columnarizer.growBuffer
    simp [hb, hr]
  · unfold Columnarizer.growBuffer
    simp [hb, hr, hbuf, htyps, hg]
  · unfold Columnarizer.growBuffer
    simp [hb, hr, hbuf, htyps, hg]

/-- One pull under the allocator contract, in the buffering or the streaming mode,
from an adapter whose row buffer has the length of the capacity of the batch it
holds, if it holds one: the indices of the pull are in range, and the adapter is
left with a row buffer of the length of the capacity of its batch. -/
theorem pull_in_range {σ : Type} (A : Allocator σ) (conv : Conv) (c : Columnarizer σ)
    (hmode : c.mode = columnarizerBufferingMode ∨ c.mode = columnarizerStreamingMode)
    (hinv : ∀ b, c.batch = some b → c.buffered.length = b.capacity)
    (hcon : c.meetsContract A = true) :
    c.PullInRange A ∧
    (∀ b, (c.Next A conv).2.batch = some b → (c.Next A conv).2.buffered.length = b.capacity) := by
  obtain ⟨b, hb⟩ := obtainBatch_some A c hmode
  obtain ⟨e1, e2⟩ := growBuffer_eq A c b hb
  have hbuf : (c.obtainBatch A).1.buffered = c.buffered := (obtainBatch_frame A c).2
  unfold Columnarizer.meetsContract at hcon
  simp only [hb] at hcon
  -- the first half completes with a row buffer of the length of the capacity
  have hgrow : ∃ c1, c.growBuffer A = (.ok b, c1) ∧ c1.buffered.length = b.capacity := by
    cases hr : (c.obtainBatch A).2 with
    | true =>
      simp only [hr, if_true, decide_eq_true_eq] at hcon
      obtain ⟨rows, hrows⟩ := (growRows_ok_iff c.buffered b.capacity c.typs.length).mpr hcon
      exact ⟨_, (e2 hr).1 rows hrows, (growRows_spec _ _ _ _ hrows).2.1⟩
    | false =>
      simp only [hr] at hcon
      cases hcb : c.batch with
      | none => simp [hcb] at hcon
      | some b0 =>
        simp only [hcb, Bool.false_eq_true, if_false, decide_eq_true_eq] at hcon
        refine ⟨_, e1 hr, ?_⟩
        rw [hbuf, hinv b0 hcb, hcon]
  obtain ⟨c1, hg, hlen⟩ := hgrow
  refine ⟨⟨b, c1, hg, hlen, ?_, ?_⟩, ?_⟩
  · exact fillLoop_in_range _ _ 0 c1 (le_refl 0) (by omega)
  · intro nRows c2 hf
    obtain ⟨consumed, _, _, _, h4, h5, _⟩ := fillLoop_ok _ _ 0 c1 c2 nRows (le_refl 0) hf
    have hl := fillLoop_buffered_length (c1.input.pending.length + 1) b.capacity 0 c1
    rw [hf] at hl
    simp only [] at hl
    have := h5 (by omega)
    exact ⟨by omega, by omega⟩
  · intro b' hb'
    obtain ⟨_, _, _, _, _, _, s7, _, s9⟩ := Next_state A conv c
    rw [hg] at s7 s9
    simp only [] at s7 s9
    obtain ⟨b2, h2, _, hc2⟩ := s9 b (growBuffer_ok A c c1 b hg).1
    rw [h2] at hb'
    cases hb'
    rw [s7, hlen, hc2]

/-- C15: in the buffering or the streaming mode, from an adapter whose row buffer
has the length of the capacity of the batch it holds, if it holds one (a fresh
adapter holds none), when the allocator keeps its contract at each of `k` pulls
(a replaced batch has a capacity above the length of the row buffer, a batch not
replaced keeps its capacity), the indices of each of these pulls are in range:
the bounds probe of the growth step and the staging writes of the fill loop do
not fail. Conversely a replacement whose capacity is at most the length of the
row buffer makes the growth step, and the pull, fail with an index out of range;
so the length of the row buffer does not decrease over a pull that completes. -/
theorem C15_indices_in_range {σ : Type} (A : Allocator σ) (conv : Conv) (k : Nat) :
    (∀ c : Columnarizer σ,
      (c.mode = columnarizerBufferingMode ∨ c.mode = columnarizerStreamingMode) →
      (∀ b, c.batch = some b → c.buffered.length = b.capacity) →
      c.contractAlong A conv k = true →
      ∀ j, j < k → ((c.NextN A conv j).2).PullInRange A) ∧
    (∀ (c : Columnarizer σ) (b : Batch),
      (c.obtainBatch A).2 = true → (c.obtainBatch A).1.batch = some b →
      b.capacity ≤ c.buffered.length →
      (c.growBuffer A).1 = .error .indexOutOfRange ∧
      (c.Next A conv).1 = .error .indexOutOfRange) ∧
    (∀ (c c' : Columnarizer σ) (b : Batch), c.Next A conv = (.ok b, c') →
      c.buffered.length ≤ c'.buffered.length) := by
  refine ⟨?_, ?_, ?_⟩
  · induction k with
    | zero => intro c _ _ _ j hj; omega
    | succ k ih =>
      intro c hmode hinv hcon j hj
      simp only [Columnarizer.contractAlong, Bool.and_eq_true] at hcon
      obtain ⟨hc0, hrest⟩ := hcon
      obtain ⟨hpull, hinv'⟩ := pull_in_range A conv c hmode hinv hc0
      cases j with
      | zero => exact hpull
      | succ j =>
        have hmode' : (c.Next A conv).2.mode = columnarizerBufferingMode ∨
            (c.Next A conv).2.mode = columnarizerStreamingMode := by
          rw [(Next_state A conv c).1]
          exact hmode
        exact ih (c.Next A conv).2 hmode' hinv' hrest j (by omega)
  · intro c b hr hb hle
    have hg : growRows c.buffered b.capacity c.typs.length = .error .indexOutOfRange := by
      unfold growRows
      have : ¬ c.buffered.length < b.capacity := by omega
      simp [this]
    have hgb := ((growBuffer_eq A c b hb).2 hr).2 _ hg
    refine ⟨by rw [hgb], ?_⟩
    unfold Columnarizer.Next
    rw [hgb]
  · intro c c' b h
    obtain ⟨batch, c1, hg, _, _, _, _⟩ := Next_batch A conv c c' b h
    obtain ⟨_, _, _, _, hgrow, hkeep⟩ := growBuffer_ok A c c1 batch hg
    have hs := (Next_state A conv c).2.2.2.2.2.2.1
    rw [h, hg] at hs
    simp only [] at hs
    rw [hs]
    cases hr : (c.obtainBatch A).2 with
    | true =>
      obtain ⟨g1, g2, _, _⟩ := growRows_spec _ _ _ _ (hgrow hr)
      omega
    | false => rw [hkeep hr]

/-- C15 on the sample adapter in buffering mode with the sample allocator, which
doubles the capacity: the contract holds at each of three pulls and the third
pull is in range; and with the allocator that replaces the batch by one of
capacity 1 when the row buffer already has one slot, the pull fails with an index
out of range. -/
theorem C15_indices_in_range_witness :
    (sampleAdapter columnarizerBufferingMode sampleItems).contractAlong
      (doublingAllocator 4) copyConv 3 = true ∧
    (((sampleAdapter columnarizerBufferingMode sampleItems).NextN
      (doublingAllocator 4) copyConv 2).2).PullInRange (doublingAllocator 4) ∧
    (sampleAfterFirstPull.Next stuckAllocator copyConv).1 = .error .indexOutOfRange :=
  ⟨by decide,
    (C15_indices_in_range (doublingAllocator 4) copyConv 3).1
      (sampleAdapter columnarizerBufferingMode sampleItems) (Or.inl rfl)
      (by intro b hb; cases hb) (by decide) 2 (by decide),
    rfl⟩

/-! ## Pulls that return -/

/-- Go's `copy` keeps the length of the destination. -/
theorem goCopy_length (dst src : EncDatumRow) : (goCopy dst src).length = dst.length := by
  unfold goCopy
  simp only [List.length_append, List.length_take, List.length_drop]
  omega

/-- The fill loop keeps the width of the slots of the row buffer, however it
ends. -/
theorem fillLoop_width {σ : Type} (w fuel capacity : Nat) :
    ∀ (n : Int) (c : Columnarizer σ), (∀ slot ∈ c.buffered, slot.length = w) →
      ∀ slot ∈ (Columnarizer.fillLoop fuel capacity n c).2.buffered, slot.length = w := by
  induction fuel with
  | zero => intro n c h; exact h
  | succ fuel ih =>
    intro n c h
    unfold Columnarizer.fillLoop
    split
    · cases hp : c.input.pending with
      | nil => simpa [RowSource.Next, hp] using h
      | cons item rest =>
        cases item with
        | row r =>
          simp only [RowSource.Next, hp]
          split
          · cases hb : c.buffered[n.toNat]? with
            | none => simpa using h
            | some s0 =>
              simp only []
              apply ih
              intro slot hs
              rcases List.mem_or_eq_of_mem_set hs with h1 | h1
              · exact h slot h1
              · rw [h1, goCopy_length]
                exact h s0 (List.getElem?_mem hb)
          · simpa using h
        | meta m =>
          simp only [RowSource.Next, hp]
          cases hE : m.Err with
          | some err => simpa using h
          | none =>
            simp only []
            exact ih _ _ h
    · simpa using h

/-- The panics of the fill loop are the expected error of a metadata item, a
staging write out of range and the want of iterations. -/
theorem fillLoop_error_kind {σ : Type} (fuel capacity : Nat) :
    ∀ (n : Int) (c : Columnarizer σ) (p : Panic),
      (Columnarizer.fillLoop fuel capacity n c).1 = .error p →
      (∃ e, p = .ExpectedError e) ∨ p = .indexOutOfRange ∨ p = .fuelExhausted := by
  induction fuel with
  | zero =>
    intro n c p h
    simp only [Columnarizer.fillLoop, Except.error.injEq] at h
    exact Or.inr (Or.inr h.symm)
  | succ fuel ih =>
    intro n c p h
    unfold Columnarizer.fillLoop at h
    split at h
    · cases hp : c.input.pending with
      | nil => simp [RowSource.Next, hp] at h
      | cons item rest =>
        cases item with
        | row r =>
          simp only [RowSource.Next, hp] at h
          split at h
          · cases hb : c.buffered[n.toNat]? with
            | none =>
              simp only [hb, Except.error.injEq] at h
              exact Or.inr (Or.inl h.symm)
            | some s0 =>
              simp only [hb] at h
              exact ih _ _ p h
          · simp only [Except.error.injEq] at h
            exact Or.inr (Or.inl h.symm)
        | meta m =>
          simp only [RowSource.Next, hp] at h
          cases hE : m.Err with
          | some err =>
            simp only [hE, Except.error.injEq] at h
            exact Or.inl ⟨err, h.symm⟩
          | none =>
            simp only [hE] at h
            exact ih _ _ p h
    · simp at h

/-- The fill loop ends normally when the source holds no metadata carrying an
error, the row buffer is at least as long as the capacity, and the loop is given
more iterations than the source has items left. -/
theorem fillLoop_returns {σ : Type} (fuel capacity : Nat) (c : Columnarizer σ)
    (hcap : capacity ≤ c.buffered.length) (hfuel : c.input.pending.length < fuel)
    (hnoerr : ∀ m ∈ metasOf c.input.pending, m.Err = none) :
    ∃ nRows, (Columnarizer.fillLoop fuel capacity 0 c).1 = .ok nRows := by
  cases hout : (Columnarizer.fillLoop fuel capacity 0 c).1 with
  | ok nRows => exact ⟨nRows, rfl⟩
  | error p =>
    exfalso
    rcases fillLoop_error_kind fuel capacity 0 c p hout with ⟨e, rfl⟩ | rfl | rfl
    · obtain ⟨consumed, h1, h2, _⟩ := fillLoop_consumed fuel capacity 0 c
      rcases h2 with ⟨_, h2⟩ | ⟨pre, m, e0, k1, k2, _, _, _⟩
      · exact h2 e hout
      · have hm : m ∈ metasOf c.input.pending := by
          rw [h1, k1, metasOf_append, metasOf_append]
          simp [metasOf]
        rw [hnoerr m hm] at k2
        cases k2
    · exact fillLoop_in_range fuel capacity 0 c (le_refl 0) hcap hout
    · exact fillLoop_fuel fuel capacity 0 c hfuel hout

/-- Writing the columns completes when the conversion is total, every staged row
has a value at each of the columns to write, and the batch has a vector with
room for the staged rows at each of these columns. -/
theorem writeColumns_returns (conv : Conv) (htotal : ConvTotal conv) (rows : EncDatumRows)
    (typs : List T) :
    ∀ (idx : Nat) (b : Batch),
      (∀ row ∈ rows, idx + typs.length ≤ row.length) →
      (∀ j, idx ≤ j → j < idx + typs.length →
        ∃ vec, b.cols[j]? = some vec ∧ rows.length ≤ vec.length) →
      ∃ b', writeColumns conv rows typs idx b = (.ok (), b') := by
  induction typs with
  | nil => intro idx b _ _; exact ⟨b, rfl⟩
  | cons ct rest ih =>
    intro idx b hrows hcols
    simp only [List.length_cons] at hrows hcols
    obtain ⟨vec, hv, hlen⟩ := hcols idx (le_refl _) (by omega)
    obtain ⟨vec', hc⟩ := htotal rows vec idx ct hlen
      (fun row hr => by have := hrows row hr; omega)
    unfold writeColumns
    simp only [hv, hc]
    apply ih
    · intro row hr
      have := hrows row hr
      omega
    · intro j hj1 hj2
      obtain ⟨v, hv', hl⟩ := hcols j (by omega) (by omega)
      refine ⟨v, ?_, hl⟩
      simp only []
      rw [List.getElem?_set_ne (by omega)]
      exact hv'

/-- `Next` keeps the width of the slots of the row buffer, however it ends. -/
theorem Next_width {σ : Type} (A : Allocator σ) (conv : Conv) (c : Columnarizer σ)
    (hw : ∀ slot ∈ c.buffered, slot.length = c.typs.length) :
    ∀ slot ∈ (c.Next A conv).2.buffered, slot.length = c.typs.length := by
  have hgf := (growBuffer_frame A c).grow_fields
  have hg1 : ∀ slot ∈ (c.growBuffer A).2.buffered, slot.length = c.typs.length := by
    cases hr : (c.obtainBatch A).2 with
    | false => rw [growBuffer_not_replaced A c hr]; exact hw
    | true =>
      cases hb : (c.obtainBatch A).1.batch with
      | none =>
        have : (c.growBuffer A).2 = (c.obtainBatch A).1 := by
          unfold Columnarizer.growBuffer
          simp [hb]
        rw [this, (obtainBatch_frame A c).2]
        exact hw
      | some b =>
        obtain ⟨_, e2⟩ := growBuffer_eq A c b hb
        cases hgr : growRows c.buffered b.capacity c.typs.length with
        | error p =>
          rw [((e2 hr).2 p hgr), (obtainBatch_frame A c).2]
          exact hw
        | ok rows =>
          rw [((e2 hr).1 rows hgr)]
          exact growRows_width _ _ _ _ hgr hw
  unfold Columnarizer.Next
  rcases hg : c.growBuffer A with ⟨r1, c1⟩
  rw [hg] at hg1
  simp only [] at hg1
  cases r1 with
  | error p => exact hg1
  | ok batch =>
    simp only []
    have hfw := fillLoop_width c.typs.length (c1.input.pending.length + 1) batch.capacity 0 c1 hg1
    rcases hf : Columnarizer.fillLoop (c1.input.pending.length + 1) batch.capacity 0 c1
      with ⟨r2, c2⟩
    rw [hf] at hfw
    simp only [] at hfw
    cases r2 with
    | error p => exact hfw
    | ok nRows =>
      simp only []
      have hbuf : (if nRows > c2.daAllocSize then { c2 with daAllocSize := nRows } else c2).buffered
          = c2.buffered := by split <;> rfl
      have htyps : (if nRows > c2.daAllocSize then { c2 with daAllocSize := nRows } else c2).typs
          = c2.typs := by split <;> rfl
      rw [hbuf, htyps]
      rcases hw3 : writeColumns conv (c2.buffered.take nRows.toNat) c2.typs 0 batch with ⟨r3, b0⟩
      cases r3 with
      | error p =>
        simp only []
        exact hfw
      | ok u =>
        simp only []
        exact hfw

/-- One pull returns a batch, of capacity at least 1, when the conversion is
total, the adapter is in one of its two modes with a row buffer of the length of
the capacity of the batch it holds, if any, and slots of one value per output
column, the source holds no metadata carrying an error, and the allocator keeps
its contract and hands out a fitting batch. -/
theorem Next_returns {σ : Type} (A : Allocator σ) (conv : Conv) (htotal : ConvTotal conv)
    (c : Columnarizer σ)
    (hmode : c.mode = columnarizerBufferingMode ∨ c.mode = columnarizerStreamingMode)
    (hinv : ∀ b, c.batch = some b → c.buffered.length = b.capacity)
    (hw : ∀ slot ∈ c.buffered, slot.length = c.typs.length)
    (hnoerr : ∀ m ∈ metasOf c.input.pending, m.Err = none)
    (hcon : c.meetsContract A = true) (hfit : c.batchFits A = true) :
    ∃ b, (c.Next A conv).1 = .ok b ∧ 1 ≤ b.capacity := by
  obtain ⟨⟨batch, c1, hg, hlen, _, hbound⟩, _⟩ := pull_in_range A conv c hmode hinv hcon
  obtain ⟨_, hob, _, _, hgrow, hkeep⟩ := growBuffer_ok A c c1 batch hg
  unfold Columnarizer.batchFits at hfit
  simp only [hob, Bool.and_eq_true, decide_eq_true_eq, List.all_eq_true] at hfit
  obtain ⟨⟨hcap1, hncols⟩, hvecs⟩ := hfit
  have hgf := (growBuffer_frame A c).grow_fields
  rw [hg] at hgf
  obtain ⟨_, _, _, _, gtyps, gin, _⟩ := hgf
  simp only [] at gtyps gin
  have hw1 : ∀ slot ∈ c1.buffered, slot.length = c.typs.length := by
    cases hr : (c.obtainBatch A).2 with
    | true => exact growRows_width _ _ _ _ (hgrow hr) hw
    | false => rw [hkeep hr]; exact hw
  obtain ⟨nRows, hout⟩ := fillLoop_returns (c1.input.pending.length + 1) batch.capacity c1
    (by omega) (by omega) (by rw [gin]; exact hnoerr)
  have hw2 := fillLoop_width c.typs.length (c1.input.pending.length + 1) batch.capacity 0 c1 hw1
  rcases hf : Columnarizer.fillLoop (c1.input.pending.length + 1) batch.capacity 0 c1
    with ⟨r2, c2⟩
  rw [hf] at hout hw2
  simp only [] at hout hw2
  subst hout
  obtain ⟨_, _, _, _, _, h5, _, _, _, h9⟩ :=
    fillLoop_ok _ _ 0 c1 c2 nRows (le_refl 0) hf
  have ftyps : c2.typs = c1.typs := h9.fill_fields.2.2.2.2.2.2.2.1
  have hn := h5 (by omega)
  obtain ⟨b0, hwr⟩ := writeColumns_returns conv htotal (c2.buffered.take nRows.toNat) c2.typs
    0 batch
    (by
      intro row hr
      rw [hw2 row (List.mem_of_mem_take hr), ftyps, gtyps]
      omega)
    (by
      intro j _ hj
      have hjc : j < batch.cols.length := by
        rw [ftyps, gtyps] at hj
        omega
      refine ⟨batch.cols[j], List.getElem?_eq_getElem hjc, ?_⟩
      have := hvecs _ (List.getElem_mem hjc)
      simp only [decide_eq_true_eq] at this
      rw [List.length_take]
      omega)
  have hwf := writeColumns_frame conv (c2.buffered.take nRows.toNat) c2.typs 0 batch
  rw [hwr] at hwf
  refine ⟨b0.SetLength nRows.toNat, ?_, ?_⟩
  · unfold Columnarizer.Next
    rw [hg]
    simp only []
    rw [hf]
    simp only []
    have hbuf : (if nRows > c2.daAllocSize then { c2 with daAllocSize := nRows } else c2).buffered
        = c2.buffered := by split <;> rfl
    have htyps : (if nRows > c2.daAllocSize then { c2 with daAllocSize := nRows } else c2).typs
        = c2.typs := by split <;> rfl
    rw [hbuf, htyps, hwr]
  · show 1 ≤ b0.capacity
    rw [hwf.2.1]
    exact hcap1

/-- Successive pulls all return batches, each of capacity at least 1, when the
conditions of a returning pull hold at the start and the allocator keeps its
contract and hands out fitting batches at each of the pulls. -/
theorem NextN_returns {σ : Type} (A : Allocator σ) (conv : Conv) (htotal : ConvTotal conv)
    (k : Nat) :
    ∀ c : Columnarizer σ,
      (c.mode = columnarizerBufferingMode ∨ c.mode = columnarizerStreamingMode) →
      (∀ b, c.batch = some b → c.buffered.length = b.capacity) →
      (∀ slot ∈ c.buffered, slot.length = c.typs.length) →
      (∀ m ∈ metasOf c.input.pending, m.Err = none) →
      c.soundAlong A conv k = true →
      ∃ bs : List Batch,
        (c.NextN A conv k).1 = bs.map Except.ok ∧ ∀ b ∈ bs, 1 ≤ b.capacity := by
  induction k with
  | zero =>
    intro c _ _ _ _ _
    exact ⟨[], rfl, fun b hb => by cases hb⟩
  | succ k ih =>
    intro c hmode hinv hw hnoerr hsound
    simp only [Columnarizer.soundAlong, Bool.and_eq_true] at hsound
    obtain ⟨⟨hcon, hfit⟩, hrest⟩ := hsound
    obtain ⟨b, hb, hcap⟩ := Next_returns A conv htotal c hmode hinv hw hnoerr hcon hfit
    obtain ⟨_, hinv'⟩ := pull_in_range A conv c hmode hinv hcon
    obtain ⟨s1, s2, _⟩ := Next_state A conv c
    obtain ⟨consumed, h1, _⟩ := Next_consumed A conv c
    obtain ⟨bs, hbs, hcaps⟩ := ih (c.Next A conv).2
      (by rw [s1]; exact hmode) hinv'
      (by rw [s2]; exact Next_width A conv c hw)
      (by
        intro m hm
        apply hnoerr m
        rw [h1, metasOf_append]
        exact List.mem_append_right _ hm)
      hrest
    refine ⟨b :: bs, ?_, ?_⟩
    · simp only [Columnarizer.NextN, List.map_cons]
      rw [hb, hbs]
    · intro b' hb'
      rcases List.mem_cons.mp hb' with rfl | hb'
      · exact hcap
      · exact hcaps b' hb'

/-- The amended C2: with a conversion that meets its contract, a row buffer whose
slots have one value per output column (a fresh adapter has none) and a source
whose rows have one value per output column, over more `Next` calls than the
source has rows: whenever these calls all return batches, each of capacity at
least 1, one of the batches has length 0 and the rows of the batches before the
first such batch, concatenated, are the rows of the source in order, wherever
metadata items stand and batch boundaries fall; and the calls do all return
batches, with that outcome, when moreover the conversion is total, the source
holds no metadata carrying an error, the adapter is in one of its two modes with
a row buffer of the length of the capacity of the batch it holds, if any, and the
allocator keeps its contract and hands out fitting batches at each pull. -/
theorem C2_rows_delivered_in_order {σ : Type} (A : Allocator σ) (conv : Conv)
    (hconv : ConvContract conv) (k : Nat) (c : Columnarizer σ)
    (hw : ∀ slot ∈ c.buffered, slot.length = c.typs.length)
    (hrows : ∀ r ∈ rowsOf c.input.pending, r.length = c.typs.length)
    (hk : (rowsOf c.input.pending).length < k) :
    (∀ bs : List Batch, (c.NextN A conv k).1 = bs.map Except.ok →
      (∀ b ∈ bs, 1 ≤ b.capacity) →
      (∃ b ∈ bs, b.length = 0) ∧
      ((bs.takeWhile (fun b => b.length != 0)).map (fun b => b.rows c.typs.length)).flatten
        = (rowsOf c.input.pending).map (fun r => r.map some)) ∧
    (ConvTotal conv →
      (c.mode = columnarizerBufferingMode ∨ c.mode = columnarizerStreamingMode) →
      (∀ b, c.batch = some b → c.buffered.length = b.capacity) →
      (∀ m ∈ metasOf c.input.pending, m.Err = none) →
      c.soundAlong A conv k = true →
      ∃ bs : List Batch,
        (c.NextN A conv k).1 = bs.map Except.ok ∧
        (∀ b ∈ bs, 1 ≤ b.capacity) ∧
        (∃ b ∈ bs, b.length = 0) ∧
        ((bs.takeWhile (fun b => b.length != 0)).map (fun b => b.rows c.typs.length)).flatten
          = (rowsOf c.input.pending).map (fun r => r.map some)) := by
  refine ⟨fun bs hall hcap => NextN_rows_delivered A conv hconv k c bs hw hrows hall hcap hk, ?_⟩
  intro htotal hmode hinv hnoerr hsound
  obtain ⟨bs, hall, hcap⟩ := NextN_returns A conv htotal k c hmode hinv hw hnoerr hsound
  obtain ⟨h1, h2⟩ := NextN_rows_delivered A conv hconv k c bs hw hrows hall hcap hk
  exact ⟨bs, hall, hcap, h1, h2⟩

/-- The sample conversion is total on vectors that can hold the staged rows. -/
theorem copyConv_total : ConvTotal copyConv := by
  intro rows vec idx t hlen hidx
  refine ⟨rows.map (fun row => row.getD idx 0) ++ vec.drop rows.length, ?_⟩
  unfold copyConv
  rw [if_pos ⟨hlen, hidx⟩]

/-- The counterexample to C2 as stated: over the stream of rows A and B, which
carries no metadata and whose rows have one value per output column, with an
allocator that returns a batch of capacity 1 on every pull and reports it as
replaced, the first `Next` returns a batch holding A, every later `Next` fails on
the bounds probe of the growth step, and row B stays in the source: the rows of
the returned batches are not the rows the source held. -/
theorem C2_shrinking_allocator_loses_rows :
    (metasOf (sampleAdapter columnarizerBufferingMode
        [Item.row [1, 2], Item.row [3, 4]]).input.pending = [] ∧
     (sampleAdapter columnarizerBufferingMode [Item.row [1, 2], Item.row [3, 4]]).typs.length
       = 2) ∧
    (∀ (st : Nat) (typs : List T) (batch : Option Batch) (minCapacity : Int),
      (stuckAllocator.ResetMaybeReallocate st typs batch minCapacity).1.1.capacity = 1) ∧
    ((sampleAdapter columnarizerBufferingMode [Item.row [1, 2], Item.row [3, 4]]).NextN
        stuckAllocator copyConv 3).1
      = [.ok { id := 0, capacity := 1, length := 1, cols := [[1], [2]] },
         .error .indexOutOfRange, .error .indexOutOfRange] ∧
    ((sampleAdapter columnarizerBufferingMode [Item.row [1, 2], Item.row [3, 4]]).NextN
        stuckAllocator copyConv 3).2.input.pending = [Item.row [3, 4]] ∧
    (((returnedBatches ((sampleAdapter columnarizerBufferingMode
          [Item.row [1, 2], Item.row [3, 4]]).NextN stuckAllocator copyConv 3).1).takeWhile
        (fun b => b.length != 0)).map (fun b => b.rows 2)).flatten
      = [[some 1, some 2]] ∧
    (((returnedBatches ((sampleAdapter columnarizerBufferingMode
          [Item.row [1, 2], Item.row [3, 4]]).NextN stuckAllocator copyConv 3).1).takeWhile
        (fun b => b.length != 0)).map (fun b => b.rows 2)).flatten
      ≠ (rowsOf (sampleAdapter columnarizerBufferingMode
          [Item.row [1, 2], Item.row [3, 4]]).input.pending).map (fun r => r.map some) :=
  ⟨⟨rfl, rfl⟩, fun _ _ _ _ => rfl, rfl, rfl, rfl, by decide⟩

/-- The amended C2 on the sample adapter over rows A and B and a metadata item,
with an allocator whose batches double from capacity 1: four pulls return a batch
holding A, a batch holding B and two batches of length 0, the allocator keeps its
contract and hands out fitting batches at each pull, and the rows of the batches
before the first batch of length 0 are A and B. -/
theorem C2_rows_delivered_in_order_witness :
    ((sampleAdapter columnarizerBufferingMode sampleItems).NextN
        (doublingAllocator 4) copyConv 4).1
      = [.ok { id := 0, capacity := 1, length := 1, cols := [[1], [2]] },
         .ok { id := 1, capacity := 2, length := 1, cols := [[3, 0], [4, 0]] },
         .ok { id := 2, capacity := 4, length := 0, cols := [[0, 0, 0, 0], [0, 0, 0, 0]] },
         .ok { id := 2, capacity := 4, length := 0, cols := [[0, 0, 0, 0], [0, 0, 0, 0]] }] ∧
    (rowsOf (sampleAdapter columnarizerBufferingMode sampleItems).input.pending).map
        (fun r => r.map some) = [[some 1, some 2], [some 3, some 4]] ∧
    (sampleAdapter columnarizerBufferingMode sampleItems).soundAlong
        (doublingAllocator 4) copyConv 4 = true ∧
    (∃ bs : List Batch,
      ((sampleAdapter columnarizerBufferingMode sampleItems).NextN
          (doublingAllocator 4) copyConv 4).1 = bs.map Except.ok ∧
      (∀ b ∈ bs, 1 ≤ b.capacity) ∧
      (∃ b ∈ bs, b.length = 0) ∧
      ((bs.takeWhile (fun b => b.length != 0)).map
          (fun b => b.rows (sampleAdapter columnarizerBufferingMode sampleItems).typs.length)).flatten
        = (rowsOf (sampleAdapter columnarizerBufferingMode sampleItems).input.pending).map
            (fun r => r.map some)) :=
  ⟨rfl, rfl, by decide,
    (C2_rows_delivered_in_order (doublingAllocator 4) copyConv copyConv_contract 4
      (sampleAdapter columnarizerBufferingMode sampleItems)
      (by intro slot hs; cases hs) (by decide) (by decide)).2
      copyConv_total (Or.inl rfl) (by intro b hb; cases hb) (by decide) (by decide)⟩

end colexec

namespace sql

/-! ## `Grant`: the maps used as sets -/

theorem setKey_mem (m : List String) (key u : String) :
    u ∈ setKey m key ↔ u ∈ m ∨ u = key := by
  unfold setKey
  by_cases h : key ∈ m
  · simp only [h, if_true]
    constructor
    · exact Or.inl
    · rintro (h1 | h1)
      · exact h1
      · rw [h1]; exact h
  · simp [h]

theorem setKey_nodup (m : List String) (key : String) (h : m.Nodup) :
    (setKey m key).Nodup := by
  unfold setKey
  by_cases hk : key ∈ m
  · simp [hk, h]
  · simp only [hk, if_false]
    rw [List.nodup_append]
    refine ⟨h, List.nodup_singleton key, ?_⟩
    intro a ha hb
    simp only [List.mem_singleton] at hb
    subst hb
    exact hk ha

/-- Filling a map from a list: the keys are those it had and those of the list,
each once. -/
theorem foldl_setKey (l : List String) :
    ∀ init : List String, init.Nodup →
      (l.foldl setKey init).Nodup ∧
      ∀ u, u ∈ l.foldl setKey init ↔ u ∈ init ∨ u ∈ l := by
  induction l with
  | nil => intro init h; exact ⟨h, fun u => by simp⟩
  | cons x xs ih =>
    intro init h
    obtain ⟨h1, h2⟩ := ih (setKey init x) (setKey_nodup init x h)
    refine ⟨h1, fun u => ?_⟩
    simp only [List.foldl_cons]
    rw [h2 u, setKey_mem]
    simp only [List.mem_cons]
    tauto

/-- The privilege loop on privileges that all read as `all`, `read` or `write`:
each flag is set when it was set or its privilege is among them. -/
theorem parsePrivileges_ok (ToLower : String → String) (privs : List String) :
    ∀ (isAll isRead isWrite : Bool),
      (∀ priv ∈ privs, ToLower priv = "all" ∨ ToLower priv = "read" ∨ ToLower priv = "write") →
      parsePrivileges ToLower privs (isAll, isRead, isWrite)
        = .ok (isAll || privs.any (fun priv => ToLower priv == "all"),
               isRead || privs.any (fun priv => ToLower priv == "read"),
               isWrite || privs.any (fun priv => ToLower priv == "write")) := by
  induction privs with
  | nil => intro a r w _; simp [parsePrivileges]
  | cons priv rest ih =>
    intro a r w hv
    have hrest := fun q hq => hv q (List.mem_cons_of_mem _ hq)
    have h1 : ("all" : String) ≠ "read" := by decide
    have h2 : ("all" : String) ≠ "write" := by decide
    have h3 : ("read" : String) ≠ "write" := by decide
    unfold parsePrivileges
    rcases hv priv (List.mem_cons_self _ _) with h | h | h
    · simp only [h, if_true]
      rw [ih _ _ _ hrest]
      simp [h, h1, h2]
    · simp only [h, h1.symm, if_true, if_false]
      rw [ih _ _ _ hrest]
      simp [h, h1.symm, h3]
    · simp only [h, h2.symm, h3.symm, if_true, if_false]
      rw [ih _ _ _ hrest]
      simp [h, h2.symm, h3.symm]

/-- The privilege loop on privileges one of which reads as none of `all`, `read`
and `write`: it returns the error of an unknown privilege. -/
theorem parsePrivileges_unknown (ToLower : String → String) (privs : List String) :
    ∀ (flags : Bool × Bool × Bool),
      (∃ priv ∈ privs,
        ¬ (ToLower priv = "all" ∨ ToLower priv = "read" ∨ ToLower priv = "write")) →
      ∃ priv, parsePrivileges ToLower privs flags = .error (.unknownPrivilege priv) := by
  induction privs with
  | nil => intro flags h; simp at h
  | cons priv rest ih =>
    intro flags h
    obtain ⟨isAll, isRead, isWrite⟩ := flags
    unfold parsePrivileges
    by_cases hv : ToLower priv = "all" ∨ ToLower priv = "read" ∨ ToLower priv = "write"
    · have hrest : ∃ q ∈ rest,
          ¬ (ToLower q = "all" ∨ ToLower q = "read" ∨ ToLower q = "write") := by
        obtain ⟨q, hq, hbad⟩ := h
        rcases List.mem_cons.mp hq with rfl | hq
        · exact absurd hv hbad
        · exact ⟨q, hq, hbad⟩
      split
      · exact ih _ hrest
      · split
        · exact ih _ hrest
        · split
          · exact ih _ hrest
          · exact ⟨priv, rfl⟩
    · simp only [not_or] at hv
      simp only [hv.1, hv.2.1, hv.2.2, if_false]
      exact ⟨priv, rfl⟩

/-- The grantee loop on grantees none of which is the root user: the grantees are
added to the readers when `ALL` or `READ` was named and to the writers when `ALL`
or `WRITE` was named, and the maps stay free of duplicates. -/
theorem setGrantees_ok (RootUser : String) (isAll isRead isWrite : Bool)
    (grantees : List String) :
    ∀ (readers writers : List String), RootUser ∉ grantees →
      ∃ readers' writers',
        setGrantees RootUser isAll isRead isWrite grantees readers writers
          = .ok (readers', writers') ∧
        (∀ u, u ∈ readers' ↔ u ∈ readers ∨ ((isAll || isRead) = true ∧ u ∈ grantees)) ∧
        (∀ u, u ∈ writers' ↔ u ∈ writers ∨ ((isAll || isWrite) = true ∧ u ∈ grantees)) ∧
        (readers.Nodup → readers'.Nodup) ∧ (writers.Nodup → writers'.Nodup) := by
  induction grantees with
  | nil =>
    intro readers writers _
    exact ⟨readers, writers, rfl, by simp, by simp, id, id⟩
  | cons g rest ih =>
    intro readers writers hroot
    have hg : ¬ g = RootUser := fun h => hroot (by rw [h]; exact List.mem_cons_self _ _)
    have hrest : RootUser ∉ rest := fun h => hroot (List.mem_cons_of_mem _ h)
    unfold setGrantees
    simp only [hg, if_false]
    obtain ⟨r', w', h1, h2, h3, h4, h5⟩ := ih
      (if (isAll || isRead) = true then setKey readers g else readers)
      (if (isAll || isWrite) = true then setKey writers g else writers) hrest
    refine ⟨r', w', h1, ?_, ?_, ?_, ?_⟩
    · intro u
      rw [h2 u]
      by_cases hf : (isAll || isRead) = true
      · simp only [hf, if_true, setKey_mem, List.mem_cons, true_and]
        tauto
      · simp [hf]
    · intro u
      rw [h3 u]
      by_cases hf : (isAll || isWrite) = true
      · simp only [hf, if_true, setKey_mem, List.mem_cons, true_and]
        tauto
      · simp [hf]
    · intro hn
      apply h4
      split
      · exact setKey_nodup _ _ hn
      · exact hn
    · intro hn
      apply h5
      split
      · exact setKey_nodup _ _ hn
      · exact hn

/-- The grantee loop on grantees one of which is the root user: it returns the
error that the permissions of the root user cannot be modified. -/
theorem setGrantees_root (RootUser : String) (isAll isRead isWrite : Bool)
    (grantees : List String) :
    ∀ (readers writers : List String), RootUser ∈ grantees →
      setGrantees RootUser isAll isRead isWrite grantees readers writers
        = .error (.cannotModifyPermissions RootUser) := by
  induction grantees with
  | nil => intro _ _ h; simp at h
  | cons g rest ih =>
    intro readers writers h
    unfold setGrantees
    by_cases hg : g = RootUser
    · simp [hg]
    · simp only [hg, if_false]
      apply ih
      rcases List.mem_cons.mp h with h | h
      · exact absurd h.symm hg
      · exact h

/-! ## `Grant`: what is written and what is refused -/

/-- C13: for a statement with a non-empty target, privileges that all read,
case-insensitively, as `ALL`, `READ` or `WRITE`, with `ALL` not combined with the
others, and grantees that do not include the root user, on a database whose
descriptor is found, `Grant` issues one conditional put, of a descriptor that
differs from the old one in its lists only: its Read list has, as a set, the old
readers and, when `ALL` or `READ` was named, the grantees; its Write list has the
old writers and, when `ALL` or `WRITE` was named, the grantees; and neither list
has a duplicate, whatever the order in which the maps are ranged over. The
descriptor is stored, and the plan node returned, when the put succeeds. -/
theorem C13_grant_adds_grantees {δ : Type} (p : Planner δ) (db : δ) (n : GrantStmt)
    (dbDesc : DatabaseDescriptor)
    (hperm : ∀ i keys, (p.rangeOrder i keys).Perm keys)
    (htarget : n.Target ≠ "")
    (hprivs : ∀ priv ∈ n.Privileges,
      p.ToLower priv = "all" ∨ p.ToLower priv = "read" ∨ p.ToLower priv = "write")
    (halone : n.names p "all" = true → n.names p "read" = false ∧ n.names p "write" = false)
    (hroot : p.RootUser ∉ n.Grantees)
    (hdesc : p.getDatabaseDesc db (p.NameString n.Target) = .ok dbDesc) :
    ∃ newDesc : DatabaseDescriptor,
      (Grant p db n).puts = [⟨p.MakeDescMetadataKey dbDesc.ID, newDesc, dbDesc⟩] ∧
      newDesc.Name = dbDesc.Name ∧ newDesc.ID = dbDesc.ID ∧
      (∀ u, u ∈ newDesc.Read ↔
        u ∈ dbDesc.Read ∨ ((n.names p "all" || n.names p "read") = true ∧ u ∈ n.Grantees)) ∧
      newDesc.Read.Nodup ∧
      (∀ u, u ∈ newDesc.Write ↔
        u ∈ dbDesc.Write ∨ ((n.names p "all" || n.names p "write") = true ∧ u ∈ n.Grantees)) ∧
      newDesc.Write.Nodup ∧
      (∀ db', p.CPut db (p.MakeDescMetadataKey dbDesc.ID) newDesc dbDesc = .ok db' →
        (Grant p db n).node = .ok .valuesNode ∧ (Grant p db n).db = db') ∧
      (∀ err, p.CPut db (p.MakeDescMetadataKey dbDesc.ID) newDesc dbDesc = .error err →
        (Grant p db n).node = .error err ∧ (Grant p db n).db = db) := by
  have hparse := parsePrivileges_ok p.ToLower n.Privileges false false false hprivs
  simp only [Bool.false_or] at hparse
  have hcomb : (n.names p "all" && (n.names p "read" || n.names p "write")) = false := by
    cases ha : n.names p "all" with
    | false => rfl
    | true =>
      obtain ⟨h1, h2⟩ := halone ha
      simp [h1, h2]
  obtain ⟨r0n, r0m⟩ := foldl_setKey dbDesc.Read [] List.nodup_nil
  obtain ⟨w0n, w0m⟩ := foldl_setKey dbDesc.Write [] List.nodup_nil
  obtain ⟨readers, writers, hset, hr, hw, hrn, hwn⟩ :=
    setGrantees_ok p.RootUser (n.names p "all") (n.names p "read") (n.names p "write")
      n.Grantees (dbDesc.Read.foldl setKey []) (dbDesc.Write.foldl setKey []) hroot
  have hgrant : Grant p db n =
      match p.CPut db (p.MakeDescMetadataKey dbDesc.ID)
          { dbDesc with Read := p.rangeOrder 0 readers, Write := p.rangeOrder 1 writers }
          dbDesc with
      | .error err =>
        ⟨.error err, db, [⟨p.MakeDescMetadataKey dbDesc.ID,
          { dbDesc with Read := p.rangeOrder 0 readers, Write := p.rangeOrder 1 writers },
          dbDesc⟩]⟩
      | .ok db' =>
        ⟨.ok .valuesNode, db', [⟨p.MakeDescMetadataKey dbDesc.ID,
          { dbDesc with Read := p.rangeOrder 0 readers, Write := p.rangeOrder 1 writers },
          dbDesc⟩]⟩ := by
    unfold Grant
    simp only [htarget, if_false, hparse]
    unfold GrantStmt.names at hcomb hset
    simp only [hcomb, Bool.false_eq_true, if_false, hdesc, hset]
  refine ⟨{ dbDesc with Read := p.rangeOrder 0 readers, Write := p.rangeOrder 1 writers },
    ?_, rfl, rfl, ?_, ?_, ?_, ?_, ?_, ?_⟩
  · rw [hgrant]
    split <;> rfl
  · intro u
    simp only []
    rw [(hperm 0 readers).mem_iff, hr u, r0m u]
    simp
  · exact (hperm 0 readers).nodup_iff.mpr (hrn r0n)
  · intro u
    simp only []
    rw [(hperm 1 writers).mem_iff, hw u, w0m u]
    simp
  · exact (hperm 1 writers).nodup_iff.mpr (hwn w0n)
  · intro db' hput
    rw [hgrant, hput]
    exact ⟨rfl, rfl⟩
  · intro err hput
    rw [hgrant, hput]
    exact ⟨rfl, rfl⟩

/-- C13 on the test: `GRANT WRITE ... TO foo` on the sample store leaves the
readers as they were and adds `foo` to the writers, and `GRANT ALL ... TO bar`
after it adds `bar` to both. -/
theorem C13_grant_adds_grantees_witness :
    (Grant samplePlanner sampleStore ⟨["WRITE"], "test", ["foo"]⟩).db
      = [(1000, { Name := "test", ID := 1000, Read := ["root"], Write := ["root", "foo"] })] ∧
    (Grant samplePlanner
        (Grant samplePlanner sampleStore ⟨["WRITE"], "test", ["foo"]⟩).db
        ⟨["ALL"], "test", ["bar"]⟩).db
      = [(1000, { Name := "test", ID := 1000, Read := ["root", "bar"],
                  Write := ["root", "foo", "bar"] })] ∧
    ∃ newDesc : DatabaseDescriptor,
      (Grant samplePlanner sampleStore ⟨["WRITE"], "test", ["foo"]⟩).puts
        = [⟨1000, newDesc,
            { Name := "test", ID := 1000, Read := ["root"], Write := ["root"] }⟩] ∧
      (∀ u, u ∈ newDesc.Read ↔ u ∈ ["root"] ∨
        (((⟨["WRITE"], "test", ["foo"]⟩ : GrantStmt).names samplePlanner "all"
          || (⟨["WRITE"], "test", ["foo"]⟩ : GrantStmt).names samplePlanner "read") = true
          ∧ u ∈ ["foo"])) :=
  ⟨by decide, by decide,
    match C13_grant_adds_grantees samplePlanner sampleStore ⟨["WRITE"], "test", ["foo"]⟩
      { Name := "test", ID := 1000, Read := ["root"], Write := ["root"] }
      (fun _ keys => List.Perm.refl keys) (by decide) (by decide) (by decide) (by decide)
      rfl with
    | ⟨newDesc, h1, _, _, h4, _⟩ => ⟨newDesc, h1, h4⟩⟩

/-- C14: a statement whose grantees include the root user, whatever its privileges
and its other grantees, and likewise a statement with an empty target, with a
privilege that reads as none of `ALL`, `READ` and `WRITE`, or with `ALL` combined
with `READ` or `WRITE`, makes `Grant` return an error without issuing a
conditional put: the store is as before. -/
theorem C14_grant_refuses_without_writing {δ : Type} (p : Planner δ) (db : δ) (n : GrantStmt)
    (h : p.RootUser ∈ n.Grantees ∨ n.Target = "" ∨
      (∃ priv ∈ n.Privileges,
        ¬ (p.ToLower priv = "all" ∨ p.ToLower priv = "read" ∨ p.ToLower priv = "write")) ∨
      (n.names p "all" = true ∧ (n.names p "read" = true ∨ n.names p "write" = true))) :
    (∃ err, (Grant p db n).node = .error err) ∧
    (Grant p db n).puts = [] ∧
    (Grant p db n).db = db := by
  unfold Grant
  by_cases htarget : n.Target = ""
  · simp [htarget]
  · simp only [htarget, if_false]
    by_cases hv : ∀ priv ∈ n.Privileges,
        p.ToLower priv = "all" ∨ p.ToLower priv = "read" ∨ p.ToLower priv = "write"
    · have hparse := parsePrivileges_ok p.ToLower n.Privileges false false false hv
      simp only [Bool.false_or] at hparse
      simp only [hparse]
      by_cases hcomb : (n.names p "all" && (n.names p "read" || n.names p "write")) = true
      · unfold GrantStmt.names at hcomb
        simp [hcomb]
      · have hcomb' := hcomb
        unfold GrantStmt.names at hcomb'
        simp only [hcomb', if_false]
        cases hd : p.getDatabaseDesc db (p.NameString n.Target) with
        | error err => simp
        | ok dbDesc =>
          simp only []
          have hroot : p.RootUser ∈ n.Grantees := by
            rcases h with h | h | h | h
            · exact h
            · exact absurd h htarget
            · obtain ⟨q, hq, hbad⟩ := h
              exact absurd (hv q hq) hbad
            · exfalso
              apply hcomb
              obtain ⟨h1, h2⟩ := h
              rw [h1]
              rcases h2 with h2 | h2 <;> simp [h2]
          rw [setGrantees_root p.RootUser _ _ _ n.Grantees _ _ hroot]
          simp
    · obtain ⟨priv, hpriv⟩ := parsePrivileges_unknown p.ToLower n.Privileges
        (false, false, false) (by
          simp only [not_forall] at hv
          obtain ⟨q, hq, hbad⟩ := hv
          exact ⟨q, hq, hbad⟩)
      simp [hpriv]

/-- C14 on the test: `GRANT ALL ... TO root` on the sample store is refused, no
conditional put is issued and the store is as before. -/
theorem C14_grant_refuses_without_writing_witness :
    (Grant samplePlanner sampleStore ⟨["ALL"], "test", ["root"]⟩).node
      = .error (.cannotModifyPermissions "root") ∧
    (Grant samplePlanner sampleStore ⟨["ALL"], "test", ["foo", "root"]⟩).puts = [] ∧
    (Grant samplePlanner sampleStore ⟨["ALL"], "test", ["foo", "root"]⟩).db = sampleStore :=
  ⟨rfl,
    (C14_grant_refuses_without_writing samplePlanner sampleStore
      ⟨["ALL"], "test", ["foo", "root"]⟩ (Or.inl (by decide))).2⟩

end sql
